import Mathlib

/-!
Verification of the boolean / pseudo-boolean constraint engine of the
conda repository (file `conda/common/_logic.py`): the clause stores,
the logical combinators, the BDD-based `LinearBound` encoder, the SAT
driver and the bisection minimizer, together with proofs of the
specified properties.

Python integers are modelled as `Int`, clauses as `List Int`, the
mutable driver as explicit state passing over `CState`.  The two
reserved sentinel literals are the concrete values of `sys.maxsize`
and `-sys.maxsize` on a 64-bit build, exactly as in the source.
-/

namespace CondaLogic

/-- Python `TRUE = sys.maxsize` on a 64-bit build. -/
def TRUE : Int := 9223372036854775807

/-- Python `FALSE = -TRUE`. -/
def FALSE : Int := -TRUE

/-- A CNF clause: a sequence of literals interpreted as a disjunction. -/
abbrev Clause := List Int

/-! ### Clause stores (`_ClauseList` and `_ClauseArray`) -/

/-- Python `_ClauseList.append`. -/
def clAppend (s : List Clause) (c : Clause) : List Clause := s ++ [c]

/-- Python `_ClauseList.extend` (list concatenation). -/
def clExtend (s : List Clause) (cs : List Clause) : List Clause := s ++ cs

/-- Python `_ClauseList.save_state`: the current number of clauses. -/
def clSave (s : List Clause) : Nat := s.length

/-- Python `_ClauseList.restore_state`: truncate to the saved length. -/
def clRestore (s : List Clause) (tok : Nat) : List Clause := s.take tok

/-- Python `_ClauseList.as_list` (the identity on the stored list). -/
def clAsList (s : List Clause) : List Clause := s

/-- Python `_ClauseArray.append`: extend the flat array by the clause
followed by a `0` terminator. -/
def caAppend (arr : List Int) (c : Clause) : List Int := arr ++ c ++ [0]

/-- Python `_ClauseArray.extend`: iterated `append`. -/
def caExtend (arr : List Int) (cs : List Clause) : List Int := cs.foldl caAppend arr

/-- Python `_ClauseArray.save_state`: the current length of the flat array. -/
def caSave (arr : List Int) : Nat := arr.length

/-- Python `_ClauseArray.restore_state`: truncate to the saved length. -/
def caRestore (arr : List Int) (tok : Nat) : List Int := arr.take tok

/-- Helper for `caAsList`: accumulate literals until a `0` terminator. -/
def caAsListAux (acc : Clause) : List Int → List Clause
  | [] => []
  | v :: rest => if v = 0 then acc :: caAsListAux [] rest else caAsListAux (acc ++ [v]) rest

/-- Python `_ClauseArray.as_list`: parse the flat 0-terminated array
back into a list of clauses. -/
def caAsList (arr : List Int) : List Clause := caAsListAux [] arr

/-- An append-type operation on a clause store (`append` or `extend`). -/
inductive StoreOp where
  | one : Clause → StoreOp
  | many : List Clause → StoreOp

/-- Apply one store operation to a `_ClauseList`. -/
def clApply (s : List Clause) : StoreOp → List Clause
  | .one c => clAppend s c
  | .many cs => clExtend s cs

/-- Apply a sequence of store operations to a `_ClauseList`. -/
def clApplyAll (s : List Clause) (ops : List StoreOp) : List Clause := ops.foldl clApply s

/-- Apply one store operation to a `_ClauseArray`. -/
def caApply (arr : List Int) : StoreOp → List Int
  | .one c => caAppend arr c
  | .many cs => caExtend arr cs

/-- Apply a sequence of store operations to a `_ClauseArray`. -/
def caApplyAll (arr : List Int) (ops : List StoreOp) : List Int := ops.foldl caApply arr

/-! ### The driver state (`Clauses`) -/

/-- State of a `Clauses` driver: the variable counter `m`, the sticky
`unsat` flag, and the clause store (a `_ClauseList`, as used by
`_SatSolver.__init__`). -/
structure CState where
  m : Int
  unsat : Bool
  clauses : List Clause
deriving DecidableEq

/-- Python `Clauses.new_var`. -/
def new_var (s : CState) : Int × CState := (s.m + 1, { s with m := s.m + 1 })

/-- Python `Clauses.add_clause` (bound `_ClauseList.append`). -/
def add_clause (s : CState) (c : Clause) : CState := { s with clauses := s.clauses ++ [c] }

/-- Python `Clauses.add_clauses` (bound `_ClauseList.extend`). -/
def add_clauses (s : CState) (cs : List Clause) : CState := { s with clauses := s.clauses ++ cs }

/-- Python `_SatSolver.save_state` for the driver's `_ClauseList` store. -/
def save_state (s : CState) : Nat := s.clauses.length

/-- Python `_SatSolver.restore_state` for the driver's `_ClauseList`
store; the variable counter `m` is untouched. -/
def restore_state (s : CState) (tok : Nat) : CState := { s with clauses := s.clauses.take tok }

/-- Value of a combinator call: either a literal, or a deferred
`(positive clauses, negative clauses)` pair. -/
inductive CVal where
  | lit : Int → CVal
  | pair : List Clause → List Clause → CVal
deriving DecidableEq

/-- Extract the literal from a `CVal` known to be a literal. -/
def CVal.toLit : CVal → Int
  | .lit x => x
  | .pair _ _ => 0

/-- Check whether a `CVal` is a deferred pair (Python `isinstance(v, tuple)`). -/
def CVal.isPair : CVal → Bool
  | .pair _ _ => true
  | .lit _ => false

/-- Positive clause list of a deferred pair. -/
def CVal.pv : CVal → List Clause
  | .pair p _ => p
  | .lit _ => []

/-- Negative clause list of a deferred pair. -/
def CVal.nv : CVal → List Clause
  | .pair _ n => n
  | .lit _ => []

/-- Polarity of an evaluation: Python `True`, `False` or `None`. -/
abbrev Polarity := Option Bool

/-- Python `polarity in (True, None)`. -/
def posPol : Polarity → Bool
  | some false => false
  | _ => true

/-- Python `polarity in (False, None)`. -/
def negPol : Polarity → Bool
  | some true => false
  | _ => true

/-- Python `Clauses.assign`: materialize a deferred pair through a
fresh variable, pass a literal through. -/
def assign (s : CState) (v : CVal) : Int × CState :=
  match v with
  | .lit x => (x, s)
  | .pair pval nval =>
    let r := new_var s
    let s2 := add_clauses r.2 (pval.map (fun y => -r.1 :: y))
    let s3 := add_clauses s2 (nval.map (fun y => r.1 :: y))
    (r.1, s3)

/-! ### Combinators -/

/-- Python `Clauses.Not`. -/
def NotC (x : Int) : Int := -x

/-- Python `Clauses.And`. -/
def AndC (f g : Int) (pol : Polarity) (add_new_clauses : Bool) (s : CState) : CVal × CState :=
  if f = FALSE ∨ g = FALSE then (.lit FALSE, s)
  else if f = TRUE then (.lit g, s)
  else if g = TRUE then (.lit f, s)
  else if f = g then (.lit f, s)
  else if f = -g then (.lit FALSE, s)
  else
    let p := if g < f then (g, f) else (f, g)
    let f := p.1
    let g := p.2
    if add_new_clauses then
      let r := new_var s
      let x := r.1
      let s2 := if posPol pol then add_clauses r.2 [[-x, f], [-x, g]] else r.2
      let s3 := if negPol pol then add_clauses s2 [[x, -f, -g]] else s2
      (.lit x, s3)
    else
      (.pair (if posPol pol then [[f], [g]] else [])
             (if negPol pol then [[-f, -g]] else []), s)

/-- Python `Clauses.Or`. -/
def OrC (f g : Int) (pol : Polarity) (add_new_clauses : Bool) (s : CState) : CVal × CState :=
  if f = TRUE ∨ g = TRUE then (.lit TRUE, s)
  else if f = FALSE then (.lit g, s)
  else if g = FALSE then (.lit f, s)
  else if f = g then (.lit f, s)
  else if f = -g then (.lit TRUE, s)
  else
    let p := if g < f then (g, f) else (f, g)
    let f := p.1
    let g := p.2
    if add_new_clauses then
      let r := new_var s
      let x := r.1
      let s2 := if posPol pol then add_clauses r.2 [[-x, f, g]] else r.2
      let s3 := if negPol pol then add_clauses s2 [[x, -f], [x, -g]] else s2
      (.lit x, s3)
    else
      (.pair (if posPol pol then [[f, g]] else [])
             (if negPol pol then [[-f], [-g]] else []), s)

/-- Python `Clauses.Xor`. -/
def XorC (f g : Int) (pol : Polarity) (add_new_clauses : Bool) (s : CState) : CVal × CState :=
  if f = FALSE then (.lit g, s)
  else if f = TRUE then (.lit (-g), s)
  else if g = FALSE then (.lit f, s)
  else if g = TRUE then (.lit (-f), s)
  else if f = g then (.lit FALSE, s)
  else if f = -g then (.lit TRUE, s)
  else
    let p := if g < f then (g, f) else (f, g)
    let f := p.1
    let g := p.2
    if add_new_clauses then
      let r := new_var s
      let x := r.1
      let s2 := if posPol pol then add_clauses r.2 [[-x, f, g], [-x, -f, -g]] else r.2
      let s3 := if negPol pol then add_clauses s2 [[x, -f, g], [x, f, -g]] else s2
      (.lit x, s3)
    else
      (.pair (if posPol pol then [[f, g], [-f, -g]] else [])
             (if negPol pol then [[-f, g], [f, -g]] else []), s)

/-- Python `Clauses.ITE`. -/
def ITEC (c t f : Int) (pol : Polarity) (add_new_clauses : Bool) (s : CState) : CVal × CState :=
  if c = TRUE then (.lit t, s)
  else if c = FALSE then (.lit f, s)
  else if t = TRUE then OrC c f pol add_new_clauses s
  else if t = FALSE then AndC (-c) f pol add_new_clauses s
  else if f = FALSE then AndC c t pol add_new_clauses s
  else if f = TRUE then OrC t (-c) pol add_new_clauses s
  else if t = c then OrC c f pol add_new_clauses s
  else if t = -c then AndC (-c) f pol add_new_clauses s
  else if f = c then AndC c t pol add_new_clauses s
  else if f = -c then OrC t (-c) pol add_new_clauses s
  else if t = f then (.lit t, s)
  else if t = -f then XorC c f pol add_new_clauses s
  else
    let w := if t < f then (f, t, -c) else (t, f, c)
    let t := w.1
    let f := w.2.1
    let c := w.2.2
    if add_new_clauses then
      let r := new_var s
      let x := r.1
      let s2 := if posPol pol then add_clauses r.2 [[-x, -c, t], [-x, c, f], [-x, t, f]] else r.2
      let s3 := if negPol pol then add_clauses s2 [[x, -c, -t], [x, c, -f], [x, -t, -f]] else s2
      (.lit x, s3)
    else
      (.pair (if posPol pol then [[-c, t], [c, f], [t, f]] else [])
             (if negPol pol then [[-c, -t], [c, -f], [-t, -f]] else []), s)

/-- Common tail of `Clauses.All` once the deduplicated literal list is
known (kept in first-insertion order). -/
def allFinish (vals : List Int) (pol : Polarity) : CVal :=
  match vals with
  | [] => .lit TRUE
  | [v] => .lit v
  | _ => .pair (if posPol pol then vals.map (fun v => [v]) else [])
               (if negPol pol then [vals.map (fun v => -v)] else [])

/-- Accumulating loop of `Clauses.All`. -/
def allLoop (acc : List Int) : List Int → Option (List Int)
  | [] => some acc
  | v :: rest =>
    if v = TRUE then allLoop acc rest
    else if v = FALSE ∨ -v ∈ acc then none
    else allLoop (if v ∈ acc then acc else acc ++ [v]) rest

/-- Python `Clauses.All`. -/
def AllC (l : List Int) (pol : Polarity) : CVal :=
  match allLoop [] l with
  | none => .lit FALSE
  | some vals => allFinish vals pol

/-- Common tail of `Clauses.Any`. -/
def anyFinish (vals : List Int) (pol : Polarity) : CVal :=
  match vals with
  | [] => .lit FALSE
  | [v] => .lit v
  | _ => .pair (if posPol pol then [vals] else [])
               (if negPol pol then vals.map (fun v => [-v]) else [])

/-- Accumulating loop of `Clauses.Any`. -/
def anyLoop (acc : List Int) : List Int → Option (List Int)
  | [] => some acc
  | v :: rest =>
    if v = FALSE then anyLoop acc rest
    else if v = TRUE ∨ -v ∈ acc then none
    else anyLoop (if v ∈ acc then acc else acc ++ [v]) rest

/-- Python `Clauses.Any`. -/
def AnyC (l : List Int) (pol : Polarity) : CVal :=
  match anyLoop [] l with
  | none => .lit TRUE
  | some vals => anyFinish vals pol

/-- Lazy `All(map(self.assign, args), polarity)` as used by `Combine`:
each argument is assigned just before the `All` loop inspects it, so a
short-circuit stops further assignments. -/
def combineAll (pol : Polarity) (acc : List Int) (args : List CVal) (s : CState) :
    CVal × CState :=
  match args with
  | [] => (allFinish acc pol, s)
  | v :: rest =>
    let r := assign s v
    let x := r.1
    if x = TRUE then combineAll pol acc rest r.2
    else if x = FALSE ∨ -x ∈ acc then (.lit FALSE, r.2)
    else combineAll pol (if x ∈ acc then acc else acc ++ [x]) rest r.2

/-- Python `Clauses.Combine`. -/
def Combine (args : List CVal) (pol : Polarity) (s : CState) : CVal × CState :=
  if args.any (fun v => decide (v = CVal.lit FALSE)) then (.lit FALSE, s)
  else
    let args2 := args.filter (fun v => !decide (v = CVal.lit TRUE))
    match args2 with
    | [] => (.lit TRUE, s)
    | [v] => (v, s)
    | _ => if args2.all CVal.isPair
           then (.pair (args2.flatMap CVal.pv) (args2.flatMap CVal.nv), s)
           else combineAll pol [] args2 s

/-! ### Eval / Require / Prevent and the solve entry point -/

/-- Python expression `(vals == TRUE) != polarity` with Python
semantics: comparing a bool with `None` is always `True`. -/
def neqPol (b : Bool) (pol : Polarity) : Bool :=
  match pol with
  | none => true
  | some p => b != p

/-- Python `Clauses.Eval`. -/
def Eval (func : Polarity → CState → CVal × CState) (pol : Polarity) (s : CState) : CState :=
  let saved := save_state s
  let r := func pol s
  match r.1 with
  | .pair pval nval => add_clauses (add_clauses r.2 pval) nval
  | .lit v =>
    if v ≠ TRUE ∧ v ≠ FALSE then
      add_clause r.2 [if pol = some true then v else -v]
    else
      let s2 := restore_state r.2 saved
      { s2 with unsat := s2.unsat || neqPol (decide (v = TRUE)) pol }

/-- Python `Clauses.Prevent`. -/
def Prevent (func : Polarity → CState → CVal × CState) (s : CState) : CState :=
  Eval func (some false) s

/-- Python `Clauses.Require`. -/
def Require (func : Polarity → CState → CVal × CState) (s : CState) : CState :=
  Eval func (some true) s

/-- A SAT backend: a function of the variable count, the propagation
limit, and the clause list, returning a model (the list of literals
that are true in it) or `none`. -/
def Backend : Type := Int → Int → List Clause → Option (List Int)

/-- Inner generator `preproc_` of `Clauses.sat`: drop `FALSE` literals,
stop after an embedded `TRUE`. -/
def preprocClause : Clause → Clause
  | [] => []
  | c :: rest =>
    if c = FALSE then preprocClause rest
    else if c = TRUE then [c]
    else c :: preprocClause rest

/-- Outer generator `preproc` of `Clauses.sat`: a clause reduced to
empty is yielded and stops the scan; clauses ending in `TRUE` are
dropped. -/
def preprocAdd : List Clause → List Clause
  | [] => []
  | cc :: rest =>
    let cc2 := preprocClause cc
    if cc2 = [] then [[]]
    else if cc2.getLast? ≠ some TRUE then cc2 :: preprocAdd rest
    else preprocAdd rest

/-- Python `Clauses.sat`. -/
def sat (backend : Backend) (additional : List Clause) (includeIf : Bool) (limit : Int)
    (s : CState) : Option (List Int) × CState :=
  if s.unsat then (none, s)
  else if s.m = 0 then (some [], s)
  else
    let saved := save_state s
    let add2 := if additional ≠ [] then preprocAdd additional else []
    if add2 ≠ [] ∧ add2.getLast? = some [] then (none, s)
    else
      let s1 := if add2 ≠ [] then add_clauses s add2 else s
      let sol := backend s1.m limit s1.clauses
      if add2 ≠ [] ∧ (sol = none ∨ includeIf = false) then (sol, restore_state s1 saved)
      else (sol, s1)

/-! ### Pseudo-boolean preprocessing and the BDD encoder -/

/-- Stable insertion into a sorted list (used to model Python `sorted`;
the comparison used below is a total antisymmetric order, for which
every correct sort produces the same output). -/
def insertLe (le : α → α → Bool) (x : α) : List α → List α
  | [] => [x]
  | y :: ys => if le x y then x :: y :: ys else y :: insertLe le x ys

/-- Insertion sort by a boolean comparison. -/
def sortLe (le : α → α → Bool) : List α → List α
  | [] => []
  | x :: xs => insertLe le x (sortLe le xs)

/-- Lexicographic comparison of `(coeff, lit)` pairs — Python tuple order. -/
def lexLe (a b : Int × Int) : Bool :=
  decide (a.1 < b.1) || (decide (a.1 = b.1) && decide (a.2 ≤ b.2))

/-- Accumulating loop of `Clauses.LB_Preprocess` building the
`(coeff, lit)` equation and the constant offset. -/
def lbpLoop : List (Int × Int) → List (Int × Int) × Int
  | [] => ([], 0)
  | p :: rest =>
    let r := lbpLoop rest
    if p.2 = TRUE then (r.1, r.2 + p.1)
    else if p.2 = FALSE ∨ p.1 = 0 then r
    else if p.1 < 0 then ((-p.1, -p.2) :: r.1, r.2 + p.1)
    else (p :: r.1, r.2)

/-- Python `Clauses.LB_Preprocess`: returns `(lits, coeffs, offset)`. -/
def LB_Preprocess (lits coeffs : List Int) : List Int × List Int × Int :=
  let r := lbpLoop (coeffs.zip lits)
  let sorted := sortLe lexLe r.1
  (sorted.map (fun p => p.2), sorted.map (fun p => p.1), r.2)

/-- Memoization table of the BDD construction, keyed by
`(ndx + 1, csum, total)`. -/
abbrev Memo := List ((Nat × Int × Int) × Int)

/-- Lookup in the memoization table (Python `ret.get`). -/
def memoFind (k : Nat × Int × Int) : Memo → Option Int
  | [] => none
  | e :: rest => if e.1 = k then some e.2 else memoFind k rest

/-- One subproblem of `Clauses.BDD`, evaluated recursively with
memoization.  The first argument `n` is `ndx + 1`, so `n = 0` is the
exhausted frame `ndx = -1`.  This matches the explicit-stack evaluation
of the source, which computes the `hi` child before the `lo` child and
memoizes every frame. -/
def bddRec (lits coeffs : List Int) (lo hi : Int) (pol : Polarity) :
    Nat → Int → Int → Memo → CState → Int × Memo × CState
  | n, csum, total, memo, s =>
    match memoFind (n, csum, total) memo with
    | some r => (r, memo, s)
    | none =>
      if lo - csum ≤ 0 ∧ hi - csum ≥ total then (TRUE, ((n, csum, total), TRUE) :: memo, s)
      else if lo - csum > total ∨ hi - csum < 0 then
        (FALSE, ((n, csum, total), FALSE) :: memo, s)
      else
        match n with
        | 0 => (0, memo, s)
        | n' + 1 =>
          let LA := lits.getD n' 0
          let LC := coeffs.getD n' 0
          let total2 := total - LC
          let r1 := bddRec lits coeffs lo hi pol n' (if LA < 0 then csum else csum + LC)
                      total2 memo s
          let r2 := bddRec lits coeffs lo hi pol n' (if LA < 0 then csum + LC else csum)
                      total2 r1.2.1 r1.2.2
          let r3 := ITEC (if LA < 0 then -LA else LA) r1.1 r2.1 pol true r2.2.2
          (r3.1.toLit, ((n, csum, total), r3.1.toLit) :: r2.2.1, r3.2)

/-- Python `Clauses.BDD`. -/
def BDD (lits coeffs : List Int) (nterms : Nat) (lo hi : Int) (pol : Polarity) (s : CState) :
    Int × CState :=
  let total := (coeffs.take nterms).sum
  let r := bddRec lits coeffs lo hi pol nterms 0 total [] s
  (r.1, r.2.2)

/-- Python `Clauses.LinearBound`. -/
def LinearBound (lits0 coeffs0 : List Int) (lo0 hi0 : Int) (preprocess : Bool) (pol : Polarity)
    (s : CState) : CVal × CState :=
  let pp := if preprocess then
      let r := LB_Preprocess lits0 coeffs0
      (r.1, r.2.1, lo0 - r.2.2, hi0 - r.2.2)
    else (lits0, coeffs0, lo0, hi0)
  let lits := pp.1
  let coeffs := pp.2.1
  let lo1 := pp.2.2.1
  let hi1 := pp.2.2.2
  let nterms0 := coeffs.length
  let nprune := if nterms0 ≠ 0 ∧ coeffs.getLast?.getD 0 > hi1
                then (coeffs.filter (fun c => decide (c > hi1))).length else 0
  let nterms := nterms0 - nprune
  let total := (coeffs.take nterms).sum
  let lo := if preprocess then max lo1 0 else lo1
  let hi := if preprocess then min hi1 total else hi1
  if lo > hi then (.lit FALSE, s)
  else
    let rs := if nterms = 0 then ((if lo = 0 then TRUE else FALSE), s)
              else BDD lits coeffs nterms lo hi pol s
    if nprune ≠ 0 then
      let prune := AllC ((lits.drop nterms).map (fun a => -a)) pol
      Combine [.lit rs.1, prune] pol rs.2
    else (.lit rs.1, rs.2)

/-! ### The minimizer -/

/-- Python local `peak_val` in `Clauses.minimize` (maximum objective
coefficient over the literals of a solution; `0` default for literals
outside the objective).  The Python `max` over a non-empty solution
with non-negative dictionary values coincides with this fold. -/
def peak_val (sol : List Int) (d : List (Int × Int)) : Int :=
  sol.foldl (fun acc x => max acc ((d.lookup x).getD 0)) 0

/-- Python local `sum_val` in `Clauses.minimize`. -/
def sum_val (sol : List Int) (d : List (Int × Int)) : Int :=
  sol.foldl (fun acc x => acc + (d.lookup x).getD 0) 0

/-- Objective of the current stage: peak or sum. -/
def objval (peak : Bool) (sol : List Int) (d : List (Int × Int)) : Int :=
  if peak then peak_val sol d else sum_val sol d

/-- Python dict `{a: c for c, a in zip(coeffs, lits)}` as an
association list, reversed so `lookup` finds the last binding. -/
def dictOf (coeffs lits : List Int) : List (Int × Int) :=
  ((coeffs.zip lits).map (fun p => (p.2, p.1))).reverse

/-- State of one bisection iteration of `Clauses.minimize`. -/
structure IterSt where
  lo : Int
  hi : Int
  try0 : Option Int
  bestsol : List Int
  bestval : Int
  st : CState
deriving DecidableEq

/-- Python `mid = try0` or `(lo+hi)//2` (floor division). -/
def bisectMid (lo hi : Int) (try0 : Option Int) : Int :=
  match try0 with
  | some t => t
  | none => (lo + hi).fdiv 2

/-- Driver state after emitting the probe constraints of one bisection
attempt: `Prevent`/`Require` over `Any` in the peak stage, a
`Require` of `LinearBound` in the sum stage. -/
def probeState (peak : Bool) (lits coeffs : List Int) (lo mid : Int) (st : CState) : CState :=
  if peak then
    let prevent := ((coeffs.zip lits).filter (fun p => decide (p.1 > mid))).map (fun p => p.2)
    let require := ((coeffs.zip lits).filter
        (fun p => decide (lo ≤ p.1 ∧ p.1 ≤ mid))).map (fun p => p.2)
    let st1 := Prevent (fun pol s => (AnyC prevent pol, s)) st
    if require ≠ [] then Require (fun pol s => (AnyC require pol, s)) st1 else st1
  else
    Require (fun pol s => LinearBound lits coeffs lo mid false pol s) st

/-- Tail of a continuing bisection iteration: reset `m`, roll the
clause store back to the saved state if it changed, clear `unsat`. -/
def resetProbe (m_orig : Int) (saved : Nat) (st : CState) : CState :=
  let cl := if st.clauses.length ≠ saved then st.clauses.take saved else st.clauses
  { m := m_orig, unsat := false, clauses := cl }

/-- One iteration of the bisection `while`-loop of `Clauses.minimize`.
Returns the updated state and `true` when the loop continues. -/
def bisectIter (backend : Backend) (peak : Bool) (lits coeffs : List Int)
    (odict : List (Int × Int)) (m_orig : Int) (saved : Nat) (s : IterSt) : IterSt × Bool :=
  let mid := bisectMid s.lo s.hi s.try0
  let st1 := probeState peak lits coeffs s.lo mid s.st
  let r := sat backend [] false 0 st1
  match r.1 with
  | none =>
    let lo2 := mid + 1
    if lo2 > s.hi then ({ s with lo := lo2, st := r.2 }, false)
    else ({ s with lo := lo2, try0 := none, st := resetProbe m_orig saved r.2 }, true)
  | some sol =>
    let done := decide (s.lo = mid)
    let bv := objval peak sol odict
    let s2 := { s with bestsol := sol, bestval := bv, hi := bv, st := r.2 }
    if done then (s2, false)
    else ({ s2 with try0 := none, st := resetProbe m_orig saved r.2 }, true)

/-- Fuel-bounded iteration of `bisectIter` (the Python loop runs until
a `break`; concrete runs below use ample fuel). -/
def bisectLoop (backend : Backend) (peak : Bool) (lits coeffs : List Int)
    (odict : List (Int × Int)) (m_orig : Int) (saved : Nat) : Nat → IterSt → IterSt
  | 0, s => s
  | fuel + 1, s =>
    let r := bisectIter backend peak lits coeffs odict m_orig saved s
    if r.2 then bisectLoop backend peak lits coeffs odict m_orig saved fuel r.1
    else r.1

/-- State threaded through the minimization stages. -/
structure StageSt where
  lits : List Int
  coeffs : List Int
  lo : Int
  try0 : Option Int
  bestsol : List Int
  bestval : Int
  st : CState

/-- One stage (peak or sum) of `Clauses.minimize`. -/
def runStage (backend : Backend) (fuel : Nat) (trymax peak : Bool) (g : StageSt) : StageSt :=
  let odict := dictOf g.coeffs g.lits
  let bv0 := objval peak g.bestsol odict
  let m_orig := g.st.m
  let saved := save_state g.st
  let try0 := if trymax ∧ peak = false then some (bv0 - 1) else g.try0
  let out := bisectLoop backend peak g.lits g.coeffs odict m_orig saved fuel
      { lo := g.lo, hi := bv0, try0 := try0, bestsol := g.bestsol, bestval := bv0, st := g.st }
  { g with lo := out.lo, try0 := out.try0, bestsol := out.bestsol, bestval := out.bestval,
           st := out.st }

/-- Post-processing after the peak stage: drop terms with coefficients
above the peak optimum, seed the sum stage. -/
def postPeak (g : StageSt) : StageSt :=
  let odict := dictOf g.coeffs g.lits
  { g with
    lits := ((g.coeffs.zip g.lits).filter (fun p => decide (p.1 ≤ g.bestval))).map (fun p => p.2),
    coeffs := g.coeffs.filter (fun c => decide (c ≤ g.bestval)),
    try0 := some (sum_val g.bestsol odict),
    lo := g.bestval }

/-- Run the list of minimization stages, stopping early on a zero
objective, applying the peak post-processing between stages. -/
def runStages (backend : Backend) (fuel : Nat) (trymax : Bool) :
    List Bool → StageSt → StageSt
  | [], g => g
  | peak :: rest, g =>
    let g1 := runStage backend fuel trymax peak g
    if g1.bestval = 0 then g1
    else if peak then runStages backend fuel trymax rest (postPeak g1)
    else runStages backend fuel trymax rest g1

/-- Python `Clauses.minimize`, fuel-bounded. -/
def minimize (backend : Backend) (fuel : Nat) (lits0 coeffs0 : List Int)
    (bestsol0 : Option (List Int)) (trymax : Bool) (st0 : CState) :
    Option (List Int) × Int × CState :=
  let r0 :=
    if bestsol0 = none ∨ ((bestsol0.getD []).length : Int) < st0.m
    then sat backend [] false 0 st0
    else (bestsol0, st0)
  let bestsol := r0.1
  let st := r0.2
  if bestsol = none ∨ st.unsat then
    (bestsol, (if coeffs0 ≠ [] then (coeffs0.map (fun c => |c|)).sum + 1 else 1), st)
  else if coeffs0 = [] then (bestsol, 0, st)
  else
    let pp := LB_Preprocess lits0 coeffs0
    let lits := pp.1
    let coeffs := pp.2.1
    let maxval := coeffs.foldl max 0
    let peaks := if maxval > 1 then [true, false] else [false]
    let g := runStages backend fuel trymax peaks
      { lits := lits, coeffs := coeffs, lo := 0, try0 := some 0,
        bestsol := bestsol.getD [], bestval := 0, st := st }
    (some g.bestsol, g.bestval, g.st)

/-! ### A concrete brute-force backend -/

/-- All boolean assignments of the given length, all-false first. -/
def assignments : Nat → List (List Bool)
  | 0 => [[]]
  | n + 1 => (assignments n).flatMap (fun b => [b ++ [false], b ++ [true]])

/-- Truth of a literal under a boolean vector (variable `i` at index `i-1`). -/
def bLit (b : List Bool) (l : Int) : Bool :=
  if l > 0 then b.getD (l - 1).toNat false
  else !(b.getD (-l - 1).toNat false)

/-- Truth of a clause under a boolean vector. -/
def bClause (b : List Bool) (c : Clause) : Bool := c.any (bLit b)

/-- Truth of a clause list under a boolean vector. -/
def bModel (b : List Bool) (cs : List Clause) : Bool := cs.all (bClause b)

/-- Encode a boolean vector as a list of signed literals. -/
def solOf (b : List Bool) : List Int :=
  (List.range b.length).map (fun i => if b.getD i false then (i : Int) + 1 else -((i : Int) + 1))

/-- Brute-force SAT backend: first satisfying assignment in
enumeration order (all-false first). -/
def bruteBackend : Backend := fun m _limit clauses =>
  match (assignments m.toNat).find? (fun b => bModel b clauses) with
  | some b => some (solOf b)
  | none => none

/-! ### Semantics -/

/-- Truth value of a literal under an assignment of the positive
variables; the sentinels are absolute constants. -/
def litVal (a : Int → Bool) (l : Int) : Bool :=
  if l = TRUE then true
  else if l = FALSE then false
  else if l > 0 then a l
  else !a (-l)

/-- Truth of a clause (disjunction). -/
def clauseVal (a : Int → Bool) (c : Clause) : Bool := c.any (litVal a)

/-- Truth of a clause list (conjunction). -/
def cnfVal (a : Int → Bool) (cs : List Clause) : Bool := cs.all (clauseVal a)

/-- Weighted sum of the true literals. -/
def wsum (a : Int → Bool) (coeffs lits : List Int) : Int :=
  ((coeffs.zip lits).map (fun p => if litVal a p.2 then p.1 else 0)).sum

/-- Two assignments agree on all variables up to `n`. -/
def agreeUpTo (n : Int) (a a' : Int → Bool) : Prop :=
  ∀ v : Int, 0 < v → v ≤ n → a v = a' v

/-! ### Operation sequences used by the frame claims -/

/-- An operation on the driver: allocate a variable or append clauses. -/
inductive DOp where
  | newv : DOp
  | one : Clause → DOp
  | many : List Clause → DOp

/-- Apply one driver operation. -/
def applyDOp (s : CState) : DOp → CState
  | .newv => (new_var s).2
  | .one c => add_clause s c
  | .many cs => add_clauses s cs

/-- Apply a sequence of driver operations. -/
def applyDOps (s : CState) (ops : List DOp) : CState := ops.foldl applyDOp s

/-- Arguments of one `sat` call. -/
structure SatCall where
  backend : Backend
  additional : List Clause
  includeIf : Bool
  limit : Int

/-- Run a sequence of `sat` calls, collecting the results. -/
def satSeq (calls : List SatCall) (s : CState) : List (Option (List Int)) × CState :=
  match calls with
  | [] => ([], s)
  | c :: rest =>
    let r := sat c.backend c.additional c.includeIf c.limit s
    let r2 := satSeq rest r.2
    (r.1 :: r2.1, r2.2)

/-! ### Infrastructure predicates for the correctness proofs -/

/-- One driver state extends another: the variable counter grew and
the clause store grew by appending. -/
def Extends (s s' : CState) : Prop :=
  s.m ≤ s'.m ∧ ∃ d, s'.clauses = s.clauses ++ d

/-- Clauses appended between two states. -/
def delta (s s' : CState) : List Clause := s'.clauses.drop s.clauses.length

/-- A well-formed literal with variable index at most `n`: nonzero,
below the sentinel range, bounded by `n`. -/
def litOk (n l : Int) : Prop := l ≠ 0 ∧ (l.natAbs : Int) < TRUE ∧ (l.natAbs : Int) ≤ n

/-- A literal result of a combinator: a constant or a well-formed literal. -/
def outOk (n r : Int) : Prop := r = TRUE ∨ r = FALSE ∨ litOk n r

/-- All literals of a clause are well formed and bounded by `n`. -/
def clOk (n : Int) (c : Clause) : Prop := ∀ l ∈ c, litOk n l

/-- All clauses of a list are `clOk n`. -/
def cnfOk (n : Int) (cs : List Clause) : Prop := ∀ c ∈ cs, clOk n c

/-- Point update of an assignment. -/
def upd (a : Int → Bool) (x : Int) (b : Bool) : Int → Bool :=
  fun v => if v = x then b else a v

/-- Partial weighted sum over the first `k` terms. -/
def psum (a : Int → Bool) (lits coeffs : List Int) (k : Nat) : Int :=
  wsum a (coeffs.take k) (lits.take k)

/-- Membership of a value in the closed interval `[lo, hi]`. -/
def inB (lo hi v : Int) : Prop := lo ≤ v ∧ v ≤ hi

instance (lo hi v : Int) : Decidable (inB lo hi v) := by
  unfold inB
  infer_instance

instance (n l : Int) : Decidable (litOk n l) := by
  unfold litOk
  infer_instance

/-- Offset contribution of one `(coeff, lit)` term in `LB_Preprocess`:
a `TRUE` literal shifts by its coefficient, a negative coefficient on
a non-constant literal is absorbed, everything else contributes `0`. -/
def offExp (p : Int × Int) : Int :=
  if p.2 = TRUE then p.1 else if p.2 ≠ FALSE ∧ p.1 < 0 then p.1 else 0

/-- Weighted sum of a `(coeff, lit)` pair list under an assignment. -/
def wsumP (a : Int → Bool) (ps : List (Int × Int)) : Int :=
  (ps.map (fun p => if litVal a p.2 then p.1 else 0)).sum

/-- Classification of a literal appearing in the BDD development:
a constant, a literal over one of the input variables `vars`, or a
fresh auxiliary variable allocated above `m0` (and bounded by `m1`). -/
def bddLit (m0 m1 : Int) (vars : List Int) (r : Int) : Prop :=
  r = TRUE ∨ r = FALSE ∨ (r ≠ 0 ∧ (r.natAbs : Int) < TRUE ∧
    ((r.natAbs : Int) ∈ vars ∨ (m0 < (r.natAbs : Int) ∧ (r.natAbs : Int) ≤ m1)))

/-- Absolute variables of the first `N` input literals of a BDD call. -/
def bddVars (lits : List Int) (N : Nat) : List Int :=
  (lits.take N).map (fun l => (l.natAbs : Int))

/-- Validity of a BDD memo table relative to the clauses `D` emitted
since the start of the construction: every recorded literal is
classified by `bddLit` and, in every model of `D`, equivalent to the
bound condition of its key's frame. -/
def memoOk (lits coeffs : List Int) (lo hi : Int) (m0 : Int) (vars : List Int)
    (D : List Clause) (mm : Int) (memo : Memo) : Prop :=
  ∀ k r, (k, r) ∈ memo →
    bddLit m0 mm vars r ∧
    ∀ a : Int → Bool, cnfVal a D = true →
      litVal a r = decide (inB lo hi (k.2.1 + psum a lits coeffs k.1))

/-- Specification of a clause-emitting combinator call at polarity
`None`: the state only grows, the result literal is classified by
`bddLit`, the emitted clauses mention only bounded variables, the
result is equivalent to the boolean `gb` in every model of the emitted
clauses, and every assignment extends (above `s.m`) to a model of the
emitted clauses. -/
def EmitSpec (m0 : Int) (vars : List Int) (s : CState) (C : CVal × CState)
    (gb : (Int → Bool) → Bool) : Prop :=
  Extends s C.2 ∧ bddLit m0 C.2.m vars C.1.toLit ∧ cnfOk C.2.m (delta s C.2) ∧
  (∀ a, cnfVal a (delta s C.2) = true → litVal a C.1.toLit = gb a) ∧
  (∀ a, ∃ a', agreeUpTo s.m a a' ∧ cnfVal a' (delta s C.2) = true)

/-! ## Basic facts about the sentinels and the stores -/

theorem TRUE_ne_FALSE : TRUE ≠ FALSE := by decide

theorem TRUE_pos : (0 : Int) < TRUE := by decide

theorem neg_TRUE_eq_FALSE : -TRUE = FALSE := rfl

theorem neg_FALSE_eq_TRUE : -FALSE = TRUE := by decide

theorem clApplyAll_growth (ops : List StoreOp) (s : List Clause) :
    ∃ d, clApplyAll s ops = s ++ d := by
  induction ops generalizing s with
  | nil => exact ⟨[], by simp [clApplyAll]⟩
  | cons op ops ih =>
    have h1 : ∃ d1, clApply s op = s ++ d1 := by
      cases op with
      | one c => exact ⟨[c], rfl⟩
      | many cs => exact ⟨cs, rfl⟩
    obtain ⟨d1, h1⟩ := h1
    obtain ⟨d2, h2⟩ := ih (clApply s op)
    refine ⟨d1 ++ d2, ?_⟩
    have : clApplyAll s (op :: ops) = clApplyAll (clApply s op) ops := rfl
    rw [this, h2, h1, List.append_assoc]

theorem caExtend_growth (cs : List Clause) (arr : List Int) :
    ∃ d, caExtend arr cs = arr ++ d := by
  induction cs generalizing arr with
  | nil => exact ⟨[], by simp [caExtend]⟩
  | cons c cs ih =>
    obtain ⟨d2, h2⟩ := ih (caAppend arr c)
    refine ⟨c ++ [0] ++ d2, ?_⟩
    have : caExtend arr (c :: cs) = caExtend (caAppend arr c) cs := rfl
    rw [this, h2, caAppend]
    simp [List.append_assoc]

theorem caApplyAll_growth (ops : List StoreOp) (arr : List Int) :
    ∃ d, caApplyAll arr ops = arr ++ d := by
  induction ops generalizing arr with
  | nil => exact ⟨[], by simp [caApplyAll]⟩
  | cons op ops ih =>
    have h1 : ∃ d1, caApply arr op = arr ++ d1 := by
      cases op with
      | one c => exact ⟨c ++ [0], by simp [caApply, caAppend, List.append_assoc]⟩
      | many cs => exact caExtend_growth cs arr
    obtain ⟨d1, h1⟩ := h1
    obtain ⟨d2, h2⟩ := ih (caApply arr op)
    refine ⟨d1 ++ d2, ?_⟩
    have : caApplyAll arr (op :: ops) = caApplyAll (caApply arr op) ops := rfl
    rw [this, h2, h1, List.append_assoc]

/-- C6: for both clause-store representations, any sequence of
append/extend operations performed after `save_state` is undone by
`restore_state`: `as_list` afterwards yields exactly the clauses
present at save time; and restoring a token equal to the current state
leaves the store unchanged. -/
theorem saveRestore_roundtrip (initL : List Clause) (initA : List Int) (ops : List StoreOp) :
    clAsList (clRestore (clApplyAll initL ops) (clSave initL)) = clAsList initL ∧
    caAsList (caRestore (caApplyAll initA ops) (caSave initA)) = caAsList initA ∧
    clRestore initL (clSave initL) = initL ∧
    caRestore initA (caSave initA) = initA := by
  obtain ⟨d1, h1⟩ := clApplyAll_growth ops initL
  obtain ⟨d2, h2⟩ := caApplyAll_growth ops initA
  refine ⟨?_, ?_, ?_, ?_⟩
  · rw [h1]; simp [clAsList, clRestore, clSave, List.take_left]
  · rw [h2]; simp [caAsList, caRestore, caSave, List.take_left]
  · simp [clRestore, clSave]
  · simp [caRestore, caSave]

theorem applyDOps_growth (ops : List DOp) (st : CState) :
    st.m ≤ (applyDOps st ops).m ∧ ∃ d, (applyDOps st ops).clauses = st.clauses ++ d := by
  induction ops generalizing st with
  | nil => exact ⟨le_refl _, [], by simp [applyDOps]⟩
  | cons op ops ih =>
    have hstep : st.m ≤ (applyDOp st op).m ∧
        ∃ d1, (applyDOp st op).clauses = st.clauses ++ d1 := by
      cases op with
      | newv => exact ⟨by simp [applyDOp, new_var], [], by simp [applyDOp, new_var]⟩
      | one c => exact ⟨le_refl _, [c], rfl⟩
      | many cs => exact ⟨le_refl _, cs, rfl⟩
    obtain ⟨hm1, d1, h1⟩ := hstep
    obtain ⟨hm2, d2, h2⟩ := ih (applyDOp st op)
    have : applyDOps st (op :: ops) = applyDOps (applyDOp st op) ops := rfl
    exact ⟨by rw [this]; omega, d1 ++ d2, by rw [this, h2, h1, List.append_assoc]⟩

/-- C9: `restore_state` never changes the variable counter `m`: after
any sequence of `new_var` and clause-appending calls following
`save_state`, restoring removes exactly the clauses appended since the
save point, while `m` keeps its (monotonically nondecreasing) value;
the `unsat` flag is also untouched by the restore. -/
theorem restore_state_keeps_m (st : CState) (ops : List DOp) :
    (restore_state (applyDOps st ops) (save_state st)).m = (applyDOps st ops).m ∧
    st.m ≤ (applyDOps st ops).m ∧
    (restore_state (applyDOps st ops) (save_state st)).clauses = st.clauses ∧
    (restore_state (applyDOps st ops) (save_state st)).unsat = (applyDOps st ops).unsat := by
  obtain ⟨hm, d, hd⟩ := applyDOps_growth ops st
  refine ⟨rfl, hm, ?_, rfl⟩
  simp [restore_state, save_state, hd, List.take_left]

/-- C8: the binary combinators short-circuit on constant or aliased
arguments to the documented literal result, leaving the driver state
(in particular the clause store) unchanged, for every polarity and
both values of `add_new_clauses`. -/
theorem short_circuit_identities (x : Int) (pol : Polarity) (anc : Bool) (s : CState)
    (hx : x ≠ 0) :
    AndC TRUE x pol anc s = (.lit x, s) ∧
    AndC FALSE x pol anc s = (.lit FALSE, s) ∧
    AndC x x pol anc s = (.lit x, s) ∧
    AndC x (-x) pol anc s = (.lit FALSE, s) ∧
    OrC FALSE x pol anc s = (.lit x, s) ∧
    OrC TRUE x pol anc s = (.lit TRUE, s) ∧
    OrC x x pol anc s = (.lit x, s) ∧
    OrC x (-x) pol anc s = (.lit TRUE, s) := by
  rw [TRUE, FALSE] at *
  by_cases hT : x = (9223372036854775807 : Int)
  · subst hT
    refine ⟨?_, ?_, ?_, ?_, ?_, ?_, ?_, ?_⟩ <;> norm_num [AndC, OrC, TRUE, FALSE]
  by_cases hF : x = -(9223372036854775807 : Int)
  · subst hF
    refine ⟨?_, ?_, ?_, ?_, ?_, ?_, ?_, ?_⟩ <;> norm_num [AndC, OrC, TRUE, FALSE]
  refine ⟨?_, ?_, ?_, ?_, ?_, ?_, ?_, ?_⟩
  · simp only [AndC, TRUE, FALSE]
    rw [if_neg (by omega)]; simp
  · simp only [AndC, TRUE, FALSE]
    simp
  · simp only [AndC, TRUE, FALSE]
    rw [if_neg (by omega)]; rw [if_neg (by omega)]; rw [if_neg (by omega)]
    simp
  · simp only [AndC, TRUE, FALSE]
    rw [if_neg (by omega)]; rw [if_neg (by omega)]; rw [if_neg (by omega)]
    rw [if_neg (by omega)]; simp
  · simp only [OrC, TRUE, FALSE]
    rw [if_neg (by omega)]; simp
  · simp only [OrC, TRUE, FALSE]
    simp
  · simp only [OrC, TRUE, FALSE]
    rw [if_neg (by omega)]; rw [if_neg (by omega)]; rw [if_neg (by omega)]
    simp
  · simp only [OrC, TRUE, FALSE]
    rw [if_neg (by omega)]; rw [if_neg (by omega)]; rw [if_neg (by omega)]
    rw [if_neg (by omega)]; simp

/-! ## Sorting lemmas for `LB_Preprocess` -/

theorem insertLe_perm (le : α → α → Bool) (x : α) (l : List α) :
    (insertLe le x l).Perm (x :: l) := by
  induction l with
  | nil => simp [insertLe]
  | cons y ys ih =>
    rw [insertLe]
    by_cases h : le x y
    · simp [h]
    · simp only [h, if_false]
      exact ((ih.cons y).trans (List.Perm.swap x y ys))

theorem sortLe_perm (le : α → α → Bool) (l : List α) : (sortLe le l).Perm l := by
  induction l with
  | nil => simp [sortLe]
  | cons x xs ih =>
    rw [sortLe]
    exact (insertLe_perm le x (sortLe le xs)).trans (ih.cons x)

theorem mem_sortLe (le : α → α → Bool) (l : List α) (a : α) :
    a ∈ sortLe le l ↔ a ∈ l := (sortLe_perm le l).mem_iff

theorem insertLe_sorted (le : α → α → Bool)
    (htr : ∀ a b c, le a b = true → le b c = true → le a c = true)
    (htot : ∀ a b, le a b = true ∨ le b a = true)
    (x : α) (l : List α) (hl : l.Pairwise (fun a b => le a b = true)) :
    (insertLe le x l).Pairwise (fun a b => le a b = true) := by
  induction l with
  | nil => simp [insertLe]
  | cons y ys ih =>
    rw [insertLe]
    rcases List.pairwise_cons.mp hl with ⟨hy, hys⟩
    by_cases h : le x y
    · simp only [h, if_true]
      refine List.pairwise_cons.mpr ⟨?_, hl⟩
      intro b hb
      rcases List.mem_cons.mp hb with rfl | hb
      · exact h
      · exact htr x y b h (hy b hb)
    · simp only [h, if_false]
      refine List.pairwise_cons.mpr ⟨?_, ih hys⟩
      intro b hb
      rcases List.mem_cons.mp ((insertLe_perm le x ys).mem_iff.mp hb) with rfl | hb
      · rcases htot b y with h1 | h1
        · exact absurd h1 h
        · exact h1
      · exact hy b hb

theorem sortLe_sorted (le : α → α → Bool)
    (htr : ∀ a b c, le a b = true → le b c = true → le a c = true)
    (htot : ∀ a b, le a b = true ∨ le b a = true)
    (l : List α) : (sortLe le l).Pairwise (fun a b => le a b = true) := by
  induction l with
  | nil => simp [sortLe]
  | cons x xs ih => exact insertLe_sorted le htr htot x (sortLe le xs) ih

theorem sortLe_of_sorted (le : α → α → Bool) (l : List α)
    (hl : l.Pairwise (fun a b => le a b = true)) : sortLe le l = l := by
  induction l with
  | nil => rfl
  | cons x xs ih =>
    rcases List.pairwise_cons.mp hl with ⟨hx, hxs⟩
    rw [sortLe, ih hxs]
    cases xs with
    | nil => rfl
    | cons y ys => rw [insertLe, if_pos (hx y (by simp))]

theorem lexLe_trans (a b c : Int × Int) (h1 : lexLe a b = true) (h2 : lexLe b c = true) :
    lexLe a c = true := by
  simp only [lexLe, Bool.or_eq_true, Bool.and_eq_true, decide_eq_true_eq] at *
  omega

theorem lexLe_total (a b : Int × Int) : lexLe a b = true ∨ lexLe b a = true := by
  simp only [lexLe, Bool.or_eq_true, Bool.and_eq_true, decide_eq_true_eq]
  omega

theorem zip_fst_snd (l : List (α × β)) : (l.map Prod.fst).zip (l.map Prod.snd) = l := by
  induction l with
  | nil => rfl
  | cons p ps ih => simp [ih]

theorem neg_eq_TRUE_iff (x : Int) : -x = TRUE ↔ x = FALSE := by
  simp only [TRUE, FALSE]
  omega

theorem neg_eq_FALSE_iff (x : Int) : -x = FALSE ↔ x = TRUE := by
  simp only [TRUE, FALSE]
  omega

theorem lbpLoop_mem (pairs : List (Int × Int)) :
    ∀ p ∈ (lbpLoop pairs).1, 0 < p.1 ∧ p.2 ≠ TRUE ∧ p.2 ≠ FALSE := by
  induction pairs with
  | nil => simp [lbpLoop]
  | cons q qs ih =>
    intro p hp
    simp only [lbpLoop] at hp
    split_ifs at hp with h1 h2 h3
    · exact ih p hp
    · exact ih p hp
    · rcases List.mem_cons.mp hp with rfl | hp
      · push_neg at h2
        refine ⟨by omega, ?_, ?_⟩
        · intro hc
          exact h2.1 ((neg_eq_TRUE_iff q.2).mp hc)
        · intro hc
          exact h1 ((neg_eq_FALSE_iff q.2).mp hc)
      · exact ih p hp
    · rcases List.mem_cons.mp hp with rfl | hp
      · push_neg at h2
        exact ⟨by omega, h1, h2.1⟩
      · exact ih p hp

theorem lbpLoop_fixed (pairs : List (Int × Int))
    (h : ∀ p ∈ pairs, 0 < p.1 ∧ p.2 ≠ TRUE ∧ p.2 ≠ FALSE) :
    lbpLoop pairs = (pairs, 0) := by
  induction pairs with
  | nil => rfl
  | cons q qs ih =>
    obtain ⟨hq1, hq2, hq3⟩ := h q (by simp)
    rw [lbpLoop, ih (fun p hp => h p (by simp [hp]))]
    simp only [hq2, if_false]
    rw [if_neg (by push_neg; exact ⟨hq3, by omega⟩), if_neg (by omega)]

theorem lbpLoop_offset (pairs : List (Int × Int)) :
    (lbpLoop pairs).2 = (pairs.map offExp).sum := by
  induction pairs with
  | nil => rfl
  | cons q qs ih =>
    simp only [lbpLoop, List.map_cons, List.sum_cons]
    split_ifs with h1 h2 h3
    · rw [offExp, if_pos h1]
      simp only [ih]
      omega
    · rcases h2 with h2 | h2
      · rw [offExp, if_neg h1, if_neg (by simp [h2])]
        simp only [ih]
        omega
      · push_neg at h1
        by_cases h2f : q.2 = FALSE
        · rw [offExp, if_neg h1, if_neg (by simp [h2f])]
          simp only [ih]
          omega
        · rw [offExp, if_neg h1, if_neg (by omega)]
          simp only [ih]
          omega
    · push_neg at h2
      rw [offExp, if_neg h1, if_pos ⟨h2.1, h3⟩]
      simp only [ih]
      omega
    · push_neg at h2
      rw [offExp, if_neg h1, if_neg (by push_neg; intro _; omega)]
      simp only [ih]
      omega

/-- C7: preprocessing produces strictly positive coefficients, no
constant literal, coefficients sorted ascending; a second application
returns the same `lits'` and `coeffs'` with offset `0`; the offset of
the first application is exactly the sum of coefficients with `TRUE`
literals plus the sum of negative coefficients of non-constant
literals. -/
theorem LB_Preprocess_spec (lits coeffs : List Int) :
    (∀ c ∈ (LB_Preprocess lits coeffs).2.1, 0 < c) ∧
    (∀ l ∈ (LB_Preprocess lits coeffs).1, l ≠ TRUE ∧ l ≠ FALSE) ∧
    (LB_Preprocess lits coeffs).2.1.Pairwise (· ≤ ·) ∧
    LB_Preprocess (LB_Preprocess lits coeffs).1 (LB_Preprocess lits coeffs).2.1 =
      ((LB_Preprocess lits coeffs).1, (LB_Preprocess lits coeffs).2.1, 0) ∧
    (LB_Preprocess lits coeffs).2.2 = ((coeffs.zip lits).map offExp).sum := by
  have hmem : ∀ p ∈ sortLe lexLe (lbpLoop (coeffs.zip lits)).1,
      0 < p.1 ∧ p.2 ≠ TRUE ∧ p.2 ≠ FALSE := by
    intro p hp
    exact lbpLoop_mem _ p ((mem_sortLe _ _ _).mp hp)
  have hsorted : (sortLe lexLe (lbpLoop (coeffs.zip lits)).1).Pairwise
      (fun a b => lexLe a b = true) :=
    sortLe_sorted lexLe lexLe_trans lexLe_total _
  refine ⟨?_, ?_, ?_, ?_, ?_⟩
  · intro c hc
    simp only [LB_Preprocess, List.mem_map] at hc
    obtain ⟨p, hp, hpc⟩ := hc
    exact hpc ▸ (hmem p hp).1
  · intro l hl
    simp only [LB_Preprocess, List.mem_map] at hl
    obtain ⟨p, hp, hpl⟩ := hl
    exact hpl ▸ ⟨(hmem p hp).2.1, (hmem p hp).2.2⟩
  · simp only [LB_Preprocess]
    rw [List.pairwise_map]
    refine hsorted.imp ?_
    intro a b h
    simp only [lexLe, Bool.or_eq_true, Bool.and_eq_true, decide_eq_true_eq] at h
    omega
  · simp only [LB_Preprocess]
    rw [zip_fst_snd, lbpLoop_fixed _ hmem, sortLe_of_sorted lexLe _ hsorted]
  · simp only [LB_Preprocess]
    exact lbpLoop_offset _

/-- C10: when the evaluated combinator reduces to a constant, `Eval`
rolls the clause store back to its pre-call state: only the variable
counter and the `unsat` flag can differ afterwards, and the `unsat`
update is exactly the Python `(vals == TRUE) != polarity`. -/
theorem eval_const_rollback (func : Polarity → CState → CVal × CState) (pol : Polarity)
    (st : CState) (v : Int) (hconst : v = TRUE ∨ v = FALSE)
    (hval : (func pol st).1 = .lit v)
    (hgrow : ∃ d, (func pol st).2.clauses = st.clauses ++ d)
    (hunsat : (func pol st).2.unsat = st.unsat) :
    (Eval func pol st).clauses = st.clauses ∧
    (Eval func pol st).m = (func pol st).2.m ∧
    (Eval func pol st).unsat = (st.unsat || neqPol (decide (v = TRUE)) pol) := by
  obtain ⟨d, hd⟩ := hgrow
  have hnot : ¬(v ≠ TRUE ∧ v ≠ FALSE) := by
    rcases hconst with h | h <;> simp [h]
  rw [Eval]
  simp only [hval]
  rw [if_neg hnot]
  refine ⟨?_, rfl, ?_⟩
  · simp [restore_state, save_state, hd, List.take_left]
  · simp [restore_state, hunsat]

/-- Witness for `eval_const_rollback` at a concrete constant-valued
combinator that first emits a clause. -/
theorem eval_const_rollback_witness :
    (Eval (fun _ s => (.lit FALSE, add_clause s [7])) (some true)
        { m := 1, unsat := false, clauses := [[1]] }).clauses = [[1]] ∧
    (Eval (fun _ s => (.lit FALSE, add_clause s [7])) (some true)
        { m := 1, unsat := false, clauses := [[1]] }).unsat = true := by
  have h := eval_const_rollback (fun _ s => (.lit FALSE, add_clause s [7])) (some true)
    { m := 1, unsat := false, clauses := [[1]] } FALSE (Or.inr rfl) rfl ⟨[[7]], rfl⟩ rfl
  exact ⟨h.1, by rw [h.2.2]; decide⟩

/-- C2: a `Require` of a combinator evaluating to `FALSE` (for example
`Require(Any, [])`) or a `Prevent` of one evaluating to `TRUE` sets the
sticky `unsat` flag, and once the flag is set every subsequent `sat`
call returns `none` and leaves the driver state untouched, for every
backend — so the backend is never consulted. -/
theorem unsat_sticky :
    (∀ st : CState, (Require (fun pol s => (AnyC [] pol, s)) st).unsat = true) ∧
    (∀ (st st2 : CState) (func : Polarity → CState → CVal × CState),
      func (some true) st = (.lit FALSE, st2) → (Require func st).unsat = true) ∧
    (∀ (st st2 : CState) (func : Polarity → CState → CVal × CState),
      func (some false) st = (.lit TRUE, st2) → (Prevent func st).unsat = true) ∧
    (∀ (st : CState) (calls : List SatCall), st.unsat = true →
      (satSeq calls st).2 = st ∧ ∀ r ∈ (satSeq calls st).1, r = none) := by
  have hdec1 : decide (FALSE = TRUE) = false := by decide
  have hdec2 : decide (TRUE = TRUE) = true := by decide
  have hReq : ∀ (st st2 : CState) (func : Polarity → CState → CVal × CState),
      func (some true) st = (.lit FALSE, st2) → (Require func st).unsat = true := by
    intro st st2 func h
    rw [Require, Eval]
    simp only [h]
    rw [if_neg (by simp)]
    simp [restore_state, hdec1, neqPol]
  refine ⟨?_, hReq, ?_, ?_⟩
  · intro st
    exact hReq st st (fun pol s => (AnyC [] pol, s)) rfl
  · intro st st2 func h
    rw [Prevent, Eval]
    simp only [h]
    rw [if_neg (by simp)]
    simp [restore_state, hdec2, neqPol]
  · intro st calls hun
    induction calls with
    | nil => exact ⟨rfl, by simp [satSeq]⟩
    | cons c rest ih =>
      have hsat : sat c.backend c.additional c.includeIf c.limit st = (none, st) := by
        rw [sat, if_pos hun]
      rw [satSeq]
      simp only [hsat]
      exact ⟨ih.1, by
        intro r hr
        rcases List.mem_cons.mp hr with rfl | hr
        · rfl
        · exact ih.2 r hr⟩

/-- Witness for the unsat-stickiness statement at concrete inputs. -/
theorem unsat_sticky_witness :
    (Require (fun pol s => (AnyC [] pol, s)) { m := 2, unsat := false, clauses := [[1]] }).unsat
      = true ∧
    (satSeq [⟨fun _ _ _ => some [1], [[2]], true, 0⟩]
        { m := 2, unsat := true, clauses := [[1]] }).2
      = { m := 2, unsat := true, clauses := [[1]] } := by
  refine ⟨unsat_sticky.1 _, ?_⟩
  exact (unsat_sticky.2.2.2 { m := 2, unsat := true, clauses := [[1]] }
    [⟨fun _ _ _ => some [1], [[2]], true, 0⟩] rfl).1

/-- C3: after `sat(additional, includeIf, limit)` with a non-empty
`additional`, the clause store is unchanged whenever no solution was
found or `includeIf` is false; it differs only by the preprocessed
additional clauses remaining appended, which happens only when a
solution was found and `includeIf` is true.  The variable counter and
the `unsat` flag are never modified. -/
theorem sat_frame (backend : Backend) (additional : List Clause) (includeIf : Bool)
    (limit : Int) (s : CState) (hadd : additional ≠ []) :
    (((sat backend additional includeIf limit s).1 = none ∨ includeIf = false) →
      ((sat backend additional includeIf limit s).2).clauses = s.clauses) ∧
    (((sat backend additional includeIf limit s).2).clauses ≠ s.clauses →
      (sat backend additional includeIf limit s).1 ≠ none ∧ includeIf = true ∧
      ((sat backend additional includeIf limit s).2).clauses
        = s.clauses ++ preprocAdd additional) ∧
    ((sat backend additional includeIf limit s).2).m = s.m ∧
    ((sat backend additional includeIf limit s).2).unsat = s.unsat := by
  by_cases h1 : s.unsat = true
  · rw [sat, if_pos h1]; simp
  by_cases h2 : s.m = 0
  · rw [sat, if_neg h1, if_pos h2]; simp
  by_cases h4 : preprocAdd additional = []
  · simp only [sat, if_neg h1, if_neg h2, ne_eq, if_pos hadd, h4]
    simp
  by_cases h3 : (preprocAdd additional).getLast? = some []
  · simp only [sat, if_neg h1, if_neg h2, ne_eq, if_pos hadd]
    rw [if_pos ⟨h4, h3⟩]
    simp
  simp only [sat, if_neg h1, if_neg h2, ne_eq, if_pos hadd]
  rw [if_neg (fun hc => h3 hc.2), if_pos h4]
  by_cases h5 : backend (add_clauses s (preprocAdd additional)).m limit
      (add_clauses s (preprocAdd additional)).clauses = none ∨ includeIf = false
  · rw [if_pos ⟨h4, h5⟩]
    have hres : (restore_state (add_clauses s (preprocAdd additional)) (save_state s)).clauses
        = s.clauses := by
      simp [restore_state, save_state, add_clauses, List.take_left]
    refine ⟨fun _ => hres, fun hc => absurd hres hc, ?_, ?_⟩
    · simp [restore_state, add_clauses]
    · simp [restore_state, add_clauses]
  · rw [if_neg (fun hc => h5 hc.2)]
    push_neg at h5
    refine ⟨?_, fun _ => ⟨h5.1, ?_, by simp [add_clauses]⟩, ?_, ?_⟩
    · intro hc
      rcases hc with hc | hc
      · exact absurd hc h5.1
      · exact absurd hc h5.2
    · rcases Bool.eq_false_or_eq_true includeIf with h | h
      · exact h
      · exact absurd h h5.2
    · simp [add_clauses]
    · simp [add_clauses]

/-- Witness for `sat_frame` at a concrete probe that fails. -/
theorem sat_frame_witness :
    ((sat (fun _ _ _ => none) [[2]] true 0 { m := 2, unsat := false, clauses := [[1]] }).2).clauses
      = [[1]] := by
  have h := (sat_frame (fun _ _ _ => none) [[2]] true 0
    { m := 2, unsat := false, clauses := [[1]] } (by decide)).1 (Or.inl rfl)
  simpa using h

/-! ## Bisection monotonicity (C5) -/

/-- C5: one iteration of the bisection loop (either stage) never
increases `hi` and never decreases `lo`, whether it continues or
breaks.  Hypotheses: the entry bounds satisfy `lo ≤ hi`; an explicit
first guess `try0` lies in `[lo - 1, hi]` (as established by the code
at every loop entry); and a solution returned by the backend for the
probe respects the probed bound `mid` — a backend sound for the probe
constraints guarantees this. -/
theorem bisect_monotone (backend : Backend) (peak : Bool) (lits coeffs : List Int)
    (odict : List (Int × Int)) (m_orig : Int) (saved : Nat) (s : IterSt)
    (hlh : s.lo ≤ s.hi)
    (htry : ∀ t, s.try0 = some t → s.lo - 1 ≤ t ∧ t ≤ s.hi)
    (hsound : ∀ sol,
      (sat backend [] false 0
        (probeState peak lits coeffs s.lo (bisectMid s.lo s.hi s.try0) s.st)).1 = some sol →
      objval peak sol odict ≤ bisectMid s.lo s.hi s.try0) :
    s.lo ≤ ((bisectIter backend peak lits coeffs odict m_orig saved s).1).lo ∧
    ((bisectIter backend peak lits coeffs odict m_orig saved s).1).hi ≤ s.hi := by
  have hmid : s.lo - 1 ≤ bisectMid s.lo s.hi s.try0 ∧ bisectMid s.lo s.hi s.try0 ≤ s.hi := by
    rcases h : s.try0 with _ | t
    · rw [bisectMid]
      have hdiv : (s.lo + s.hi).fdiv 2 = (s.lo + s.hi) / 2 := Int.fdiv_eq_ediv _ (by norm_num)
      rw [hdiv]
      omega
    · rw [bisectMid]
      exact htry t h
  rcases hsat : (sat backend [] false 0
      (probeState peak lits coeffs s.lo (bisectMid s.lo s.hi s.try0) s.st)).1 with _ | sol
  · simp only [bisectIter, hsat]
    split_ifs <;> simp <;> omega
  · have hval := hsound sol hsat
    simp only [bisectIter, hsat]
    split_ifs <;> simp [objval] at * <;> omega

/-- Witness for `bisect_monotone` at a concrete peak-stage iteration. -/
theorem bisect_monotone_witness :
    (0 : Int) ≤ ((bisectIter bruteBackend true [1] [2] [(1, 2)] 1 0
        { lo := 0, hi := 2, try0 := none, bestsol := [1], bestval := 2,
          st := { m := 1, unsat := false, clauses := [] } }).1).lo ∧
    ((bisectIter bruteBackend true [1] [2] [(1, 2)] 1 0
        { lo := 0, hi := 2, try0 := none, bestsol := [1], bestval := 2,
          st := { m := 1, unsat := false, clauses := [] } }).1).hi ≤ 2 := by
  refine bisect_monotone bruteBackend true [1] [2] [(1, 2)] 1 0
    { lo := 0, hi := 2, try0 := none, bestsol := [1], bestval := 2,
      st := { m := 1, unsat := false, clauses := [] } } (by decide) (by intro t h; cases h) ?_
  intro sol h
  have hval : (sat bruteBackend [] false 0
      (probeState true [1] [2] 0 (bisectMid 0 2 none)
        { m := 1, unsat := false, clauses := [] })).1 = some [-1] := by decide
  rw [hval] at h
  injection h with h2
  subst h2
  decide

/-! ## The concrete minimization scenario of C4 -/

/-- C4, counterexample: on a driver with `m = 4` and an empty clause
store, `minimize([1,2,3,4], [1,1,5,5], bestsol=[1,2,3,4])` returns
cost `0`, not `2`: the first peak probe (`mid = 0`) prevents all four
literals, the all-false model satisfies the empty hard constraint set,
and the run stops with peak objective `0`. -/
theorem minimize_s5_counterexample :
    (minimize bruteBackend 30 [1, 2, 3, 4] [1, 1, 5, 5] (some [1, 2, 3, 4]) false
      { m := 4, unsat := false, clauses := [] }).2.1 = 0 ∧
    (0 : Int) ≠ 2 := by
  refine ⟨by decide, by decide⟩

/-- C4, amended: with no hard constraints in the store, the peak stage
succeeds at its first probe `mid = 0` with the all-false model, so the
peak objective result is `0`, `minimize` returns `bestval = 0` with
solution `[-1, -2, -3, -4]` immediately (the sum stage is skipped),
and the final probe clauses remain in the store. -/
theorem minimize_s5_amended :
    minimize bruteBackend 30 [1, 2, 3, 4] [1, 1, 5, 5] (some [1, 2, 3, 4]) false
      { m := 4, unsat := false, clauses := [] }
      = (some [-1, -2, -3, -4], 0,
          { m := 4, unsat := false, clauses := [[-1], [-2], [-3], [-4]] }) := by
  decide

/-- Witness for the short-circuit identities at a concrete input. -/
theorem short_circuit_identities_witness :
    AndC TRUE 5 none false { m := 5, unsat := false, clauses := [] } =
      (.lit 5, { m := 5, unsat := false, clauses := [] }) ∧
    OrC 5 (-5) none false { m := 5, unsat := false, clauses := [] } =
      (.lit TRUE, { m := 5, unsat := false, clauses := [] }) := by
  have h := short_circuit_identities 5 none false { m := 5, unsat := false, clauses := [] }
    (by decide)
  exact ⟨h.1, h.2.2.2.2.2.2.2⟩

/-! ## Semantic infrastructure for the LinearBound proof (C1) -/

theorem extends_refl (s : CState) : Extends s s := ⟨le_refl _, [], by simp⟩

theorem extends_trans {s1 s2 s3 : CState} (h12 : Extends s1 s2) (h23 : Extends s2 s3) :
    Extends s1 s3 := by
  obtain ⟨hm1, d1, h1⟩ := h12
  obtain ⟨hm2, d2, h2⟩ := h23
  exact ⟨le_trans hm1 hm2, d1 ++ d2, by rw [h2, h1, List.append_assoc]⟩

theorem delta_of_append {s s' : CState} (d : List Clause) (h : s'.clauses = s.clauses ++ d) :
    delta s s' = d := by
  rw [delta, h, List.drop_left]

theorem delta_self (s : CState) : delta s s = [] := delta_of_append [] (by simp)

theorem clauses_eq_delta {s s' : CState} (h : Extends s s') :
    s'.clauses = s.clauses ++ delta s s' := by
  obtain ⟨_, d, hd⟩ := h
  rw [delta_of_append d hd, hd]

theorem delta_chain {s1 s2 s3 : CState} (h12 : Extends s1 s2) (h23 : Extends s2 s3) :
    delta s1 s3 = delta s1 s2 ++ delta s2 s3 := by
  obtain ⟨_, d1, h1⟩ := h12
  obtain ⟨_, d2, h2⟩ := h23
  rw [delta_of_append d1 h1, delta_of_append d2 h2]
  exact delta_of_append (d1 ++ d2) (by rw [h2, h1, List.append_assoc])

theorem cnfVal_append (a : Int → Bool) (xs ys : List Clause) :
    cnfVal a (xs ++ ys) = (cnfVal a xs && cnfVal a ys) := by
  simp [cnfVal, List.all_append]

theorem extends_add_clauses (s : CState) (cs : List Clause) :
    Extends s (add_clauses s cs) := ⟨le_refl _, cs, rfl⟩

theorem delta_add_clauses (s : CState) (cs : List Clause) :
    delta s (add_clauses s cs) = cs := delta_of_append cs rfl

theorem litOk_mono {n n' l : Int} (h : litOk n l) (hn : n ≤ n') : litOk n' l :=
  ⟨h.1, h.2.1, le_trans h.2.2 hn⟩

theorem litOk_neg {n l : Int} (h : litOk n l) : litOk n (-l) :=
  ⟨by have := h.1; omega, by rw [Int.natAbs_neg]; exact h.2.1,
   by rw [Int.natAbs_neg]; exact h.2.2⟩

theorem litOk_ne_sentinel {n l : Int} (h : litOk n l) : l ≠ TRUE ∧ l ≠ FALSE := by
  obtain ⟨h0, hT, _⟩ := h
  constructor
  · intro hc
    rw [hc] at hT
    revert hT
    decide
  · intro hc
    rw [hc] at hT
    revert hT
    decide

theorem litVal_of_ok {n l : Int} (h : litOk n l) (a : Int → Bool) :
    litVal a l = if l > 0 then a l else !a (-l) := by
  obtain ⟨hT, hF⟩ := litOk_ne_sentinel h
  rw [litVal, if_neg hT, if_neg hF]

theorem litVal_neg {n l : Int} (h : litOk n l) (a : Int → Bool) :
    litVal a (-l) = !litVal a l := by
  have hok : litOk n (-l) :=
    ⟨by have := h.1; omega, by rw [Int.natAbs_neg]; exact h.2.1,
     by rw [Int.natAbs_neg]; exact h.2.2⟩
  rw [litVal_of_ok h, litVal_of_ok hok]
  have h0 := h.1
  by_cases hl : l > 0
  · rw [if_pos hl, if_neg (by omega), neg_neg]
  · rw [if_neg hl, if_pos (by omega)]
    simp

theorem litVal_agree {n l : Int} (h : litOk n l) {a a' : Int → Bool}
    (hag : agreeUpTo n a a') : litVal a l = litVal a' l := by
  rw [litVal_of_ok h, litVal_of_ok h]
  obtain ⟨h0, _, hn⟩ := h
  by_cases hl : l > 0
  · rw [if_pos hl, if_pos hl, hag l hl (by omega)]
  · rw [if_neg hl, if_neg hl, hag (-l) (by omega) (by omega)]

theorem clauseVal_agree {n : Int} {c : Clause} (h : clOk n c) {a a' : Int → Bool}
    (hag : agreeUpTo n a a') : clauseVal a c = clauseVal a' c := by
  unfold clauseVal
  induction c with
  | nil => rfl
  | cons l ls ih =>
    rw [List.any_cons, List.any_cons, litVal_agree (h l (by simp)) hag,
      ih (fun x hx => h x (by simp [hx]))]

theorem cnfVal_agree {n : Int} {cs : List Clause} (h : cnfOk n cs) {a a' : Int → Bool}
    (hag : agreeUpTo n a a') : cnfVal a cs = cnfVal a' cs := by
  unfold cnfVal
  induction cs with
  | nil => rfl
  | cons c cs ih =>
    rw [List.all_cons, List.all_cons, clauseVal_agree (h c (by simp)) hag,
      ih (fun x hx => h x (by simp [hx]))]

theorem clOk_mono {n n' : Int} {c : Clause} (h : clOk n c) (hn : n ≤ n') : clOk n' c :=
  fun l hl => litOk_mono (h l hl) hn

theorem cnfOk_mono {n n' : Int} {cs : List Clause} (h : cnfOk n cs) (hn : n ≤ n') :
    cnfOk n' cs := fun c hc => clOk_mono (h c hc) hn

theorem cnfOk_append {n : Int} {xs ys : List Clause} (hx : cnfOk n xs) (hy : cnfOk n ys) :
    cnfOk n (xs ++ ys) := by
  intro c hc
  rcases List.mem_append.mp hc with h | h
  · exact hx c h
  · exact hy c h

theorem cnfOk_nil {n : Int} : cnfOk n [] := fun c hc => absurd hc (List.not_mem_nil c)

theorem bddLit_mono {m0 m1 m2 : Int} {vars : List Int} {r : Int}
    (h : bddLit m0 m1 vars r) (hm : m1 ≤ m2) : bddLit m0 m2 vars r := by
  rcases h with h | h | ⟨h0, hT, h⟩
  · exact Or.inl h
  · exact Or.inr (Or.inl h)
  · refine Or.inr (Or.inr ⟨h0, hT, ?_⟩)
    rcases h with h | h
    · exact Or.inl h
    · exact Or.inr ⟨h.1, le_trans h.2 hm⟩

theorem bddLit_neg {m0 m1 : Int} {vars : List Int} {r : Int}
    (h : bddLit m0 m1 vars r) (hT : r ≠ TRUE) (hF : r ≠ FALSE) :
    bddLit m0 m1 vars (-r) := by
  rcases h with h | h | ⟨h0, hTa, h⟩
  · exact absurd h hT
  · exact absurd h hF
  · exact Or.inr (Or.inr ⟨by omega, by rw [Int.natAbs_neg]; exact hTa,
      by rw [Int.natAbs_neg]; exact h⟩)

theorem bddLit_litOk {m0 m1 : Int} {vars : List Int} {r : Int}
    (h : bddLit m0 m1 vars r) (hvars : ∀ v ∈ vars, 0 < v ∧ v ≤ m0) (hm : m0 ≤ m1)
    (hT : r ≠ TRUE) (hF : r ≠ FALSE) : litOk m1 r := by
  rcases h with h | h | ⟨h0, hTa, h⟩
  · exact absurd h hT
  · exact absurd h hF
  · refine ⟨h0, hTa, ?_⟩
    rcases h with h | h
    · exact le_trans (hvars _ h).2 hm
    · exact h.2

theorem agreeUpTo_refl (n : Int) (a : Int → Bool) : agreeUpTo n a a := fun _ _ _ => rfl

theorem agreeUpTo_trans {n : Int} {a b c : Int → Bool} (h1 : agreeUpTo n a b)
    (h2 : agreeUpTo n b c) : agreeUpTo n a c :=
  fun v hv hn => (h1 v hv hn).trans (h2 v hv hn)

theorem agreeUpTo_mono {n n' : Int} {a a' : Int → Bool} (h : agreeUpTo n' a a')
    (hn : n ≤ n') : agreeUpTo n a a' := fun v hv hvn => h v hv (le_trans hvn hn)

theorem agreeUpTo_upd {n x : Int} (a : Int → Bool) (b : Bool) (hx : n < x) :
    agreeUpTo n a (upd a x b) := by
  intro v hv hn
  rw [upd, if_neg (by omega)]

theorem litVal_upd_ne {x l : Int} (a : Int → Bool) (b : Bool) (hne : l.natAbs ≠ x.natAbs) :
    litVal (upd a x b) l = litVal a l := by
  have h1 : ¬l = x := fun hc => hne (by rw [hc])
  have h2 : ¬(-l) = x := fun hc => hne (by rw [← hc, Int.natAbs_neg])
  unfold litVal upd
  split_ifs <;> simp [h1, h2]

theorem litVal_TRUE (a : Int → Bool) : litVal a TRUE = true := by
  rw [litVal, if_pos rfl]

theorem litVal_FALSE (a : Int → Bool) : litVal a FALSE = false := by
  rw [litVal, if_neg (by decide), if_pos rfl]

theorem cnfVal_map_cons (a : Int → Bool) (l : Int) (P : List Clause) :
    cnfVal a (P.map (fun y => l :: y)) = (litVal a l || cnfVal a P) := by
  induction P with
  | nil => simp [cnfVal]
  | cons c cs ih =>
    rw [List.map_cons]
    unfold cnfVal at *
    rw [List.all_cons, List.all_cons, ih]
    cases h : litVal a l <;> simp [clauseVal, List.any_cons, h]

theorem add_clauses_add_clauses (s : CState) (xs ys : List Clause) :
    add_clauses (add_clauses s xs) ys = add_clauses s (xs ++ ys) := by
  simp [add_clauses]

theorem emitSpec_congr {m0 : Int} {vars : List Int} {s : CState} {C : CVal × CState}
    {gb gb' : (Int → Bool) → Bool} (h : EmitSpec m0 vars s C gb)
    (hg : ∀ a, gb a = gb' a) : EmitSpec m0 vars s C gb' := by
  obtain ⟨h1, h2, h3, h4, h5⟩ := h
  exact ⟨h1, h2, h3, fun a ha => (h4 a ha).symm.symm.trans (hg a), h5⟩

/-- Core Tseitin gadget: a fresh variable `x = s.m + 1` defined by the
augmented clause sets `P` (forcing `x → gb`) and `N` (forcing
`gb → x`) satisfies the full emission specification. -/
theorem fresh_def_spec (m0 : Int) (vars : List Int) (s : CState) (P N : List Clause)
    (gb : (Int → Bool) → Bool)
    (hvars : ∀ v ∈ vars, 0 < v ∧ v ≤ m0) (h00 : 0 ≤ m0) (hsub : m0 ≤ s.m)
    (hfin : s.m + 1 < TRUE)
    (hPok : cnfOk s.m P) (hNok : cnfOk s.m N)
    (hP : ∀ a, cnfVal a P = gb a)
    (hN : ∀ a, cnfVal a N = !gb a) :
    EmitSpec m0 vars s
      (CVal.lit (s.m + 1),
        add_clauses { s with m := s.m + 1 }
          (P.map (fun y => -(s.m + 1) :: y) ++ N.map (fun y => (s.m + 1) :: y)))
      gb := by
  have hxok : litOk (s.m + 1) (s.m + 1) := by
    refine ⟨by omega, ?_, ?_⟩ <;> omega
  have hdelta : delta s (add_clauses { s with m := s.m + 1 }
      (P.map (fun y => -(s.m + 1) :: y) ++ N.map (fun y => (s.m + 1) :: y)))
      = P.map (fun y => -(s.m + 1) :: y) ++ N.map (fun y => (s.m + 1) :: y) :=
    delta_of_append _ rfl
  have hax : ∀ a : Int → Bool, litVal a (s.m + 1) = a (s.m + 1) := by
    intro a
    rw [litVal_of_ok hxok, if_pos (by omega)]
  have hnax : ∀ a : Int → Bool, litVal a (-(s.m + 1)) = !a (s.m + 1) := by
    intro a
    rw [litVal_neg hxok, hax]
  have hbdd : bddLit m0 (s.m + 1) vars (s.m + 1) :=
    Or.inr (Or.inr ⟨by omega, by omega, Or.inr ⟨by omega, by omega⟩⟩)
  refine ⟨⟨(by omega : s.m ≤ s.m + 1), _, rfl⟩, hbdd, ?_, ?_, ?_⟩
  · rw [hdelta]
    intro c hc
    rcases List.mem_append.mp hc with h | h
    · obtain ⟨y, hy, rfl⟩ := List.mem_map.mp h
      intro l hl
      rcases List.mem_cons.mp hl with rfl | hl
      · exact litOk_neg hxok
      · exact litOk_mono (hPok y hy l hl) (by omega : s.m ≤ s.m + 1)
    · obtain ⟨y, hy, rfl⟩ := List.mem_map.mp h
      intro l hl
      rcases List.mem_cons.mp hl with rfl | hl
      · exact hxok
      · exact litOk_mono (hNok y hy l hl) (by omega : s.m ≤ s.m + 1)
  · intro a ha
    rw [hdelta, cnfVal_append, Bool.and_eq_true, cnfVal_map_cons, cnfVal_map_cons,
      hnax, hax, hP, hN] at ha
    show litVal a (s.m + 1) = gb a
    rw [hax]
    cases hv : a (s.m + 1)
    · have h2 := ha.2
      rw [hv] at h2
      simp at h2
      rw [h2]
    · have h1 := ha.1
      rw [hv] at h1
      simp at h1
      rw [h1]
  · intro a
    have hag : agreeUpTo s.m a (upd a (s.m + 1) (gb a)) :=
      agreeUpTo_upd a (gb a) (by omega)
    refine ⟨upd a (s.m + 1) (gb a), hag, ?_⟩
    rw [hdelta, cnfVal_append, Bool.and_eq_true, cnfVal_map_cons, cnfVal_map_cons,
      hnax, hax, ← cnfVal_agree hPok hag, ← cnfVal_agree hNok hag, hP, hN]
    have hupd : upd a (s.m + 1) (gb a) (s.m + 1) = gb a := by
      rw [upd, if_pos rfl]
    rw [hupd]
    cases hg : gb a <;> simp

/-- Trivial emission spec: the call returned an existing literal and
left the state unchanged. -/
theorem emitSpec_lit (m0 : Int) (vars : List Int) (s : CState) (r : Int)
    (gb : (Int → Bool) → Bool) (hb : bddLit m0 s.m vars r)
    (hval : ∀ a, litVal a r = gb a) : EmitSpec m0 vars s (CVal.lit r, s) gb :=
  ⟨extends_refl s, hb, by rw [delta_self]; exact cnfOk_nil, fun a _ => hval a,
    fun a => ⟨a, agreeUpTo_refl s.m a, by rw [delta_self]; rfl⟩⟩

theorem AndC_spec (m0 : Int) (vars : List Int) (f g : Int) (s : CState)
    (hvars : ∀ v ∈ vars, 0 < v ∧ v ≤ m0)
    (h00 : 0 ≤ m0) (hsub : m0 ≤ s.m)
    (hf : bddLit m0 s.m vars f) (hg : bddLit m0 s.m vars g)
    (hfin : (AndC f g none true s).2.m < TRUE) :
    EmitSpec m0 vars s (AndC f g none true s) (fun a => litVal a f && litVal a g) := by
  rw [AndC] at hfin ⊢
  by_cases h1 : f = FALSE ∨ g = FALSE
  · rw [if_pos h1]
    refine emitSpec_lit m0 vars s FALSE _ (Or.inr (Or.inl rfl)) ?_
    intro a
    rcases h1 with h | h <;> rw [h] <;> simp [litVal_FALSE]
  rw [if_neg h1] at hfin ⊢
  push_neg at h1
  by_cases h2 : f = TRUE
  · rw [if_pos h2]
    refine emitSpec_lit m0 vars s g _ hg ?_
    intro a
    rw [h2, litVal_TRUE]
    simp
  rw [if_neg h2] at hfin ⊢
  by_cases h3 : g = TRUE
  · rw [if_pos h3]
    refine emitSpec_lit m0 vars s f _ hf ?_
    intro a
    rw [h3, litVal_TRUE]
    simp
  rw [if_neg h3] at hfin ⊢
  have hfok : litOk s.m f := bddLit_litOk hf hvars hsub h2 h1.1
  have hgok : litOk s.m g := bddLit_litOk hg hvars hsub h3 h1.2
  by_cases h4 : f = g
  · rw [if_pos h4]
    refine emitSpec_lit m0 vars s f _ hf ?_
    intro a
    rw [h4]
    simp
  rw [if_neg h4] at hfin ⊢
  by_cases h5 : f = -g
  · rw [if_pos h5]
    refine emitSpec_lit m0 vars s FALSE _ (Or.inr (Or.inl rfl)) ?_
    intro a
    rw [litVal_FALSE, h5, litVal_neg hgok]
    simp
  rw [if_neg h5] at hfin ⊢
  by_cases hsw : g < f
  · rw [if_pos hsw] at hfin ⊢
    have hfin' : s.m + 1 < TRUE := hfin
    have hPok : cnfOk s.m [[g], [f]] := by
      intro c hc l hl
      rcases List.mem_cons.mp hc with rfl | hc
      · rcases List.mem_cons.mp hl with rfl | hl
        · exact hgok
        · cases hl
      · rcases List.mem_cons.mp hc with rfl | hc
        · rcases List.mem_cons.mp hl with rfl | hl
          · exact hfok
          · cases hl
        · cases hc
    have hNok : cnfOk s.m [[-g, -f]] := by
      intro c hc l hl
      rcases List.mem_cons.mp hc with rfl | hc
      · rcases List.mem_cons.mp hl with rfl | hl
        · exact litOk_neg hgok
        · rcases List.mem_cons.mp hl with rfl | hl
          · exact litOk_neg hfok
          · cases hl
      · cases hc
    have h := fresh_def_spec m0 vars s [[g], [f]] [[-g, -f]]
      (fun a => litVal a g && litVal a f) hvars h00 hsub hfin' hPok hNok
      (by intro a; simp [cnfVal, clauseVal])
      (by intro a; simp [cnfVal, clauseVal, litVal_neg hgok, litVal_neg hfok])
    show EmitSpec m0 vars s
      (CVal.lit (s.m + 1),
        add_clauses (add_clauses { s with m := s.m + 1 }
          [[-(s.m + 1), g], [-(s.m + 1), f]]) [[s.m + 1, -g, -f]])
      (fun a => litVal a f && litVal a g)
    rw [add_clauses_add_clauses]
    exact emitSpec_congr h (fun a => Bool.and_comm _ _)
  · rw [if_neg hsw] at hfin ⊢
    have hfin' : s.m + 1 < TRUE := hfin
    have hPok : cnfOk s.m [[f], [g]] := by
      intro c hc l hl
      rcases List.mem_cons.mp hc with rfl | hc
      · rcases List.mem_cons.mp hl with rfl | hl
        · exact hfok
        · cases hl
      · rcases List.mem_cons.mp hc with rfl | hc
        · rcases List.mem_cons.mp hl with rfl | hl
          · exact hgok
          · cases hl
        · cases hc
    have hNok : cnfOk s.m [[-f, -g]] := by
      intro c hc l hl
      rcases List.mem_cons.mp hc with rfl | hc
      · rcases List.mem_cons.mp hl with rfl | hl
        · exact litOk_neg hfok
        · rcases List.mem_cons.mp hl with rfl | hl
          · exact litOk_neg hgok
          · cases hl
      · cases hc
    have h := fresh_def_spec m0 vars s [[f], [g]] [[-f, -g]]
      (fun a => litVal a f && litVal a g) hvars h00 hsub hfin' hPok hNok
      (by intro a; simp [cnfVal, clauseVal])
      (by intro a; simp [cnfVal, clauseVal, litVal_neg hgok, litVal_neg hfok])
    show EmitSpec m0 vars s
      (CVal.lit (s.m + 1),
        add_clauses (add_clauses { s with m := s.m + 1 }
          [[-(s.m + 1), f], [-(s.m + 1), g]]) [[s.m + 1, -f, -g]])
      (fun a => litVal a f && litVal a g)
    rw [add_clauses_add_clauses]
    exact h

theorem OrC_spec (m0 : Int) (vars : List Int) (f g : Int) (s : CState)
    (hvars : ∀ v ∈ vars, 0 < v ∧ v ≤ m0)
    (h00 : 0 ≤ m0) (hsub : m0 ≤ s.m)
    (hf : bddLit m0 s.m vars f) (hg : bddLit m0 s.m vars g)
    (hfin : (OrC f g none true s).2.m < TRUE) :
    EmitSpec m0 vars s (OrC f g none true s) (fun a => litVal a f || litVal a g) := by
  rw [OrC] at hfin ⊢
  by_cases h1 : f = TRUE ∨ g = TRUE
  · rw [if_pos h1]
    refine emitSpec_lit m0 vars s TRUE _ (Or.inl rfl) ?_
    intro a
    rcases h1 with h | h <;> rw [h] <;> simp [litVal_TRUE]
  rw [if_neg h1] at hfin ⊢
  push_neg at h1
  by_cases h2 : f = FALSE
  · rw [if_pos h2]
    refine emitSpec_lit m0 vars s g _ hg ?_
    intro a
    rw [h2, litVal_FALSE]
    simp
  rw [if_neg h2] at hfin ⊢
  by_cases h3 : g = FALSE
  · rw [if_pos h3]
    refine emitSpec_lit m0 vars s f _ hf ?_
    intro a
    rw [h3, litVal_FALSE]
    simp
  rw [if_neg h3] at hfin ⊢
  have hfok : litOk s.m f := bddLit_litOk hf hvars hsub h1.1 h2
  have hgok : litOk s.m g := bddLit_litOk hg hvars hsub h1.2 h3
  by_cases h4 : f = g
  · rw [if_pos h4]
    refine emitSpec_lit m0 vars s f _ hf ?_
    intro a
    rw [h4]
    simp
  rw [if_neg h4] at hfin ⊢
  by_cases h5 : f = -g
  · rw [if_pos h5]
    refine emitSpec_lit m0 vars s TRUE _ (Or.inl rfl) ?_
    intro a
    rw [litVal_TRUE, h5, litVal_neg hgok]
    simp
  rw [if_neg h5] at hfin ⊢
  by_cases hsw : g < f
  · rw [if_pos hsw] at hfin ⊢
    have hfin' : s.m + 1 < TRUE := hfin
    have hPok : cnfOk s.m [[g, f]] := by
      intro c hc l hl
      rcases List.mem_cons.mp hc with rfl | hc
      · rcases List.mem_cons.mp hl with rfl | hl
        · exact hgok
        · rcases List.mem_cons.mp hl with rfl | hl
          · exact hfok
          · cases hl
      · cases hc
    have hNok : cnfOk s.m [[-g], [-f]] := by
      intro c hc l hl
      rcases List.mem_cons.mp hc with rfl | hc
      · rcases List.mem_cons.mp hl with rfl | hl
        · exact litOk_neg hgok
        · cases hl
      · rcases List.mem_cons.mp hc with rfl | hc
        · rcases List.mem_cons.mp hl with rfl | hl
          · exact litOk_neg hfok
          · cases hl
        · cases hc
    have h := fresh_def_spec m0 vars s [[g, f]] [[-g], [-f]]
      (fun a => litVal a g || litVal a f) hvars h00 hsub hfin' hPok hNok
      (by intro a; simp [cnfVal, clauseVal])
      (by intro a; simp [cnfVal, clauseVal, litVal_neg hgok, litVal_neg hfok])
    show EmitSpec m0 vars s
      (CVal.lit (s.m + 1),
        add_clauses (add_clauses { s with m := s.m + 1 }
          [[-(s.m + 1), g, f]]) [[s.m + 1, -g], [s.m + 1, -f]])
      (fun a => litVal a f || litVal a g)
    rw [add_clauses_add_clauses]
    exact emitSpec_congr h (fun a => Bool.or_comm _ _)
  · rw [if_neg hsw] at hfin ⊢
    have hfin' : s.m + 1 < TRUE := hfin
    have hPok : cnfOk s.m [[f, g]] := by
      intro c hc l hl
      rcases List.mem_cons.mp hc with rfl | hc
      · rcases List.mem_cons.mp hl with rfl | hl
        · exact hfok
        · rcases List.mem_cons.mp hl with rfl | hl
          · exact hgok
          · cases hl
      · cases hc
    have hNok : cnfOk s.m [[-f], [-g]] := by
      intro c hc l hl
      rcases List.mem_cons.mp hc with rfl | hc
      · rcases List.mem_cons.mp hl with rfl | hl
        · exact litOk_neg hfok
        · cases hl
      · rcases List.mem_cons.mp hc with rfl | hc
        · rcases List.mem_cons.mp hl with rfl | hl
          · exact litOk_neg hgok
          · cases hl
        · cases hc
    have h := fresh_def_spec m0 vars s [[f, g]] [[-f], [-g]]
      (fun a => litVal a f || litVal a g) hvars h00 hsub hfin' hPok hNok
      (by intro a; simp [cnfVal, clauseVal])
      (by intro a; simp [cnfVal, clauseVal, litVal_neg hgok, litVal_neg hfok])
    show EmitSpec m0 vars s
      (CVal.lit (s.m + 1),
        add_clauses (add_clauses { s with m := s.m + 1 }
          [[-(s.m + 1), f, g]]) [[s.m + 1, -f], [s.m + 1, -g]])
      (fun a => litVal a f || litVal a g)
    rw [add_clauses_add_clauses]
    exact h

theorem XorC_spec (m0 : Int) (vars : List Int) (f g : Int) (s : CState)
    (hvars : ∀ v ∈ vars, 0 < v ∧ v ≤ m0)
    (h00 : 0 ≤ m0) (hsub : m0 ≤ s.m)
    (hf : bddLit m0 s.m vars f) (hg : bddLit m0 s.m vars g)
    (hfT : f ≠ TRUE) (hfF : f ≠ FALSE) (hgT : g ≠ TRUE) (hgF : g ≠ FALSE)
    (hfin : (XorC f g none true s).2.m < TRUE) :
    EmitSpec m0 vars s (XorC f g none true s) (fun a => litVal a f != litVal a g) := by
  have hfok : litOk s.m f := bddLit_litOk hf hvars hsub hfT hfF
  have hgok : litOk s.m g := bddLit_litOk hg hvars hsub hgT hgF
  rw [XorC] at hfin ⊢
  rw [if_neg hfF] at hfin ⊢
  rw [if_neg hfT] at hfin ⊢
  rw [if_neg hgF] at hfin ⊢
  rw [if_neg hgT] at hfin ⊢
  by_cases h4 : f = g
  · rw [if_pos h4]
    refine emitSpec_lit m0 vars s FALSE _ (Or.inr (Or.inl rfl)) ?_
    intro a
    rw [litVal_FALSE, h4]
    simp
  rw [if_neg h4] at hfin ⊢
  by_cases h5 : f = -g
  · rw [if_pos h5]
    refine emitSpec_lit m0 vars s TRUE _ (Or.inl rfl) ?_
    intro a
    rw [litVal_TRUE, h5, litVal_neg hgok]
    cases litVal a g <;> rfl
  rw [if_neg h5] at hfin ⊢
  have hXok : ∀ u v : Int, litOk s.m u → litOk s.m v → cnfOk s.m [[u, v], [-u, -v]] := by
    intro u v hu hv c hc l hl
    rcases List.mem_cons.mp hc with rfl | hc
    · rcases List.mem_cons.mp hl with rfl | hl
      · exact hu
      · rcases List.mem_cons.mp hl with rfl | hl
        · exact hv
        · cases hl
    · rcases List.mem_cons.mp hc with rfl | hc
      · rcases List.mem_cons.mp hl with rfl | hl
        · exact litOk_neg hu
        · rcases List.mem_cons.mp hl with rfl | hl
          · exact litOk_neg hv
          · cases hl
      · cases hc
  by_cases hsw : g < f
  · rw [if_pos hsw] at hfin ⊢
    have hfin' : s.m + 1 < TRUE := hfin
    have h := fresh_def_spec m0 vars s [[g, f], [-g, -f]] [[-g, f], [g, -f]]
      (fun a => litVal a g != litVal a f) hvars h00 hsub hfin'
      (hXok g f hgok hfok)
      (by
        intro c hc l hl
        rcases List.mem_cons.mp hc with rfl | hc
        · rcases List.mem_cons.mp hl with rfl | hl
          · exact litOk_neg hgok
          · rcases List.mem_cons.mp hl with rfl | hl
            · exact hfok
            · cases hl
        · rcases List.mem_cons.mp hc with rfl | hc
          · rcases List.mem_cons.mp hl with rfl | hl
            · exact hgok
            · rcases List.mem_cons.mp hl with rfl | hl
              · exact litOk_neg hfok
              · cases hl
          · cases hc)
      (by
        intro a
        simp [cnfVal, clauseVal, litVal_neg hgok, litVal_neg hfok]
        cases litVal a g <;> cases litVal a f <;> rfl)
      (by
        intro a
        simp [cnfVal, clauseVal, litVal_neg hgok, litVal_neg hfok]
        cases litVal a g <;> cases litVal a f <;> rfl)
    show EmitSpec m0 vars s
      (CVal.lit (s.m + 1),
        add_clauses (add_clauses { s with m := s.m + 1 }
          [[-(s.m + 1), g, f], [-(s.m + 1), -g, -f]])
          [[s.m + 1, -g, f], [s.m + 1, g, -f]])
      (fun a => litVal a f != litVal a g)
    rw [add_clauses_add_clauses]
    refine emitSpec_congr h ?_
    intro a
    cases litVal a f <;> cases litVal a g <;> rfl
  · rw [if_neg hsw] at hfin ⊢
    have hfin' : s.m + 1 < TRUE := hfin
    have h := fresh_def_spec m0 vars s [[f, g], [-f, -g]] [[-f, g], [f, -g]]
      (fun a => litVal a f != litVal a g) hvars h00 hsub hfin'
      (hXok f g hfok hgok)
      (by
        intro c hc l hl
        rcases List.mem_cons.mp hc with rfl | hc
        · rcases List.mem_cons.mp hl with rfl | hl
          · exact litOk_neg hfok
          · rcases List.mem_cons.mp hl with rfl | hl
            · exact hgok
            · cases hl
        · rcases List.mem_cons.mp hc with rfl | hc
          · rcases List.mem_cons.mp hl with rfl | hl
            · exact hfok
            · rcases List.mem_cons.mp hl with rfl | hl
              · exact litOk_neg hgok
              · cases hl
          · cases hc)
      (by
        intro a
        simp [cnfVal, clauseVal, litVal_neg hfok, litVal_neg hgok]
        cases litVal a f <;> cases litVal a g <;> rfl)
      (by
        intro a
        simp [cnfVal, clauseVal, litVal_neg hfok, litVal_neg hgok]
        cases litVal a f <;> cases litVal a g <;> rfl)
    show EmitSpec m0 vars s
      (CVal.lit (s.m + 1),
        add_clauses (add_clauses { s with m := s.m + 1 }
          [[-(s.m + 1), f, g], [-(s.m + 1), -f, -g]])
          [[s.m + 1, -f, g], [s.m + 1, f, -g]])
      (fun a => litVal a f != litVal a g)
    rw [add_clauses_add_clauses]
    exact h

theorem clOk2 {n u v : Int} (hu : litOk n u) (hv : litOk n v) : clOk n [u, v] := by
  intro l hl
  rcases List.mem_cons.mp hl with rfl | hl
  · exact hu
  rcases List.mem_cons.mp hl with rfl | hl
  · exact hv
  cases hl

theorem clOk3 {n u v w : Int} (hu : litOk n u) (hv : litOk n v) (hw : litOk n w) :
    clOk n [u, v, w] := by
  intro l hl
  rcases List.mem_cons.mp hl with rfl | hl
  · exact hu
  rcases List.mem_cons.mp hl with rfl | hl
  · exact hv
  rcases List.mem_cons.mp hl with rfl | hl
  · exact hw
  cases hl

theorem cnfOk3 {n : Int} {c1 c2 c3 : Clause} (h1 : clOk n c1) (h2 : clOk n c2)
    (h3 : clOk n c3) : cnfOk n [c1, c2, c3] := by
  intro cl hcl
  rcases List.mem_cons.mp hcl with rfl | hcl
  · exact h1
  rcases List.mem_cons.mp hcl with rfl | hcl
  · exact h2
  rcases List.mem_cons.mp hcl with rfl | hcl
  · exact h3
  cases hcl

theorem ITEC_spec (m0 : Int) (vars : List Int) (c t f : Int) (s : CState)
    (hvars : ∀ v ∈ vars, 0 < v ∧ v ≤ m0)
    (h00 : 0 ≤ m0) (hsub : m0 ≤ s.m)
    (hc : bddLit m0 s.m vars c) (ht : bddLit m0 s.m vars t) (hf : bddLit m0 s.m vars f)
    (hfin : (ITEC c t f none true s).2.m < TRUE) :
    EmitSpec m0 vars s (ITEC c t f none true s)
      (fun a => cond (litVal a c) (litVal a t) (litVal a f)) := by
  rw [ITEC] at hfin ⊢
  by_cases h1 : c = TRUE
  · rw [if_pos h1]
    refine emitSpec_lit m0 vars s t _ ht ?_
    intro a
    rw [h1, litVal_TRUE]
    rfl
  rw [if_neg h1] at hfin ⊢
  by_cases h2 : c = FALSE
  · rw [if_pos h2]
    refine emitSpec_lit m0 vars s f _ hf ?_
    intro a
    rw [h2, litVal_FALSE]
    rfl
  rw [if_neg h2] at hfin ⊢
  have hcok : litOk s.m c := bddLit_litOk hc hvars hsub h1 h2
  by_cases h3 : t = TRUE
  · rw [if_pos h3] at hfin ⊢
    refine emitSpec_congr (OrC_spec m0 vars c f s hvars h00 hsub hc hf hfin) ?_
    intro a
    rw [h3, litVal_TRUE]
    cases hvc : litVal a c <;> simp
  rw [if_neg h3] at hfin ⊢
  by_cases h4 : t = FALSE
  · rw [if_pos h4] at hfin ⊢
    refine emitSpec_congr
      (AndC_spec m0 vars (-c) f s hvars h00 hsub (bddLit_neg hc h1 h2) hf hfin) ?_
    intro a
    rw [h4, litVal_FALSE, litVal_neg hcok]
    cases hvc : litVal a c <;> simp
  rw [if_neg h4] at hfin ⊢
  by_cases h5 : f = FALSE
  · rw [if_pos h5] at hfin ⊢
    refine emitSpec_congr (AndC_spec m0 vars c t s hvars h00 hsub hc ht hfin) ?_
    intro a
    rw [h5, litVal_FALSE]
    cases hvc : litVal a c <;> simp
  rw [if_neg h5] at hfin ⊢
  by_cases h6 : f = TRUE
  · rw [if_pos h6] at hfin ⊢
    refine emitSpec_congr
      (OrC_spec m0 vars t (-c) s hvars h00 hsub ht (bddLit_neg hc h1 h2) hfin) ?_
    intro a
    rw [h6, litVal_TRUE, litVal_neg hcok]
    cases hvc : litVal a c <;> simp
  rw [if_neg h6] at hfin ⊢
  by_cases h7 : t = c
  · rw [if_pos h7] at hfin ⊢
    refine emitSpec_congr (OrC_spec m0 vars c f s hvars h00 hsub hc hf hfin) ?_
    intro a
    rw [h7]
    cases hvc : litVal a c <;> simp [hvc]
  rw [if_neg h7] at hfin ⊢
  by_cases h8 : t = -c
  · rw [if_pos h8] at hfin ⊢
    refine emitSpec_congr
      (AndC_spec m0 vars (-c) f s hvars h00 hsub (bddLit_neg hc h1 h2) hf hfin) ?_
    intro a
    rw [h8, litVal_neg hcok]
    cases hvc : litVal a c <;> simp [hvc]
  rw [if_neg h8] at hfin ⊢
  by_cases h9 : f = c
  · rw [if_pos h9] at hfin ⊢
    refine emitSpec_congr (AndC_spec m0 vars c t s hvars h00 hsub hc ht hfin) ?_
    intro a
    rw [h9]
    cases hvc : litVal a c <;> simp [hvc]
  rw [if_neg h9] at hfin ⊢
  by_cases h10 : f = -c
  · rw [if_pos h10] at hfin ⊢
    refine emitSpec_congr
      (OrC_spec m0 vars t (-c) s hvars h00 hsub ht (bddLit_neg hc h1 h2) hfin) ?_
    intro a
    rw [h10, litVal_neg hcok]
    cases hvc : litVal a c <;> simp [hvc]
  rw [if_neg h10] at hfin ⊢
  by_cases h11 : t = f
  · rw [if_pos h11]
    refine emitSpec_lit m0 vars s t _ ht ?_
    intro a
    rw [h11]
    cases hvc : litVal a c <;> simp
  rw [if_neg h11] at hfin ⊢
  have hfok : litOk s.m f := bddLit_litOk hf hvars hsub h6 h5
  by_cases h12 : t = -f
  · rw [if_pos h12] at hfin ⊢
    refine emitSpec_congr
      (XorC_spec m0 vars c f s hvars h00 hsub hc hf h1 h2 h6 h5 hfin) ?_
    intro a
    rw [h12, litVal_neg hfok]
    cases hvc : litVal a c <;> cases hvf : litVal a f <;> simp
  rw [if_neg h12] at hfin ⊢
  have htok : litOk s.m t := bddLit_litOk ht hvars hsub h3 h4
  by_cases hsw : t < f
  · rw [if_pos hsw] at hfin ⊢
    have hfin' : s.m + 1 < TRUE := hfin
    have h := fresh_def_spec m0 vars s
      [[-(-c), f], [-c, t], [f, t]] [[-(-c), -f], [-c, -t], [-f, -t]]
      (fun a => cond (litVal a c) (litVal a t) (litVal a f)) hvars h00 hsub hfin'
      (cnfOk3 (clOk2 (litOk_neg (litOk_neg hcok)) hfok)
        (clOk2 (litOk_neg hcok) htok) (clOk2 hfok htok))
      (cnfOk3 (clOk2 (litOk_neg (litOk_neg hcok)) (litOk_neg hfok))
        (clOk2 (litOk_neg hcok) (litOk_neg htok))
        (clOk2 (litOk_neg hfok) (litOk_neg htok)))
      (by
        intro a
        simp only [cnfVal, clauseVal, List.all_cons, List.all_nil, List.any_cons,
          List.any_nil, litVal_neg (litOk_neg hcok), litVal_neg hcok, litVal_neg htok,
          litVal_neg hfok]
        cases hvc : litVal a c <;> cases hvt : litVal a t <;> cases hvf : litVal a f <;>
          simp)
      (by
        intro a
        simp only [cnfVal, clauseVal, List.all_cons, List.all_nil, List.any_cons,
          List.any_nil, litVal_neg (litOk_neg hcok), litVal_neg hcok, litVal_neg htok,
          litVal_neg hfok]
        cases hvc : litVal a c <;> cases hvt : litVal a t <;> cases hvf : litVal a f <;>
          simp)
    show EmitSpec m0 vars s
      (CVal.lit (s.m + 1),
        add_clauses (add_clauses { s with m := s.m + 1 }
          [[-(s.m + 1), -(-c), f], [-(s.m + 1), -c, t], [-(s.m + 1), f, t]])
          [[s.m + 1, -(-c), -f], [s.m + 1, -c, -t], [s.m + 1, -f, -t]])
      (fun a => cond (litVal a c) (litVal a t) (litVal a f))
    rw [add_clauses_add_clauses]
    exact h
  · rw [if_neg hsw] at hfin ⊢
    have hfin' : s.m + 1 < TRUE := hfin
    have h := fresh_def_spec m0 vars s
      [[-c, t], [c, f], [t, f]] [[-c, -t], [c, -f], [-t, -f]]
      (fun a => cond (litVal a c) (litVal a t) (litVal a f)) hvars h00 hsub hfin'
      (cnfOk3 (clOk2 (litOk_neg hcok) htok) (clOk2 hcok hfok) (clOk2 htok hfok))
      (cnfOk3 (clOk2 (litOk_neg hcok) (litOk_neg htok))
        (clOk2 hcok (litOk_neg hfok)) (clOk2 (litOk_neg htok) (litOk_neg hfok)))
      (by
        intro a
        simp only [cnfVal, clauseVal, List.all_cons, List.all_nil, List.any_cons,
          List.any_nil, litVal_neg hcok, litVal_neg htok, litVal_neg hfok]
        cases hvc : litVal a c <;> cases hvt : litVal a t <;> cases hvf : litVal a f <;>
          simp)
      (by
        intro a
        simp only [cnfVal, clauseVal, List.all_cons, List.all_nil, List.any_cons,
          List.any_nil, litVal_neg hcok, litVal_neg htok, litVal_neg hfok]
        cases hvc : litVal a c <;> cases hvt : litVal a t <;> cases hvf : litVal a f <;>
          simp)
    show EmitSpec m0 vars s
      (CVal.lit (s.m + 1),
        add_clauses (add_clauses { s with m := s.m + 1 }
          [[-(s.m + 1), -c, t], [-(s.m + 1), c, f], [-(s.m + 1), t, f]])
          [[s.m + 1, -c, -t], [s.m + 1, c, -f], [s.m + 1, -t, -f]])
      (fun a => cond (litVal a c) (litVal a t) (litVal a f))
    rw [add_clauses_add_clauses]
    exact h

/-! ## Helper lemmas for the BDD induction -/

theorem memoFind_mem {k : Nat × Int × Int} {memo : Memo} {r : Int}
    (h : memoFind k memo = some r) : (k, r) ∈ memo := by
  induction memo with
  | nil => cases h
  | cons e rest ih =>
    rw [memoFind] at h
    by_cases he : e.1 = k
    · rw [if_pos he] at h
      obtain ⟨k1, r1⟩ := e
      simp only at he
      subst he
      injection h with h2
      subst h2
      exact List.mem_cons_self _ _
    · rw [if_neg he] at h
      exact List.mem_cons_of_mem e (ih h)

theorem memoOk_mono {lits coeffs : List Int} {lo hi m0 : Int} {vars : List Int}
    {D D' : List Clause} {mm mm' : Int} {memo : Memo}
    (h : memoOk lits coeffs lo hi m0 vars D mm memo)
    (hD : ∀ a, cnfVal a D' = true → cnfVal a D = true) (hmm : mm ≤ mm') :
    memoOk lits coeffs lo hi m0 vars D' mm' memo := by
  intro k r hkr
  obtain ⟨hb, hs⟩ := h k r hkr
  exact ⟨bddLit_mono hb hmm, fun a ha => hs a (hD a ha)⟩

theorem zip_take_take (l1 l2 : List Int) (n : Nat) :
    (l1.take n).zip (l2.take n) = (l1.zip l2).take n := by
  induction l1 generalizing l2 n with
  | nil => simp
  | cons x xs ih =>
    cases l2 with
    | nil => simp
    | cons y ys =>
      cases n with
      | zero => simp
      | succ n => simp [List.take_succ_cons, List.zip_cons_cons, ih]

theorem wsumP_nonneg (a : Int → Bool) (ps : List (Int × Int)) (h : ∀ p ∈ ps, 0 ≤ p.1) :
    0 ≤ wsumP a ps := by
  induction ps with
  | nil => simp [wsumP]
  | cons p ps ih =>
    have h1 := h p (by simp)
    have h2 := ih (fun q hq => h q (by simp [hq]))
    rw [wsumP] at h2 ⊢
    rw [List.map_cons, List.sum_cons]
    split_ifs <;> omega

theorem wsumP_le_sum (a : Int → Bool) (ps : List (Int × Int)) (h : ∀ p ∈ ps, 0 ≤ p.1) :
    wsumP a ps ≤ (ps.map Prod.fst).sum := by
  induction ps with
  | nil => simp [wsumP]
  | cons p ps ih =>
    have h1 := h p (by simp)
    have h2 := ih (fun q hq => h q (by simp [hq]))
    rw [wsumP] at h2 ⊢
    rw [List.map_cons, List.sum_cons, List.map_cons, List.sum_cons]
    split_ifs <;> omega

theorem psum_eq_wsumP (a : Int → Bool) (lits coeffs : List Int) (k : Nat) :
    psum a lits coeffs k = wsumP a ((coeffs.zip lits).take k) := by
  show wsumP a ((coeffs.take k).zip (lits.take k)) = _
  rw [zip_take_take]

theorem psum_zero (a : Int → Bool) (lits coeffs : List Int) :
    psum a lits coeffs 0 = 0 := rfl

theorem psum_nonneg (a : Int → Bool) (lits coeffs : List Int) (k : Nat)
    (h : ∀ c ∈ coeffs.take k, 0 < c) : 0 ≤ psum a lits coeffs k := by
  rw [psum_eq_wsumP, ← zip_take_take]
  apply wsumP_nonneg
  intro p hp
  exact le_of_lt (h p.1 (List.of_mem_zip hp).1)

theorem psum_le (a : Int → Bool) (lits coeffs : List Int) (k : Nat)
    (h : ∀ c ∈ coeffs.take k, 0 < c) (hk : k ≤ lits.length) :
    psum a lits coeffs k ≤ (coeffs.take k).sum := by
  rw [psum_eq_wsumP, ← zip_take_take]
  have hle := wsumP_le_sum a ((coeffs.take k).zip (lits.take k))
    (fun p hp => le_of_lt (h p.1 (List.of_mem_zip hp).1))
  have hmap : ((coeffs.take k).zip (lits.take k)).map Prod.fst = coeffs.take k := by
    apply List.map_fst_zip
    rw [List.length_take, List.length_take]
    omega
  rw [hmap] at hle
  exact hle

theorem take_sum_succ (l : List Int) (n : Nat) (hn : n < l.length) :
    (l.take (n + 1)).sum = (l.take n).sum + l.getD n 0 := by
  rw [List.take_succ, List.sum_append, List.getD_eq_getElem l 0 hn,
    List.getElem?_eq_getElem hn]
  simp

theorem psum_succ (a : Int → Bool) (lits coeffs : List Int) (n : Nat)
    (h1 : n < lits.length) (h2 : n < coeffs.length) :
    psum a lits coeffs (n + 1)
      = psum a lits coeffs n
        + (if litVal a (lits.getD n 0) then coeffs.getD n 0 else 0) := by
  rw [psum_eq_wsumP, psum_eq_wsumP, List.take_succ]
  have hzl : n < (coeffs.zip lits).length := by
    rw [List.length_zip]
    omega
  rw [List.getElem?_eq_getElem hzl]
  rw [wsumP, wsumP, List.map_append, List.sum_append]
  rw [List.getD_eq_getElem lits 0 h1, List.getD_eq_getElem coeffs 0 h2]
  simp [List.getElem_zip]

set_option maxHeartbeats 1000000 in
theorem AndC_m_le (f g : Int) (pol : Polarity) (anc : Bool) (s : CState) :
    s.m ≤ (AndC f g pol anc s).2.m := by
  rw [AndC]
  split_ifs <;> (simp [new_var, add_clauses]; try omega)

set_option maxHeartbeats 1000000 in
theorem OrC_m_le (f g : Int) (pol : Polarity) (anc : Bool) (s : CState) :
    s.m ≤ (OrC f g pol anc s).2.m := by
  rw [OrC]
  split_ifs <;> (simp [new_var, add_clauses]; try omega)

set_option maxHeartbeats 1000000 in
theorem XorC_m_le (f g : Int) (pol : Polarity) (anc : Bool) (s : CState) :
    s.m ≤ (XorC f g pol anc s).2.m := by
  rw [XorC]
  split_ifs <;> (simp [new_var, add_clauses]; try omega)

set_option maxHeartbeats 1000000 in
theorem ITEC_m_le (c t f : Int) (pol : Polarity) (anc : Bool) (s : CState) :
    s.m ≤ (ITEC c t f pol anc s).2.m := by
  rw [ITEC]
  by_cases h1 : c = TRUE
  · rw [if_pos h1]
  rw [if_neg h1]
  by_cases h2 : c = FALSE
  · rw [if_pos h2]
  rw [if_neg h2]
  by_cases h3 : t = TRUE
  · rw [if_pos h3]; exact OrC_m_le _ _ _ _ _
  rw [if_neg h3]
  by_cases h4 : t = FALSE
  · rw [if_pos h4]; exact AndC_m_le _ _ _ _ _
  rw [if_neg h4]
  by_cases h5 : f = FALSE
  · rw [if_pos h5]; exact AndC_m_le _ _ _ _ _
  rw [if_neg h5]
  by_cases h6 : f = TRUE
  · rw [if_pos h6]; exact OrC_m_le _ _ _ _ _
  rw [if_neg h6]
  by_cases h7 : t = c
  · rw [if_pos h7]; exact OrC_m_le _ _ _ _ _
  rw [if_neg h7]
  by_cases h8 : t = -c
  · rw [if_pos h8]; exact AndC_m_le _ _ _ _ _
  rw [if_neg h8]
  by_cases h9 : f = c
  · rw [if_pos h9]; exact AndC_m_le _ _ _ _ _
  rw [if_neg h9]
  by_cases h10 : f = -c
  · rw [if_pos h10]; exact OrC_m_le _ _ _ _ _
  rw [if_neg h10]
  by_cases h11 : t = f
  · rw [if_pos h11]
  rw [if_neg h11]
  by_cases h12 : t = -f
  · rw [if_pos h12]; exact XorC_m_le _ _ _ _ _
  rw [if_neg h12]
  by_cases hsw : t < f <;> [rw [if_pos hsw]; rw [if_neg hsw]] <;>
    (by_cases ha : anc = true
     · rw [if_pos ha]
       by_cases hp : posPol pol = true <;> by_cases hnp : negPol pol = true <;>
         simp [hp, hnp, new_var, add_clauses] <;> try omega
     · rw [if_neg ha])

theorem bddRec_m_le (lits coeffs : List Int) (lo hi : Int) (pol : Polarity) :
    ∀ (n : Nat) (csum total : Int) (memo : Memo) (s : CState),
      s.m ≤ (bddRec lits coeffs lo hi pol n csum total memo s).2.2.m := by
  intro n
  induction n with
  | zero =>
    intro csum total memo s
    rw [bddRec]
    cases hfind : memoFind (0, csum, total) memo with
    | some r => exact le_refl _
    | none =>
      split_ifs <;> exact le_refl _
  | succ n ih =>
    intro csum total memo s
    rw [bddRec]
    cases hfind : memoFind (n + 1, csum, total) memo with
    | some r => exact le_refl _
    | none =>
      split_ifs
      · exact le_refl _
      · exact le_refl _
      · exact le_trans (ih _ _ _ _) (le_trans (ih _ _ _ _) (ITEC_m_le _ _ _ _ _ _))

/-! ## Unfolding equations for the BDD recursion -/

theorem cnfOk_delta_right {s0 s1 s2 : CState} {n : Int} (h01 : Extends s0 s1)
    (h12 : Extends s1 s2) (hD : cnfOk n (delta s0 s2)) : cnfOk n (delta s1 s2) := by
  intro c hc
  apply hD
  rw [delta_chain h01 h12]
  exact List.mem_append_right _ hc

theorem bddRec_hit (lits coeffs : List Int) (lo hi : Int) (pol : Polarity)
    (n : Nat) (csum total : Int) (memo : Memo) (s : CState) (r : Int)
    (hfind : memoFind (n, csum, total) memo = some r) :
    bddRec lits coeffs lo hi pol n csum total memo s = (r, memo, s) := by
  cases n with
  | zero =>
    rw [bddRec]
    simp only [hfind]
  | succ k =>
    rw [bddRec]
    simp only [hfind]

theorem bddRec_true (lits coeffs : List Int) (lo hi : Int) (pol : Polarity)
    (n : Nat) (csum total : Int) (memo : Memo) (s : CState)
    (hfind : memoFind (n, csum, total) memo = none)
    (h1 : lo - csum ≤ 0 ∧ hi - csum ≥ total) :
    bddRec lits coeffs lo hi pol n csum total memo s
      = (TRUE, ((n, csum, total), TRUE) :: memo, s) := by
  cases n with
  | zero =>
    rw [bddRec]
    simp only [hfind]
    rw [if_pos h1]
  | succ k =>
    rw [bddRec]
    simp only [hfind]
    rw [if_pos h1]

theorem bddRec_false (lits coeffs : List Int) (lo hi : Int) (pol : Polarity)
    (n : Nat) (csum total : Int) (memo : Memo) (s : CState)
    (hfind : memoFind (n, csum, total) memo = none)
    (h1 : ¬(lo - csum ≤ 0 ∧ hi - csum ≥ total))
    (h2 : lo - csum > total ∨ hi - csum < 0) :
    bddRec lits coeffs lo hi pol n csum total memo s
      = (FALSE, ((n, csum, total), FALSE) :: memo, s) := by
  cases n with
  | zero =>
    rw [bddRec]
    simp only [hfind]
    rw [if_neg h1, if_pos h2]
  | succ k =>
    rw [bddRec]
    simp only [hfind]
    rw [if_neg h1, if_pos h2]

theorem bddRec_succ (lits coeffs : List Int) (lo hi : Int) (pol : Polarity)
    (n' : Nat) (csum total LA LC : Int) (memo : Memo) (s : CState)
    (r1 r2 : Int × Memo × CState) (r3 : CVal × CState)
    (hfind : memoFind (n' + 1, csum, total) memo = none)
    (h1 : ¬(lo - csum ≤ 0 ∧ hi - csum ≥ total))
    (h2 : ¬(lo - csum > total ∨ hi - csum < 0))
    (hLA : LA = lits.getD n' 0) (hLC : LC = coeffs.getD n' 0)
    (hr1 : r1 = bddRec lits coeffs lo hi pol n' (if LA < 0 then csum else csum + LC)
      (total - LC) memo s)
    (hr2 : r2 = bddRec lits coeffs lo hi pol n' (if LA < 0 then csum + LC else csum)
      (total - LC) r1.2.1 r1.2.2)
    (hr3 : r3 = ITEC (if LA < 0 then -LA else LA) r1.1 r2.1 pol true r2.2.2) :
    bddRec lits coeffs lo hi pol (n' + 1) csum total memo s
      = (r3.1.toLit, ((n' + 1, csum, total), r3.1.toLit) :: r2.2.1, r3.2) := by
  subst hLA
  subst hLC
  subst hr1
  subst hr2
  subst hr3
  rw [bddRec]
  simp only [hfind]
  rw [if_neg h1, if_neg h2]

/-- Inductive correctness of the memoized BDD recursion at polarity
`None`: the state only grows, the result literal is classified, all
clauses emitted since the starting state stay bounded, the memo table
remains valid, in every model of those clauses the result literal tests
whether `csum` plus the partial weighted sum of the first `n` terms lies
in `[lo, hi]`, and every assignment extends above the current variable
counter to a model of the newly emitted clauses. -/
theorem bddRec_spec (lits coeffs : List Int) (lo hi : Int) (N : Nat) (s0 : CState)
    (h00 : 0 ≤ s0.m)
    (hNl : N ≤ lits.length) (hNc : N ≤ coeffs.length)
    (hpos : ∀ c ∈ coeffs.take N, 0 < c)
    (hlits : ∀ l ∈ lits.take N, litOk s0.m l) :
    ∀ (n : Nat), n ≤ N → ∀ (csum : Int) (memo : Memo) (s : CState),
      Extends s0 s →
      cnfOk s.m (delta s0 s) →
      memoOk lits coeffs lo hi s0.m (bddVars lits N) (delta s0 s) s.m memo →
      (bddRec lits coeffs lo hi none n csum ((coeffs.take n).sum) memo s).2.2.m < TRUE →
      Extends s (bddRec lits coeffs lo hi none n csum ((coeffs.take n).sum) memo s).2.2 ∧
      bddLit s0.m (bddRec lits coeffs lo hi none n csum ((coeffs.take n).sum) memo s).2.2.m
        (bddVars lits N) (bddRec lits coeffs lo hi none n csum ((coeffs.take n).sum) memo s).1 ∧
      cnfOk (bddRec lits coeffs lo hi none n csum ((coeffs.take n).sum) memo s).2.2.m
        (delta s0 (bddRec lits coeffs lo hi none n csum ((coeffs.take n).sum) memo s).2.2) ∧
      memoOk lits coeffs lo hi s0.m (bddVars lits N)
        (delta s0 (bddRec lits coeffs lo hi none n csum ((coeffs.take n).sum) memo s).2.2)
        (bddRec lits coeffs lo hi none n csum ((coeffs.take n).sum) memo s).2.2.m
        (bddRec lits coeffs lo hi none n csum ((coeffs.take n).sum) memo s).2.1 ∧
      (∀ a : Int → Bool, cnfVal a (delta s0 (bddRec lits coeffs lo hi none n csum
          ((coeffs.take n).sum) memo s).2.2) = true →
        litVal a (bddRec lits coeffs lo hi none n csum ((coeffs.take n).sum) memo s).1
          = decide (inB lo hi (csum + psum a lits coeffs n))) ∧
      (∀ a : Int → Bool, ∃ b : Int → Bool, agreeUpTo s.m a b ∧
        cnfVal b (delta s (bddRec lits coeffs lo hi none n csum
          ((coeffs.take n).sum) memo s).2.2) = true) := by
  have hposk : ∀ k, k ≤ N → ∀ c ∈ coeffs.take k, 0 < c := by
    intro k hk c hc
    apply hpos
    have he : coeffs.take k = (coeffs.take N).take k := by
      rw [List.take_take, Nat.min_eq_left hk]
    rw [he] at hc
    exact List.take_subset _ _ hc
  have hvars : ∀ v ∈ bddVars lits N, 0 < v ∧ v ≤ s0.m := by
    intro v hv
    rw [bddVars] at hv
    obtain ⟨l, hl, hlv⟩ := List.mem_map.mp hv
    obtain ⟨hz, hT, hle⟩ := hlits l hl
    subst hlv
    exact ⟨by omega, hle⟩
  intro n
  induction n with
  | zero =>
    intro hnN csum memo s hss0 hD hmemo hfin
    cases hfind : memoFind (0, csum, (coeffs.take 0).sum) memo with
    | some v =>
      rw [bddRec_hit lits coeffs lo hi none 0 csum _ memo s v hfind] at hfin ⊢
      obtain ⟨hbl, hsem⟩ := hmemo _ v (memoFind_mem hfind)
      exact ⟨extends_refl s, hbl, hD, hmemo, fun a ha => hsem a ha,
        fun a => ⟨a, agreeUpTo_refl _ _, by rw [delta_self]; rfl⟩⟩
    | none =>
      have h0 : (coeffs.take 0).sum = (0 : Int) := rfl
      by_cases h1 : lo - csum ≤ 0 ∧ hi - csum ≥ (coeffs.take 0).sum
      · rw [bddRec_true lits coeffs lo hi none 0 csum _ memo s hfind h1] at hfin ⊢
        rw [h0] at h1
        have hsem : ∀ a : Int → Bool,
            litVal a TRUE = decide (inB lo hi (csum + psum a lits coeffs 0)) := by
          intro a
          rw [litVal_TRUE, psum_zero]
          symm
          rw [decide_eq_true_iff]
          exact ⟨by omega, by omega⟩
        refine ⟨extends_refl s, Or.inl rfl, hD, ?_, fun a ha => hsem a,
          fun a => ⟨a, agreeUpTo_refl _ _, by rw [delta_self]; rfl⟩⟩
        intro k r hkr
        rcases List.mem_cons.mp hkr with heqk | hkr
        · injection heqk with hk hr
          subst hk
          subst hr
          exact ⟨Or.inl rfl, fun a ha => hsem a⟩
        · exact hmemo k r hkr
      · by_cases h2 : lo - csum > (coeffs.take 0).sum ∨ hi - csum < 0
        · rw [bddRec_false lits coeffs lo hi none 0 csum _ memo s hfind h1 h2] at hfin ⊢
          rw [h0] at h2
          have hsem : ∀ a : Int → Bool,
              litVal a FALSE = decide (inB lo hi (csum + psum a lits coeffs 0)) := by
            intro a
            rw [litVal_FALSE, psum_zero]
            symm
            rw [decide_eq_false_iff_not]
            intro hin
            have hA := hin.1
            have hB := hin.2
            omega
          refine ⟨extends_refl s, Or.inr (Or.inl rfl), hD, ?_, fun a ha => hsem a,
            fun a => ⟨a, agreeUpTo_refl _ _, by rw [delta_self]; rfl⟩⟩
          intro k r hkr
          rcases List.mem_cons.mp hkr with heqk | hkr
          · injection heqk with hk hr
            subst hk
            subst hr
            exact ⟨Or.inr (Or.inl rfl), fun a ha => hsem a⟩
          · exact hmemo k r hkr
        · exfalso
          rw [h0] at h1 h2
          omega
  | succ n' ih =>
    intro hnN csum memo s hss0 hD hmemo hfin
    have hn'N : n' ≤ N := by omega
    have hn'l : n' < lits.length := by omega
    have hn'c : n' < coeffs.length := by omega
    cases hfind : memoFind (n' + 1, csum, (coeffs.take (n' + 1)).sum) memo with
    | some v =>
      rw [bddRec_hit lits coeffs lo hi none (n' + 1) csum _ memo s v hfind] at hfin ⊢
      obtain ⟨hbl, hsem⟩ := hmemo _ v (memoFind_mem hfind)
      exact ⟨extends_refl s, hbl, hD, hmemo, fun a ha => hsem a ha,
        fun a => ⟨a, agreeUpTo_refl _ _, by rw [delta_self]; rfl⟩⟩
    | none =>
      have hub : ∀ a : Int → Bool,
          psum a lits coeffs (n' + 1) ≤ (coeffs.take (n' + 1)).sum :=
        fun a => psum_le a lits coeffs (n' + 1) (hposk _ hnN) (by omega)
      have hlb : ∀ a : Int → Bool, 0 ≤ psum a lits coeffs (n' + 1) :=
        fun a => psum_nonneg a lits coeffs (n' + 1) (hposk _ hnN)
      by_cases h1 : lo - csum ≤ 0 ∧ hi - csum ≥ (coeffs.take (n' + 1)).sum
      · rw [bddRec_true lits coeffs lo hi none (n' + 1) csum _ memo s hfind h1] at hfin ⊢
        have hsem : ∀ a : Int → Bool,
            litVal a TRUE = decide (inB lo hi (csum + psum a lits coeffs (n' + 1))) := by
          intro a
          have hu := hub a
          have hl := hlb a
          rw [litVal_TRUE]
          symm
          rw [decide_eq_true_iff]
          exact ⟨by omega, by omega⟩
        refine ⟨extends_refl s, Or.inl rfl, hD, ?_, fun a ha => hsem a,
          fun a => ⟨a, agreeUpTo_refl _ _, by rw [delta_self]; rfl⟩⟩
        intro k r hkr
        rcases List.mem_cons.mp hkr with heqk | hkr
        · injection heqk with hk hr
          subst hk
          subst hr
          exact ⟨Or.inl rfl, fun a ha => hsem a⟩
        · exact hmemo k r hkr
      · by_cases h2 : lo - csum > (coeffs.take (n' + 1)).sum ∨ hi - csum < 0
        · rw [bddRec_false lits coeffs lo hi none (n' + 1) csum _ memo s hfind h1 h2]
            at hfin ⊢
          have hsem : ∀ a : Int → Bool,
              litVal a FALSE = decide (inB lo hi (csum + psum a lits coeffs (n' + 1))) := by
            intro a
            have hu := hub a
            have hl := hlb a
            rw [litVal_FALSE]
            symm
            rw [decide_eq_false_iff_not]
            intro hin
            have hA := hin.1
            have hB := hin.2
            omega
          refine ⟨extends_refl s, Or.inr (Or.inl rfl), hD, ?_, fun a ha => hsem a,
            fun a => ⟨a, agreeUpTo_refl _ _, by rw [delta_self]; rfl⟩⟩
          intro k r hkr
          rcases List.mem_cons.mp hkr with heqk | hkr
          · injection heqk with hk hr
            subst hk
            subst hr
            exact ⟨Or.inr (Or.inl rfl), fun a ha => hsem a⟩
          · exact hmemo k r hkr
        · set LA := lits.getD n' 0 with hLAdef
          set LC := coeffs.getD n' 0 with hLCdef
          have hmemLA : LA ∈ lits.take N := by
            rw [hLAdef, List.getD_eq_getElem lits 0 hn'l]
            have hlt : n' < (lits.take N).length := by
              rw [List.length_take]
              omega
            have hget := @List.getElem_take Int lits N n' hlt
            rw [← hget]
            exact List.getElem_mem hlt
          have hokLA : litOk s0.m LA := hlits LA hmemLA
          have htot2 : (coeffs.take (n' + 1)).sum - LC = (coeffs.take n').sum := by
            rw [hLCdef, take_sum_succ coeffs n' hn'c]
            ring
          set R1 := bddRec lits coeffs lo hi none n'
            (if LA < 0 then csum else csum + LC) ((coeffs.take n').sum) memo s with hR1def
          set R2 := bddRec lits coeffs lo hi none n'
            (if LA < 0 then csum + LC else csum) ((coeffs.take n').sum) R1.2.1 R1.2.2
            with hR2def
          set R3 := ITEC (if LA < 0 then -LA else LA) R1.1 R2.1 none true R2.2.2 with hR3def
          have heq := bddRec_succ lits coeffs lo hi none n' csum
            ((coeffs.take (n' + 1)).sum) LA LC memo s R1 R2 R3 hfind h1 h2 hLAdef hLCdef
            (by rw [htot2]) (by rw [htot2]) hR3def
          rw [heq] at hfin ⊢
          have hfin3 : R3.2.m < TRUE := hfin
          have hm12 : R1.2.2.m ≤ R2.2.2.m := by
            rw [hR2def]
            exact bddRec_m_le lits coeffs lo hi none n' _ _ R1.2.1 R1.2.2
          have hm23 : R2.2.2.m ≤ R3.2.m := by
            rw [hR3def]
            exact ITEC_m_le _ _ _ _ _ _
          have hfin2 : R2.2.2.m < TRUE := lt_of_le_of_lt hm23 hfin3
          have hfin1 : R1.2.2.m < TRUE := lt_of_le_of_lt hm12 hfin2
          have hfin1x : (bddRec lits coeffs lo hi none n'
              (if LA < 0 then csum else csum + LC) ((coeffs.take n').sum)
              memo s).2.2.m < TRUE := by
            rw [← hR1def]
            exact hfin1
          have IH1 := ih hn'N (if LA < 0 then csum else csum + LC) memo s hss0 hD hmemo hfin1x
          rw [← hR1def] at IH1
          obtain ⟨hEx1, hbl1, hD1, hmemo1, hsnd1, hext1⟩ := IH1
          have hss1 : Extends s0 R1.2.2 := extends_trans hss0 hEx1
          have hfin2x : (bddRec lits coeffs lo hi none n'
              (if LA < 0 then csum + LC else csum) ((coeffs.take n').sum)
              R1.2.1 R1.2.2).2.2.m < TRUE := by
            rw [← hR2def]
            exact hfin2
          have IH2 := ih hn'N (if LA < 0 then csum + LC else csum) R1.2.1 R1.2.2 hss1
            hD1 hmemo1 hfin2x
          rw [← hR2def] at IH2
          obtain ⟨hEx2, hbl2, hD2, hmemo2, hsnd2, hext2⟩ := IH2
          have hss2 : Extends s0 R2.2.2 := extends_trans hss1 hEx2
          have hcbl : bddLit s0.m R2.2.2.m (bddVars lits N)
              (if LA < 0 then -LA else LA) := by
            obtain ⟨hz, hT, hle⟩ := hokLA
            refine Or.inr (Or.inr ⟨?_, ?_, Or.inl ?_⟩)
            · split_ifs with hs
              · omega
              · exact hz
            · split_ifs with hs
              · rw [Int.natAbs_neg]
                exact hT
              · exact hT
            · rw [bddVars]
              refine List.mem_map.mpr ⟨LA, hmemLA, ?_⟩
              split_ifs with hs
              · rw [Int.natAbs_neg]
              · rfl
          have hfinI : (ITEC (if LA < 0 then -LA else LA) R1.1 R2.1 none true
              R2.2.2).2.m < TRUE := by
            rw [← hR3def]
            exact hfin3
          have hITE := ITEC_spec s0.m (bddVars lits N) (if LA < 0 then -LA else LA)
            R1.1 R2.1 R2.2.2 hvars h00 hss2.1 hcbl (bddLit_mono hbl1 hEx2.1) hbl2 hfinI
          rw [← hR3def] at hITE
          obtain ⟨hEx3, hbl3, hD3, hsnd3, hext3⟩ := hITE
          have hch2 : delta s0 R3.2 = delta s0 R2.2.2 ++ delta R2.2.2 R3.2 :=
            delta_chain hss2 hEx3
          have hmain : ∀ a : Int → Bool, cnfVal a (delta s0 R3.2) = true →
              litVal a R3.1.toLit
                = decide (inB lo hi (csum + psum a lits coeffs (n' + 1))) := by
            intro a ha
            rw [hch2, cnfVal_append, Bool.and_eq_true] at ha
            obtain ⟨ha2, ha3⟩ := ha
            have ha1 : cnfVal a (delta s0 R1.2.2) = true := by
              have h := ha2
              rw [delta_chain hss1 hEx2, cnfVal_append, Bool.and_eq_true] at h
              exact h.1
            have hv1 := hsnd1 a ha1
            have hv2 := hsnd2 a ha2
            have hv3 : litVal a R3.1.toLit
                = cond (litVal a (if LA < 0 then -LA else LA))
                  (litVal a R1.1) (litVal a R2.1) := hsnd3 a ha3
            rw [hv3, hv1, hv2]
            have hps := psum_succ a lits coeffs n' hn'l hn'c
            rw [← hLAdef, ← hLCdef] at hps
            rw [hps]
            by_cases hneg : LA < 0
            · simp only [if_pos hneg]
              rw [litVal_neg hokLA]
              cases hLAv : litVal a LA with
              | true =>
                rw [if_pos (rfl : (true : Bool) = true)]
                have harr : csum + LC + psum a lits coeffs n'
                    = csum + (psum a lits coeffs n' + LC) := by ring
                rw [harr]
                rfl
              | false =>
                rw [if_neg Bool.false_ne_true, add_zero]
                rfl
            · simp only [if_neg hneg]
              cases hLAv : litVal a LA with
              | true =>
                rw [if_pos (rfl : (true : Bool) = true)]
                have harr : csum + LC + psum a lits coeffs n'
                    = csum + (psum a lits coeffs n' + LC) := by ring
                rw [harr]
                rfl
              | false =>
                rw [if_neg Bool.false_ne_true, add_zero]
                rfl
          refine ⟨?_, ?_, ?_, ?_, ?_, ?_⟩
          · exact extends_trans hEx1 (extends_trans hEx2 hEx3)
          · exact hbl3
          · show cnfOk R3.2.m (delta s0 R3.2)
            rw [hch2]
            exact cnfOk_append (cnfOk_mono hD2 hEx3.1) hD3
          · intro k r hkr
            rcases List.mem_cons.mp hkr with heqk | hkr
            · injection heqk with hk hr
              subst hk
              subst hr
              exact ⟨hbl3, fun a ha => hmain a ha⟩
            · have hDmono : ∀ a : Int → Bool, cnfVal a (delta s0 R3.2) = true →
                  cnfVal a (delta s0 R2.2.2) = true := by
                intro a ha
                rw [hch2, cnfVal_append, Bool.and_eq_true] at ha
                exact ha.1
              exact memoOk_mono hmemo2 hDmono hEx3.1 k r hkr
          · exact hmain
          · intro a
            obtain ⟨b1, hag1, hb1⟩ := hext1 a
            obtain ⟨b2, hag2, hb2⟩ := hext2 b1
            obtain ⟨b3, hag3, hb3⟩ := hext3 b2
            refine ⟨b3, ?_, ?_⟩
            · exact agreeUpTo_trans hag1 (agreeUpTo_trans
                (agreeUpTo_mono hag2 hEx1.1)
                (agreeUpTo_mono hag3 (le_trans hEx1.1 hEx2.1)))
            · have hok01 : cnfOk R1.2.2.m (delta s R1.2.2) :=
                cnfOk_delta_right hss0 hEx1 hD1
              have hok12 : cnfOk R2.2.2.m (delta R1.2.2 R2.2.2) :=
                cnfOk_delta_right hss1 hEx2 hD2
              have he1 : cnfVal b3 (delta s R1.2.2) = true := by
                rw [← cnfVal_agree hok01
                  (agreeUpTo_trans hag2 (agreeUpTo_mono hag3 hEx2.1))]
                exact hb1
              have he2 : cnfVal b3 (delta R1.2.2 R2.2.2) = true := by
                rw [← cnfVal_agree hok12 hag3]
                exact hb2
              show cnfVal b3 (delta s R3.2) = true
              rw [delta_chain (extends_trans hEx1 hEx2) hEx3, cnfVal_append,
                delta_chain hEx1 hEx2, cnfVal_append, he1, he2, hb3]
              rfl

/-! ## Helper lemmas for the LinearBound assembly -/

theorem assign_m_le (s : CState) (v : CVal) : s.m ≤ (assign s v).2.m := by
  cases v with
  | lit x => exact le_refl _
  | pair P N => simp [assign, new_var, add_clauses]

theorem cnfVal_two_singles (a : Int → Bool) (x y : Int) :
    cnfVal a [[x], [y]] = (litVal a x && litVal a y) := by
  simp [cnfVal, clauseVal]

theorem cnfVal_one_clause (a : Int → Bool) (c : Clause) :
    cnfVal a [c] = clauseVal a c := by
  simp [cnfVal]

theorem cnfVal_map_singles (a : Int → Bool) (xs : List Int) :
    cnfVal a (xs.map (fun v => [v])) = xs.all (litVal a) := by
  induction xs with
  | nil => rfl
  | cons x xs ih =>
    simp only [List.map_cons, List.all_cons, ← ih]
    simp [cnfVal, clauseVal]

theorem clauseVal_map_neg {m : Int} (a : Int → Bool) (xs : List Int)
    (hok : ∀ x ∈ xs, litOk m x) :
    clauseVal a (xs.map (fun v => -v)) = !xs.all (litVal a) := by
  induction xs with
  | nil => rfl
  | cons x xs ih =>
    simp only [List.map_cons, List.all_cons, clauseVal, List.any_cons]
    rw [litVal_neg (hok x (by simp))]
    have ih2 := ih (fun y hy => hok y (by simp [hy]))
    rw [clauseVal] at ih2
    rw [ih2]
    cases litVal a x <;> cases xs.all (litVal a) <;> rfl

theorem all_map_neg {m : Int} (a : Int → Bool) (xs : List Int)
    (hok : ∀ x ∈ xs, litOk m x) :
    (xs.map (fun v => -v)).all (litVal a) = xs.all (fun l => !litVal a l) := by
  induction xs with
  | nil => rfl
  | cons x xs ih =>
    simp only [List.map_cons, List.all_cons]
    rw [litVal_neg (hok x (by simp)), ih (fun y hy => hok y (by simp [hy]))]

theorem wsumP_append (a : Int → Bool) (xs ys : List (Int × Int)) :
    wsumP a (xs ++ ys) = wsumP a xs + wsumP a ys := by
  simp [wsumP]

theorem wsumP_perm (a : Int → Bool) {xs ys : List (Int × Int)} (h : xs.Perm ys) :
    wsumP a xs = wsumP a ys := by
  unfold wsumP
  exact (h.map _).sum_eq

theorem wsumP_all_false (a : Int → Bool) (ps : List (Int × Int))
    (h : ∀ p ∈ ps, litVal a p.2 = false) : wsumP a ps = 0 := by
  induction ps with
  | nil => rfl
  | cons p ps ih
=>
    rw [wsumP, List.map_cons, List.sum_cons, h p (by simp)]
    have ih2 := ih (fun q hq => h q (by simp [hq]))
    rw [wsumP] at ih2
    rw [if_neg Bool.false_ne_true, ih2, add_zero]

theorem wsumP_ge_of_mem (a : Int → Bool) (ps : List (Int × Int)) (p : Int × Int)
    (hp : p ∈ ps) (ht : litVal a p.2 = true) (hpos : ∀ q ∈ ps, 0 ≤ q.1) :
    p.1 ≤ wsumP a ps := by
  induction ps with
  | nil => cases hp
  | cons q qs ih =>
    rw [wsumP, List.map_cons, List.sum_cons]
    have hrest : 0 ≤ wsumP a qs := wsumP_nonneg a qs (fun r hr => hpos r (by simp [hr]))
    rw [wsumP] at hrest
    rcases List.mem_cons.mp hp with rfl | hp
    · rw [ht, if_pos rfl]
      omega
    · have ihr := ih hp (fun r hr => hpos r (by simp [hr]))
      rw [wsumP] at ihr
      have hq := hpos q (by simp)
      split_ifs <;> omega

theorem sorted_split (cs : List Int) (h : Int) (hs : cs.Pairwise (· ≤ ·)) :
    (∀ c ∈ cs.take (cs.length - (cs.filter (fun c => decide (c > h))).length), c ≤ h) ∧
    (∀ c ∈ cs.drop (cs.length - (cs.filter (fun c => decide (c > h))).length), c > h) := by
  induction cs with
  | nil => exact ⟨fun c hc => absurd hc (List.not_mem_nil c), fun c hc => absurd hc (List.not_mem_nil c)⟩
  | cons x rest ih =>
    rcases List.pairwise_cons.mp hs with ⟨hx, hrest⟩
    by_cases hxh : x > h
    · have hall : ∀ c ∈ x :: rest, c > h := by
        intro c hc
        rcases List.mem_cons.mp hc with rfl | hc
        · exact hxh
        · exact lt_of_lt_of_le hxh (hx c hc)
      have hfe : (x :: rest).filter (fun c => decide (c > h)) = x :: rest :=
        List.filter_eq_self.mpr (fun c hc => decide_eq_true (hall c hc))
      rw [hfe, Nat.sub_self]
      exact ⟨fun c hc => absurd hc (List.not_mem_nil c), hall⟩
    · have hlen : ((rest.filter (fun c => decide (c > h))).length) ≤ rest.length :=
        List.length_filter_le _ _
      have hfe : (x :: rest).filter (fun c => decide (c > h)) =
          rest.filter (fun c => decide (c > h)) := by
        rw [List.filter_cons, if_neg (by simpa using hxh)]
      obtain ⟨ih1, ih2⟩ := ih hrest
      rw [hfe]
      have harith : (x :: rest).length - (rest.filter (fun c => decide (c > h))).length
          = (rest.length - (rest.filter (fun c => decide (c > h))).length) + 1 := by
        rw [List.length_cons]
        omega
      rw [harith, List.take_succ_cons, List.drop_succ_cons]
      refine ⟨?_, ih2⟩
      intro c hc
      rcases List.mem_cons.mp hc with rfl | hc
      · omega
      · exact ih1 c hc

theorem allLoop_app (xs : List Int) :
    ∀ acc : List Int,
    (∀ x ∈ xs, x ≠ TRUE ∧ x ≠ FALSE) →
    (∀ x ∈ xs, ∀ y ∈ acc, x.natAbs ≠ y.natAbs) →
    xs.Pairwise (fun a b => a.natAbs ≠ b.natAbs) →
    allLoop acc xs = some (acc ++ xs) := by
  induction xs with
  | nil =>
    intro acc _ _ _
    simp [allLoop]
  | cons v rest ih =>
    intro acc hx hd hp
    obtain ⟨hvT, hvF⟩ := hx v (by simp)
    have hnv : ¬(v = FALSE ∨ -v ∈ acc) := by
      push_neg
      refine ⟨hvF, ?_⟩
      intro hmem
      exact hd v (by simp) (-v) hmem (by rw [Int.natAbs_neg])
    have hvin : v ∉ acc := by
      intro hmem
      exact hd v (by simp) v hmem rfl
    rw [allLoop, if_neg hvT, if_neg hnv, if_neg hvin]
    rcases List.pairwise_cons.mp hp with ⟨hv, hprest⟩
    have hstep := ih (acc ++ [v]) (fun x hxm => hx x (by simp [hxm]))
      (by
        intro x hxm y hy
        rcases List.mem_append.mp hy with hy | hy
        · exact hd x (by simp [hxm]) y hy
        · rcases List.mem_cons.mp hy with rfl | hy
          · exact fun hc => (hv x hxm) hc.symm
          · cases hy)
      hprest
    rw [hstep, List.append_assoc]
    rfl

/-- Materializing a deferred pair with `assign` implements the core
Tseitin gadget for the boolean `gb` defined by the pair's clause sets. -/
theorem assign_pair_spec (m0 : Int) (vars : List Int) (s : CState) (P N : List Clause)
    (gb : (Int → Bool) → Bool)
    (hvars : ∀ v ∈ vars, 0 < v ∧ v ≤ m0) (h00 : 0 ≤ m0) (hsub : m0 ≤ s.m)
    (hfin : s.m + 1 < TRUE)
    (hPok : cnfOk s.m P) (hNok : cnfOk s.m N)
    (hP : ∀ a, cnfVal a P = gb a)
    (hN : ∀ a, cnfVal a N = !gb a) :
    EmitSpec m0 vars s
      (CVal.lit (assign s (CVal.pair P N)).1, (assign s (CVal.pair P N)).2) gb := by
  have h := fresh_def_spec m0 vars s P N gb hvars h00 hsub hfin hPok hNok hP hN
  show EmitSpec m0 vars s
    (CVal.lit (s.m + 1),
      add_clauses (add_clauses { s with m := s.m + 1 }
        (P.map (fun y => -(s.m + 1) :: y))) (N.map (fun y => (s.m + 1) :: y))) gb
  rw [add_clauses_add_clauses]
  exact h

/-- The `Clauses.BDD` entry point satisfies the emission specification
for the interval test on the weighted sum of its first `nterms` terms. -/
theorem BDD_spec (lits coeffs : List Int) (lo hi : Int) (N : Nat) (s0 : CState)
    (h00 : 0 ≤ s0.m) (hNl : N ≤ lits.length) (hNc : N ≤ coeffs.length)
    (hpos : ∀ c ∈ coeffs.take N, 0 < c) (hlits : ∀ l ∈ lits.take N, litOk s0.m l)
    (hfin : (BDD lits coeffs N lo hi none s0).2.m < TRUE) :
    EmitSpec s0.m (bddVars lits N) s0
      (CVal.lit (BDD lits coeffs N lo hi none s0).1, (BDD lits coeffs N lo hi none s0).2)
      (fun a => decide (inB lo hi (psum a lits coeffs N))) := by
  have h := bddRec_spec lits coeffs lo hi N s0 h00 hNl hNc hpos hlits N (le_refl N) 0 [] s0
    (extends_refl s0) (by rw [delta_self]; exact cnfOk_nil)
    (by intro k r hkr; cases hkr) hfin
  obtain ⟨hEx, hbl, hcn, hmm, hsnd, hext⟩ := h
  refine ⟨hEx, hbl, hcn, ?_, hext⟩
  intro a ha
  have hv := hsnd a ha
  rw [zero_add] at hv
  exact hv

/-- Arithmetic core of `LinearBound` with preprocessing: the clamped
interval test on the kept prefix of the sorted equation, conjoined with
the deactivation of the pruned suffix, is exactly the original interval
test on the full weighted sum.  The pruned coefficients all exceed the
upper bound, so any active pruned literal pushes the sum out of range. -/
theorem prune_reduction (q : List (Int × Int)) (lo0 hi0 lo hi total : Int) (nt : Nat)
    (a : Int → Bool) (b : Bool)
    (hpos : ∀ p ∈ q, 0 < p.1)
    (hbig : ∀ p ∈ q.drop nt, hi0 < p.1)
    (hlo : lo = max lo0 0) (hhi : hi = min hi0 total)
    (htot : total = ((q.take nt).map Prod.fst).sum)
    (hb : b = true ↔ ∀ p ∈ q.drop nt, litVal a p.2 = false) :
    (decide (inB lo hi (wsumP a (q.take nt))) && b)
      = decide (inB lo0 hi0 (wsumP a q)) := by
  subst hlo
  subst hhi
  subst htot
  have hW := wsumP_append a (q.take nt) (q.drop nt)
  rw [List.take_append_drop] at hW
  have h1 : 0 ≤ wsumP a (q.take nt) :=
    wsumP_nonneg a _ (fun p hp => le_of_lt (hpos p (List.take_subset _ _ hp)))
  have h2 : wsumP a (q.take nt) ≤ ((q.take nt).map Prod.fst).sum :=
    wsumP_le_sum a _ (fun p hp => le_of_lt (hpos p (List.take_subset _ _ hp)))
  have h3 : 0 ≤ wsumP a (q.drop nt) :=
    wsumP_nonneg a _ (fun p hp => le_of_lt (hpos p (List.drop_subset _ _ hp)))
  cases b with
  | false =>
    have hnall : ¬∀ p ∈ q.drop nt, litVal a p.2 = false := by
      intro hall
      cases hb.mpr hall
    push_neg at hnall
    obtain ⟨p, hp, hpt⟩ := hnall
    have hpt2 : litVal a p.2 = true := by
      cases hlv : litVal a p.2
      · exact absurd hlv hpt
      · rfl
    have hge : p.1 ≤ wsumP a (q.drop nt) :=
      wsumP_ge_of_mem a _ p hp hpt2
        (fun r hr => le_of_lt (hpos r (List.drop_subset _ _ hr)))
    have hbigp := hbig p hp
    rw [Bool.and_false]
    symm
    rw [decide_eq_false_iff_not]
    intro hin
    have hin2 := hin.2
    omega
  | true =>
    have hall := hb.mp rfl
    have hW2 : wsumP a (q.drop nt) = 0 := wsumP_all_false a _ hall
    rw [Bool.and_true, decide_eq_decide]
    have hmax := max_choice lo0 (0 : Int)
    have hmin := min_choice hi0 (((q.take nt).map Prod.fst).sum)
    have hle1 : lo0 ≤ max lo0 0 := le_max_left _ _
    have hle2 : (0 : Int) ≤ max lo0 0 := le_max_right _ _
    have hge1 : min hi0 (((q.take nt).map Prod.fst).sum) ≤ hi0 := min_le_left _ _
    have hge2 : min hi0 (((q.take nt).map Prod.fst).sum)
        ≤ ((q.take nt).map Prod.fst).sum := min_le_right _ _
    unfold inB
    omega

/-! ## Evaluation lemmas for Combine and All on the LinearBound shapes -/

theorem AllC_of_distinct (xs : List Int) (m : Int)
    (hok : ∀ x ∈ xs, litOk m x)
    (hdist : xs.Pairwise (fun a b => a.natAbs ≠ b.natAbs)) :
    AllC xs none = allFinish xs none := by
  have h := allLoop_app xs []
    (fun x hx => litOk_ne_sentinel (hok x hx))
    (fun x _ y hy => absurd hy (List.not_mem_nil y))
    hdist
  rw [List.nil_append] at h
  rw [AllC, h]

theorem Combine_false_left (v : CVal) (s : CState) :
    Combine [CVal.lit FALSE, v] none s = (CVal.lit FALSE, s) := by
  rw [Combine, if_pos]
  rw [List.any_cons]
  simp

theorem Combine_true_left (v : CVal) (s : CState)
    (hvF : v ≠ CVal.lit FALSE) (hvT : v ≠ CVal.lit TRUE) :
    Combine [CVal.lit TRUE, v] none s = (v, s) := by
  rw [Combine, if_neg]
  · have hfil : [CVal.lit TRUE, v].filter (fun w => !decide (w = CVal.lit TRUE)) = [v] := by
      rw [List.filter_cons, List.filter_cons, List.filter_nil]
      rw [decide_eq_true (rfl : CVal.lit TRUE = CVal.lit TRUE), decide_eq_false hvT]
      rfl
    rw [hfil]
  · rw [List.any_cons, List.any_cons, List.any_nil]
    rw [decide_eq_false (fun hc : CVal.lit TRUE = CVal.lit FALSE => by
      rw [CVal.lit.injEq] at hc
      exact TRUE_ne_FALSE hc), decide_eq_false hvF]
    simp

theorem Combine_lit_other (x : Int) (v : CVal) (s : CState)
    (hxT : x ≠ TRUE) (hxF : x ≠ FALSE)
    (hvF : v ≠ CVal.lit FALSE) (hvP : v.isPair = true) :
    Combine [CVal.lit x, v] none s = combineAll none [] [CVal.lit x, v] s := by
  have hvT : v ≠ CVal.lit TRUE := by
    intro hc
    rw [hc] at hvP
    cases hvP
  rw [Combine, if_neg]
  · have hfil : [CVal.lit x, v].filter (fun w => !decide (w = CVal.lit TRUE))
        = [CVal.lit x, v] := by
      rw [List.filter_cons, List.filter_cons, List.filter_nil]
      rw [decide_eq_false (fun hc : CVal.lit x = CVal.lit TRUE => by
        rw [CVal.lit.injEq] at hc
        exact hxT hc), decide_eq_false hvT]
      rfl
    rw [hfil]
    have hall : ([CVal.lit x, v].all CVal.isPair) = false := by
      rw [List.all_cons]
      rfl
    show (if ([CVal.lit x, v].all CVal.isPair) = true
        then (CVal.pair ([CVal.lit x, v].flatMap CVal.pv)
          ([CVal.lit x, v].flatMap CVal.nv), s)
        else combineAll none [] [CVal.lit x, v] s)
      = combineAll none [] [CVal.lit x, v] s
    rw [hall, if_neg Bool.false_ne_true]
  · rw [List.any_cons, List.any_cons, List.any_nil]
    rw [decide_eq_false (fun hc : CVal.lit x = CVal.lit FALSE => by
      rw [CVal.lit.injEq] at hc
      exact hxF hc), decide_eq_false hvF]
    simp

theorem Combine_lit_lit (x y : Int) (s : CState)
    (hxT : x ≠ TRUE) (hxF : x ≠ FALSE) (hyT : y ≠ TRUE) (hyF : y ≠ FALSE)
    (hxy : x.natAbs ≠ y.natAbs) :
    Combine [CVal.lit x, CVal.lit y] none s
      = (combineAll none [] [CVal.lit x, CVal.lit y] s) := by
  have hvF : CVal.lit y ≠ CVal.lit FALSE := by
    intro hc
    rw [CVal.lit.injEq] at hc
    exact hyF hc
  have hvT : CVal.lit y ≠ CVal.lit TRUE := by
    intro hc
    rw [CVal.lit.injEq] at hc
    exact hyT hc
  rw [Combine, if_neg]
  · have hfil : [CVal.lit x, CVal.lit y].filter (fun w => !decide (w = CVal.lit TRUE))
        = [CVal.lit x, CVal.lit y] := by
      rw [List.filter_cons, List.filter_cons, List.filter_nil]
      rw [decide_eq_false (fun hc : CVal.lit x = CVal.lit TRUE => by
        rw [CVal.lit.injEq] at hc
        exact hxT hc), decide_eq_false hvT]
      rfl
    rw [hfil]
    have hall : ([CVal.lit x, CVal.lit y].all CVal.isPair) = false := by
      rw [List.all_cons]
      rfl
    show (if ([CVal.lit x, CVal.lit y].all CVal.isPair) = true
        then (CVal.pair ([CVal.lit x, CVal.lit y].flatMap CVal.pv)
          ([CVal.lit x, CVal.lit y].flatMap CVal.nv), s)
        else combineAll none [] [CVal.lit x, CVal.lit y] s)
      = combineAll none [] [CVal.lit x, CVal.lit y] s
    rw [hall, if_neg Bool.false_ne_true]
  · rw [List.any_cons, List.any_cons, List.any_nil]
    rw [decide_eq_false (fun hc : CVal.lit x = CVal.lit FALSE => by
      rw [CVal.lit.injEq] at hc
      exact hxF hc), decide_eq_false hvF]
    simp

theorem combineAll_two_lits (x y : Int) (s : CState)
    (hxT : x ≠ TRUE) (hxF : x ≠ FALSE) (hyT : y ≠ TRUE) (hyF : y ≠ FALSE)
    (hxy : x.natAbs ≠ y.natAbs) :
    combineAll none [] [CVal.lit x, CVal.lit y] s
      = (CVal.pair [[x], [y]] [[-x, -y]], s) := by
  rw [combineAll]
  simp only [assign]
  rw [if_neg hxT, if_neg (by
    push_neg
    refine ⟨hxF, ?_⟩
    intro hc
    cases hc)]
  rw [if_neg (by intro hc; cases hc)]
  rw [combineAll]
  simp only [assign]
  rw [if_neg hyT, if_neg (by
    push_neg
    refine ⟨hyF, ?_⟩
    intro hc
    rcases List.mem_cons.mp hc with hc | hc
    · exact hxy (by rw [← hc, Int.natAbs_neg])
    · cases hc)]
  rw [if_neg (by
    intro hc
    rcases List.mem_cons.mp hc with hc | hc
    · exact hxy (by rw [hc])
    · cases hc)]
  rw [combineAll]
  rfl

theorem combineAll_lit_pair (x : Int) (P N : List Clause) (s : CState)
    (hxT : x ≠ TRUE) (hxF : x ≠ FALSE)
    (h0 : 0 ≤ s.m) (hyT : s.m + 1 ≠ TRUE)
    (hxy : x.natAbs ≠ (s.m + 1).natAbs) :
    combineAll none [] [CVal.lit x, CVal.pair P N] s
      = (CVal.pair [[x], [s.m + 1]] [[-x, -(s.m + 1)]],
         (assign s (CVal.pair P N)).2) := by
  rw [combineAll]
  simp only [assign]
  rw [if_neg hxT, if_neg (by
    push_neg
    refine ⟨hxF, ?_⟩
    intro hc
    cases hc)]
  rw [if_neg (by intro hc; cases hc)]
  rw [combineAll]
  simp only [assign, new_var]
  rw [if_neg hyT, if_neg (by
    push_neg
    refine ⟨by
      intro hc
      have hF : FALSE < 0 := by decide
      omega, ?_⟩
    intro hc
    rcases List.mem_cons.mp hc with hc | hc
    · exact hxy (by rw [← hc, Int.natAbs_neg])
    · cases hc)]
  rw [if_neg (by
    intro hc
    rcases List.mem_cons.mp hc with hc | hc
    · exact hxy (by rw [hc])
    · cases hc)]
  rw [combineAll]
  rfl

theorem cnfVal_neg_pair {m : Int} (a : Int → Bool) (x y : Int)
    (hx : litOk m x) (hy : litOk m y) :
    cnfVal a [[-x, -y]] = !(litVal a x && litVal a y) := by
  simp [cnfVal, clauseVal, litVal_neg hx, litVal_neg hy]

theorem combineAll_lit_first (x : Int) (rest : List CVal) (s : CState)
    (hxT : x ≠ TRUE) (hxF : x ≠ FALSE) :
    combineAll none [] (CVal.lit x :: rest) s = combineAll none [x] rest s := by
  rw [combineAll]
  simp only [assign]
  rw [if_neg hxT, if_neg (by
    push_neg
    refine ⟨hxF, ?_⟩
    intro hc
    cases hc)]
  rw [if_neg (by intro hc; cases hc)]
  rfl

theorem combineAll_pair_m (pol : Polarity) (acc : List Int) (P N : List Clause)
    (s : CState) : s.m + 1 ≤ (combineAll pol acc [CVal.pair P N] s).2.m := by
  rw [combineAll]
  split_ifs <;> simp [assign, new_var, add_clauses, combineAll]

/-- Correctness of the pruning tail of `LinearBound`: combining the
literal of the kept part with the conjunction of the negated pruned
literals, then materializing the result with `assign`, yields a literal
equivalent (in every model of all emitted clauses) to the kept part's
boolean conjoined with all pruned literals being false. -/
theorem prune_combine_spec (m0 : Int) (vars : List Int) (s0 RS2 : CState)
    (RS1 : Int) (ds : List Int) (g1 : (Int → Bool) → Bool)
    (hvars : ∀ v ∈ vars, 0 < v ∧ v ≤ m0) (h00 : 0 ≤ m0) (hsub : m0 ≤ s0.m)
    (hRS : EmitSpec m0 vars s0 (CVal.lit RS1, RS2) g1)
    (hds : ds ≠ [])
    (hdok : ∀ l ∈ ds, litOk m0 l)
    (hdist : ds.Pairwise (fun a b => a.natAbs ≠ b.natAbs))
    (hcross : RS1 ≠ TRUE → RS1 ≠ FALSE → ∀ l ∈ ds, RS1.natAbs ≠ l.natAbs)
    (hfin : (assign (Combine [CVal.lit RS1, AllC (ds.map (fun v => -v)) none] none RS2).2
        (Combine [CVal.lit RS1, AllC (ds.map (fun v => -v)) none] none RS2).1).2.m
        < TRUE) :
    Extends s0 (assign
        (Combine [CVal.lit RS1, AllC (ds.map (fun v => -v)) none] none RS2).2
        (Combine [CVal.lit RS1, AllC (ds.map (fun v => -v)) none] none RS2).1).2 ∧
    (∀ a : Int → Bool,
      cnfVal a (delta s0 (assign
        (Combine [CVal.lit RS1, AllC (ds.map (fun v => -v)) none] none RS2).2
        (Combine [CVal.lit RS1, AllC (ds.map (fun v => -v)) none] none RS2).1).2) = true →
      litVal a (assign
        (Combine [CVal.lit RS1, AllC (ds.map (fun v => -v)) none] none RS2).2
        (Combine [CVal.lit RS1, AllC (ds.map (fun v => -v)) none] none RS2).1).1
        = (g1 a && ds.all (fun l => !litVal a l))) ∧
    (∀ a : Int → Bool, ∃ b : Int → Bool, agreeUpTo s0.m a b ∧
      cnfVal b (delta s0 (assign
        (Combine [CVal.lit RS1, AllC (ds.map (fun v => -v)) none] none RS2).2
        (Combine [CVal.lit RS1, AllC (ds.map (fun v => -v)) none] none RS2).1).2) = true) := by
  obtain ⟨hEx1, hbl1, hok1, hsnd1, hext1⟩ := hRS
  have hEx1x : Extends s0 RS2 := hEx1
  have hbl1x : bddLit m0 RS2.m vars RS1 := hbl1
  have hok1x : cnfOk RS2.m (delta s0 RS2) := hok1
  have hsnd1x : ∀ a : Int → Bool, cnfVal a (delta s0 RS2) = true →
      litVal a RS1 = g1 a := fun a ha => hsnd1 a ha
  have hext1x : ∀ a : Int → Bool, ∃ b : Int → Bool, agreeUpTo s0.m a b ∧
      cnfVal b (delta s0 RS2) = true := hext1
  have hsub2 : m0 ≤ RS2.m := le_trans hsub hEx1x.1
  have h0RS2 : 0 ≤ RS2.m := le_trans h00 hsub2
  have hnok : ∀ l ∈ ds.map (fun v => -v), litOk m0 l := by
    intro l hl
    obtain ⟨x, hx, rfl⟩ := List.mem_map.mp hl
    exact litOk_neg (hdok x hx)
  have hndist : (ds.map (fun v => -v)).Pairwise (fun a b => a.natAbs ≠ b.natAbs) := by
    rw [List.pairwise_map]
    refine hdist.imp ?_
    intro a b h
    rw [Int.natAbs_neg, Int.natAbs_neg]
    exact h
  have hAll : AllC (ds.map (fun v => -v)) none = allFinish (ds.map (fun v => -v)) none :=
    AllC_of_distinct _ m0 hnok hndist
  cases ds with
  | nil => exact absurd rfl hds
  | cons d ds' =>
    have hd : litOk m0 d := hdok d (by simp)
    obtain ⟨hdT, hdF⟩ := litOk_ne_sentinel hd
    have hndT : -d ≠ TRUE := fun hc => hdF ((neg_eq_TRUE_iff d).mp hc)
    have hndF : -d ≠ FALSE := fun hc => hdT ((neg_eq_FALSE_iff d).mp hc)
    cases ds' with
    | nil =>
      have hAll1 : AllC ([d].map (fun v => -v)) none = CVal.lit (-d) := by
        rw [hAll]
        rfl
      rw [hAll1] at hfin ⊢
      by_cases hRT : RS1 = TRUE
      · subst hRT
        rw [Combine_true_left (CVal.lit (-d)) RS2
          (by intro hc; rw [CVal.lit.injEq] at hc; exact hndF hc)
          (by intro hc; rw [CVal.lit.injEq] at hc; exact hndT hc)] at hfin ⊢
        simp only [assign] at hfin ⊢
        refine ⟨hEx1x, ?_, hext1x⟩
        intro a ha
        have hg : g1 a = true := by
          rw [← hsnd1x a ha]
          exact litVal_TRUE a
        rw [hg, Bool.true_and, litVal_neg hd]
        simp
      · by_cases hRF : RS1 = FALSE
        · subst hRF
          rw [Combine_false_left (CVal.lit (-d)) RS2] at hfin ⊢
          simp only [assign] at hfin ⊢
          refine ⟨hEx1x, ?_, hext1x⟩
          intro a ha
          have hg : g1 a = false := by
            rw [← hsnd1x a ha]
            exact litVal_FALSE a
          rw [hg, Bool.false_and, litVal_FALSE]
        · have hRok : litOk RS2.m RS1 := bddLit_litOk hbl1x hvars hsub2 hRT hRF
          have hxy : RS1.natAbs ≠ (-d).natAbs := by
            rw [Int.natAbs_neg]
            exact hcross hRT hRF d (by simp)
          rw [Combine_lit_lit RS1 (-d) RS2 hRT hRF hndT hndF hxy] at hfin ⊢
          rw [combineAll_two_lits RS1 (-d) RS2 hRT hRF hndT hndF hxy] at hfin ⊢
          have hdm : litOk RS2.m d := litOk_mono hd hsub2
          have hgad := assign_pair_spec m0 vars RS2 [[RS1], [-d]] [[-RS1, -(-d)]]
            (fun a => litVal a RS1 && litVal a (-d)) hvars h00 hsub2
            hfin
            (by
              intro c hc
              rcases List.mem_cons.mp hc with rfl | hc
              · intro l hl
                rcases List.mem_cons.mp hl with rfl | hl
                · exact hRok
                · cases hl
              rcases List.mem_cons.mp hc with rfl | hc
              · intro l hl
                rcases List.mem_cons.mp hl with rfl | hl
                · exact litOk_neg hdm
                · cases hl
              cases hc)
            (by
              intro c hc
              rcases List.mem_cons.mp hc with rfl | hc
              · intro l hl
                rcases List.mem_cons.mp hl with rfl | hl
                · exact litOk_neg hRok
                · rcases List.mem_cons.mp hl with rfl | hl
                  · exact litOk_neg (litOk_neg hdm)
                  · cases hl
              cases hc)
            (fun a => cnfVal_two_singles a RS1 (-d))
            (fun a => cnfVal_neg_pair a RS1 (-d) hRok (litOk_neg hdm))
          obtain ⟨hEx2, _, hok2, hsnd2, hext2⟩ := hgad
          have hsnd2x : ∀ a : Int → Bool,
              cnfVal a (delta RS2 (assign RS2 (CVal.pair [[RS1], [-d]] [[-RS1, -(-d)]])).2)
                = true →
              litVal a (assign RS2 (CVal.pair [[RS1], [-d]] [[-RS1, -(-d)]])).1
                = (litVal a RS1 && litVal a (-d)) := fun a ha => hsnd2 a ha
          refine ⟨extends_trans hEx1x hEx2, ?_, ?_⟩
          · intro a ha
            rw [delta_chain hEx1x hEx2, cnfVal_append, Bool.and_eq_true] at ha
            obtain ⟨ha1, ha2⟩ := ha
            rw [hsnd2x a ha2, hsnd1x a ha1, litVal_neg hd]
            simp
          · intro a
            obtain ⟨b1, hag1, hb1⟩ := hext1x a
            obtain ⟨b2, hag2, hb2⟩ := hext2 b1
            refine ⟨b2, agreeUpTo_trans hag1 (agreeUpTo_mono hag2 hEx1x.1), ?_⟩
            rw [delta_chain hEx1x hEx2, cnfVal_append, ← cnfVal_agree hok1x hag2,
              hb1, hb2]
            rfl
    | cons d2 ds2 =>
      have hAll2 : AllC ((d :: d2 :: ds2).map (fun v => -v)) none
          = CVal.pair (((d :: d2 :: ds2).map (fun v => -v)).map (fun v => [v]))
            [((d :: d2 :: ds2).map (fun v => -v)).map (fun v => -v)] := by
        rw [hAll]
        rfl
      rw [hAll2] at hfin ⊢
      have hnokm : ∀ l ∈ (d :: d2 :: ds2).map (fun v => -v), litOk RS2.m l :=
        fun l hl => litOk_mono (hnok l hl) hsub2
      have hPok2 : cnfOk RS2.m (((d :: d2 :: ds2).map (fun v => -v)).map (fun v => [v])) := by
        intro c hc
        obtain ⟨x, hx, rfl⟩ := List.mem_map.mp hc
        intro l hl
        rcases List.mem_cons.mp hl with rfl | hl
        · exact hnokm _ hx
        · cases hl
      have hNok2 : cnfOk RS2.m [((d :: d2 :: ds2).map (fun v => -v)).map (fun v => -v)] := by
        intro c hc
        rcases List.mem_cons.mp hc with rfl | hc
        · intro l hl
          obtain ⟨x, hx, rfl⟩ := List.mem_map.mp hl
          exact litOk_neg (hnokm x hx)
        · cases hc
      by_cases hRT : RS1 = TRUE
      · subst hRT
        rw [Combine_true_left _ RS2 (by intro hc; cases hc) (by intro hc; cases hc)]
          at hfin ⊢
        have hgad := assign_pair_spec m0 vars RS2
          (((d :: d2 :: ds2).map (fun v => -v)).map (fun v => [v]))
          [((d :: d2 :: ds2).map (fun v => -v)).map (fun v => -v)]
          (fun a => ((d :: d2 :: ds2).map (fun v => -v)).all (litVal a))
          hvars h00 hsub2 hfin hPok2 hNok2
          (fun a => cnfVal_map_singles a _)
          (fun a => by
            rw [cnfVal_one_clause, clauseVal_map_neg a _ hnokm])
        obtain ⟨hEx2, _, hok2, hsnd2, hext2⟩ := hgad
        have hsnd2x : ∀ a : Int → Bool,
            cnfVal a (delta RS2 (assign RS2 (CVal.pair
              (((d :: d2 :: ds2).map (fun v => -v)).map (fun v => [v]))
              [((d :: d2 :: ds2).map (fun v => -v)).map (fun v => -v)])).2) = true →
            litVal a (assign RS2 (CVal.pair
              (((d :: d2 :: ds2).map (fun v => -v)).map (fun v => [v]))
              [((d :: d2 :: ds2).map (fun v => -v)).map (fun v => -v)])).1
              = ((d :: d2 :: ds2).map (fun v => -v)).all (litVal a) :=
          fun a ha => hsnd2 a ha
        refine ⟨extends_trans hEx1x hEx2, ?_, ?_⟩
        · intro a ha
          rw [delta_chain hEx1x hEx2, cnfVal_append, Bool.and_eq_true] at ha
          obtain ⟨ha1, ha2⟩ := ha
          have hg : g1 a = true := by
            rw [← hsnd1x a ha1]
            exact litVal_TRUE a
          rw [hsnd2x a ha2, hg, Bool.true_and, all_map_neg a _ hdok]
        · intro a
          obtain ⟨b1, hag1, hb1⟩ := hext1x a
          obtain ⟨b2, hag2, hb2⟩ := hext2 b1
          refine ⟨b2, agreeUpTo_trans hag1 (agreeUpTo_mono hag2 hEx1x.1), ?_⟩
          rw [delta_chain hEx1x hEx2, cnfVal_append, ← cnfVal_agree hok1x hag2,
            hb1, hb2]
          rfl
      · by_cases hRF : RS1 = FALSE
        · subst hRF
          rw [Combine_false_left _ RS2] at hfin ⊢
          simp only [assign] at hfin ⊢
          refine ⟨hEx1x, ?_, hext1x⟩
          intro a ha
          have hg : g1 a = false := by
            rw [← hsnd1x a ha]
            exact litVal_FALSE a
          rw [hg, Bool.false_and, litVal_FALSE]
        · have hRok : litOk RS2.m RS1 := bddLit_litOk hbl1x hvars hsub2 hRT hRF
          rw [Combine_lit_other RS1 (CVal.pair
              (((d :: d2 :: ds2).map (fun v => -v)).map (fun v => [v]))
              [((d :: d2 :: ds2).map (fun v => -v)).map (fun v => -v)]) RS2
              hRT hRF (by intro hc; cases hc) rfl]
            at hfin ⊢
          have hyTval : RS2.m + 1 ≠ TRUE := by
            have h1 := combineAll_lit_first RS1
              [CVal.pair (((d :: d2 :: ds2).map (fun v => -v)).map (fun v => [v]))
                [((d :: d2 :: ds2).map (fun v => -v)).map (fun v => -v)]] RS2 hRT hRF
            have h2 := combineAll_pair_m (none : Polarity) [RS1]
              (((d :: d2 :: ds2).map (fun v => -v)).map (fun v => [v]))
              [((d :: d2 :: ds2).map (fun v => -v)).map (fun v => -v)] RS2
            rw [← h1] at h2
            have h3 := assign_m_le
              (combineAll none [] [CVal.lit RS1, CVal.pair
                (((d :: d2 :: ds2).map (fun v => -v)).map (fun v => [v]))
                [((d :: d2 :: ds2).map (fun v => -v)).map (fun v => -v)]] RS2).2
              (combineAll none [] [CVal.lit RS1, CVal.pair
                (((d :: d2 :: ds2).map (fun v => -v)).map (fun v => [v]))
                [((d :: d2 :: ds2).map (fun v => -v)).map (fun v => -v)]] RS2).1
            omega
          have hxy : RS1.natAbs ≠ (RS2.m + 1).natAbs := by
            have h1 := hRok.2.2
            omega
          rw [combineAll_lit_pair RS1
            (((d :: d2 :: ds2).map (fun v => -v)).map (fun v => [v]))
            [((d :: d2 :: ds2).map (fun v => -v)).map (fun v => -v)] RS2
            hRT hRF h0RS2 hyTval hxy] at hfin ⊢
          have hfinx : RS2.m + 1 + 1 < TRUE := hfin
          have hgad2 := assign_pair_spec m0 vars RS2
            (((d :: d2 :: ds2).map (fun v => -v)).map (fun v => [v]))
            [((d :: d2 :: ds2).map (fun v => -v)).map (fun v => -v)]
            (fun a => ((d :: d2 :: ds2).map (fun v => -v)).all (litVal a))
            hvars h00 hsub2 (by omega) hPok2 hNok2
            (fun a => cnfVal_map_singles a _)
            (fun a => by
              rw [cnfVal_one_clause, clauseVal_map_neg a _ hnokm])
          obtain ⟨hEx2, _, hok2, hsnd2, hext2⟩ := hgad2
          have hEx2x : Extends RS2
              (assign RS2 (CVal.pair
                (((d :: d2 :: ds2).map (fun v => -v)).map (fun v => [v]))
                [((d :: d2 :: ds2).map (fun v => -v)).map (fun v => -v)])).2 := hEx2
          have hok2x : cnfOk (assign RS2 (CVal.pair
                (((d :: d2 :: ds2).map (fun v => -v)).map (fun v => [v]))
                [((d :: d2 :: ds2).map (fun v => -v)).map (fun v => -v)])).2.m
              (delta RS2 (assign RS2 (CVal.pair
                (((d :: d2 :: ds2).map (fun v => -v)).map (fun v => [v]))
                [((d :: d2 :: ds2).map (fun v => -v)).map (fun v => -v)])).2) := hok2
          have hsnd2x : ∀ a : Int → Bool,
              cnfVal a (delta RS2 (assign RS2 (CVal.pair
                (((d :: d2 :: ds2).map (fun v => -v)).map (fun v => [v]))
                [((d :: d2 :: ds2).map (fun v => -v)).map (fun v => -v)])).2) = true →
              litVal a (RS2.m + 1)
                = ((d :: d2 :: ds2).map (fun v => -v)).all (litVal a) :=
            fun a ha => hsnd2 a ha
          have hSym : (assign RS2 (CVal.pair
              (((d :: d2 :: ds2).map (fun v => -v)).map (fun v => [v]))
              [((d :: d2 :: ds2).map (fun v => -v)).map (fun v => -v)])).2.m
              = RS2.m + 1 := rfl
          have hyok : litOk (assign RS2 (CVal.pair
              (((d :: d2 :: ds2).map (fun v => -v)).map (fun v => [v]))
              [((d :: d2 :: ds2).map (fun v => -v)).map (fun v => -v)])).2.m
              (RS2.m + 1) := by
            rw [hSym]
            have hT2 : RS2.m + 1 < TRUE := by omega
            refine ⟨by omega, by omega, by omega⟩
          have hgad3 := assign_pair_spec m0 vars
            (assign RS2 (CVal.pair
              (((d :: d2 :: ds2).map (fun v => -v)).map (fun v => [v]))
              [((d :: d2 :: ds2).map (fun v => -v)).map (fun v => -v)])).2
            [[RS1], [RS2.m + 1]] [[-RS1, -(RS2.m + 1)]]
            (fun a => litVal a RS1 && litVal a (RS2.m + 1))
            hvars h00 (le_trans hsub2 hEx2x.1)
            hfin
            (by
              intro c hc
              rcases List.mem_cons.mp hc with rfl | hc
              · intro l hl
                rcases List.mem_cons.mp hl with rfl | hl
                · exact litOk_mono hRok hEx2x.1
                · cases hl
              rcases List.mem_cons.mp hc with rfl | hc
              · intro l hl
                rcases List.mem_cons.mp hl with rfl | hl
                · exact hyok
                · cases hl
              cases hc)
            (by
              intro c hc
              rcases List.mem_cons.mp hc with rfl | hc
              · intro l hl
                rcases List.mem_cons.mp hl with rfl | hl
                · exact litOk_neg (litOk_mono hRok hEx2x.1)
                · rcases List.mem_cons.mp hl with rfl | hl
                  · exact litOk_neg hyok
                  · cases hl
              cases hc)
            (fun a => cnfVal_two_singles a RS1 (RS2.m + 1))
            (fun a => cnfVal_neg_pair a RS1 (RS2.m + 1)
              (litOk_mono hRok hEx2x.1) hyok)
          obtain ⟨hEx3, _, hok3, hsnd3, hext3⟩ := hgad3
          have hsnd3x : ∀ a : Int → Bool,
              cnfVal a (delta (assign RS2 (CVal.pair
                (((d :: d2 :: ds2).map (fun v => -v)).map (fun v => [v]))
                [((d :: d2 :: ds2).map (fun v => -v)).map (fun v => -v)])).2
                (assign (assign RS2 (CVal.pair
                  (((d :: d2 :: ds2).map (fun v => -v)).map (fun v => [v]))
                  [((d :: d2 :: ds2).map (fun v => -v)).map (fun v => -v)])).2
                  (CVal.pair [[RS1], [RS2.m + 1]] [[-RS1, -(RS2.m + 1)]])).2) = true →
              litVal a (assign (assign RS2 (CVal.pair
                  (((d :: d2 :: ds2).map (fun v => -v)).map (fun v => [v]))
                  [((d :: d2 :: ds2).map (fun v => -v)).map (fun v => -v)])).2
                  (CVal.pair [[RS1], [RS2.m + 1]] [[-RS1, -(RS2.m + 1)]])).1
                = (litVal a RS1 && litVal a (RS2.m + 1)) :=
            fun a ha => hsnd3 a ha
          refine ⟨extends_trans hEx1x (extends_trans hEx2x hEx3), ?_, ?_⟩
          · intro a ha
            rw [delta_chain (extends_trans hEx1x hEx2x) hEx3, cnfVal_append,
              Bool.and_eq_true] at ha
            obtain ⟨ha12, ha3⟩ := ha
            have ha12b := ha12
            rw [delta_chain hEx1x hEx2x, cnfVal_append, Bool.and_eq_true] at ha12b
            obtain ⟨ha1, ha2⟩ := ha12b
            rw [hsnd3x a ha3, hsnd2x a ha2, hsnd1x a ha1, all_map_neg a _ hdok]
          · intro a
            obtain ⟨b1, hag1, hb1⟩ := hext1x a
            obtain ⟨b2, hag2, hb2⟩ := hext2 b1
            obtain ⟨b3, hag3, hb3⟩ := hext3 b2
            refine ⟨b3, agreeUpTo_trans hag1 (agreeUpTo_trans
              (agreeUpTo_mono hag2 hEx1x.1)
              (agreeUpTo_mono hag3 (le_trans hEx1x.1 hEx2x.1))), ?_⟩
            rw [delta_chain (extends_trans hEx1x hEx2x) hEx3, cnfVal_append,
              delta_chain hEx1x hEx2x, cnfVal_append]
            have he1 : cnfVal b3 (delta s0 RS2) = true := by
              rw [← cnfVal_agree hok1x
                (agreeUpTo_trans hag2 (agreeUpTo_mono hag3 hEx2x.1))]
              exact hb1
            have he2 : cnfVal b3 (delta RS2 (assign RS2 (CVal.pair
                (((d :: d2 :: ds2).map (fun v => -v)).map (fun v => [v]))
                [((d :: d2 :: ds2).map (fun v => -v)).map (fun v => -v)])).2) = true := by
              rw [← cnfVal_agree hok2x hag3]
              exact hb2
            rw [he1, he2, hb3]
            rfl

/-- The Python usage pattern of `LinearBound`: the returned combinator
value is materialized into a single literal with `assign` (a literal
passes through, a deferred pair receives a fresh defining variable). -/
def LinearBoundA (lits coeffs : List Int) (lo hi : Int) (preprocess : Bool)
    (pol : Polarity) (s : CState) : Int × CState :=
  let r := LinearBound lits coeffs lo hi preprocess pol s
  assign r.2 r.1

theorem all_map_general (f : α → β) (l : List α) (p : β → Bool) :
    (l.map f).all p = l.all (fun x => p (f x)) := by
  induction l with
  | nil => rfl
  | cons x xs ih => simp [List.all_cons, ih]

theorem combineAll_m_le (pol : Polarity) :
    ∀ (args : List CVal) (acc : List Int) (s : CState),
    s.m ≤ (combineAll pol acc args s).2.m := by
  intro args
  induction args with
  | nil =>
    intro acc s
    exact le_refl _
  | cons v rest ih =>
    intro acc s
    rw [combineAll]
    have h1 := assign_m_le s v
    split_ifs with h2 h3
    · exact le_trans h1 (ih acc _)
    · exact h1
    all_goals exact le_trans h1 (ih _ _)

theorem Combine_m_le (args : List CVal) (pol : Polarity) (s : CState) :
    s.m ≤ (Combine args pol s).2.m := by
  rw [Combine]
  by_cases h1 : args.any (fun v => decide (v = CVal.lit FALSE))
  · rw [if_pos h1]
  · rw [if_neg h1]
    cases hm : args.filter (fun v => !decide (v = CVal.lit TRUE)) with
    | nil => exact le_refl _
    | cons v rest =>
      cases rest with
      | nil => exact le_refl _
      | cons v2 rest2 =>
        show s.m ≤ (if (v :: v2 :: rest2).all CVal.isPair = true
          then (CVal.pair ((v :: v2 :: rest2).flatMap CVal.pv)
            ((v :: v2 :: rest2).flatMap CVal.nv), s)
          else combineAll pol [] (v :: v2 :: rest2) s).2.m
        split_ifs
        · exact le_refl _
        · exact combineAll_m_le pol _ _ s

/-- Full correctness of `LinearBound` with preprocessing at polarity
`None`, after materializing the result with `assign`, relative to a
sorted preprocessed equation `q`: the state only grows, in every model
of the emitted clauses the result literal tests whether the weighted sum
of `q` lies in `[lo0, hi0]`, and every assignment of the original
variables extends to a model of the emitted clauses. -/
theorem LinearBound_assign_spec (q : List (Int × Int)) (lits0 coeffs0 : List Int)
    (lo0 hi0 : Int) (s0 : CState)
    (h00 : 0 ≤ s0.m)
    (hqpos : ∀ p ∈ q, 0 < p.1)
    (hqlit : ∀ p ∈ q, litOk s0.m p.2)
    (hqsort : q.Pairwise (fun p r => p.1 ≤ r.1))
    (hqdist : q.Pairwise (fun p r => p.2.natAbs ≠ r.2.natAbs))
    (hpp : LB_Preprocess lits0 coeffs0 = (q.map (fun p => p.2), q.map (fun p => p.1), 0))
    (hfin : (LinearBoundA lits0 coeffs0 lo0 hi0 true none s0).2.m < TRUE) :
    Extends s0 (LinearBoundA lits0 coeffs0 lo0 hi0 true none s0).2 ∧
    (∀ a : Int → Bool,
      cnfVal a (delta s0 (LinearBoundA lits0 coeffs0 lo0 hi0 true none s0).2) = true →
      litVal a (LinearBoundA lits0 coeffs0 lo0 hi0 true none s0).1
        = decide (inB lo0 hi0 (wsumP a q))) ∧
    (∀ a : Int → Bool, ∃ b : Int → Bool, agreeUpTo s0.m a b ∧
      cnfVal b (delta s0 (LinearBoundA lits0 coeffs0 lo0 hi0 true none s0).2) = true) := by
  set ls := q.map (fun p => p.2) with hlsdef
  set cs := q.map (fun p => p.1) with hcsdef
  have hlslen : ls.length = q.length := by rw [hlsdef]; exact List.length_map _ _
  have hcslen : cs.length = q.length := by rw [hcsdef]; exact List.length_map _ _
  have hcspos : ∀ c ∈ cs, 0 < c := by
    intro c hc
    rw [hcsdef] at hc
    obtain ⟨p, hp, rfl⟩ := List.mem_map.mp hc
    exact hqpos p hp
  have hlsok : ∀ l ∈ ls, litOk s0.m l := by
    intro l hl
    rw [hlsdef] at hl
    obtain ⟨p, hp, rfl⟩ := List.mem_map.mp hl
    exact hqlit p hp
  have hlsdist : ls.Pairwise (fun a b => a.natAbs ≠ b.natAbs) := by
    rw [hlsdef, List.pairwise_map]
    exact hqdist
  have hcssort : cs.Pairwise (· ≤ ·) := by
    rw [hcsdef, List.pairwise_map]
    exact hqsort
  have hzipq : cs.zip ls = q := by
    rw [hcsdef, hlsdef]
    exact zip_fst_snd q
  have hvarsN : ∀ n : Nat, ∀ v ∈ bddVars ls n, 0 < v ∧ v ≤ s0.m := by
    intro n v hv
    rw [bddVars] at hv
    obtain ⟨l, hl, rfl⟩ := List.mem_map.mp hv
    obtain ⟨hz, hT, hle⟩ := hlsok l (List.take_subset _ _ hl)
    exact ⟨by omega, hle⟩
  simp only [LinearBoundA, LinearBound, hpp, if_true, sub_zero] at hfin ⊢
  by_cases hcond : cs.length ≠ 0 ∧ cs.getLast?.getD 0 > hi0
  · -- pruning is enabled
    rw [if_pos hcond] at hfin ⊢
    set NP := (cs.filter (fun c => decide (c > hi0))).length with hNPdef
    set NT := cs.length - NP with hNTdef
    have hNPle : NP ≤ cs.length := by rw [hNPdef]; exact List.length_filter_le _ _
    have hcsne : cs ≠ [] := by
      intro hc
      exact hcond.1 (by rw [hc]; rfl)
    have hnpne : NP ≠ 0 := by
      have hlast : cs.getLast?.getD 0 ∈ cs := by
        rw [List.getLast?_eq_getLast cs hcsne]
        exact List.getLast_mem hcsne
      have hmemf : cs.getLast?.getD 0 ∈ cs.filter (fun c => decide (c > hi0)) :=
        List.mem_filter.mpr ⟨hlast, decide_eq_true hcond.2⟩
      intro hc
      rw [hNPdef, List.length_eq_zero] at hc
      rw [hc] at hmemf
      cases hmemf
    rw [if_pos hnpne] at hfin ⊢
    have hsplit := sorted_split cs hi0 hcssort
    rw [← hNPdef, ← hNTdef] at hsplit
    have hbig : ∀ p ∈ q.drop NT, hi0 < p.1 := by
      intro p hp
      have hmem : p.1 ∈ cs.drop NT := by
        rw [hcsdef, ← List.map_drop]
        exact List.mem_map_of_mem _ hp
      exact hsplit.2 p.1 hmem
    have hconv : ∀ a : Int → Bool,
        (decide (inB (max lo0 0) (min hi0 ((cs.take NT).sum)) (psum a ls cs NT))
          && (ls.drop NT).all (fun l => !litVal a l))
        = decide (inB lo0 hi0 (wsumP a q)) := by
      intro a
      have hpq : psum a ls cs NT = wsumP a (q.take NT) := by
        rw [psum_eq_wsumP, hzipq]
      rw [hpq]
      refine prune_reduction q lo0 hi0 (max lo0 0) (min hi0 ((cs.take NT).sum))
        ((cs.take NT).sum) NT a _ hqpos hbig rfl rfl ?_ ?_
      · rw [hcsdef, ← List.map_take]
      · rw [hlsdef, ← List.map_drop, all_map_general, List.all_eq_true]
        constructor
        · intro h p hp
          have h3 : (!litVal a p.2) = true := h p hp
          cases hlv : litVal a p.2
          · rfl
          · rw [hlv] at h3
            cases h3
        · intro h p hp
          have h3 : litVal a p.2 = false := h p hp
          show (!litVal a p.2) = true
          rw [h3]
          rfl
    by_cases hlohi : max lo0 0 > min hi0 ((cs.take NT).sum)
    · rw [if_pos hlohi] at hfin ⊢
      refine ⟨extends_refl s0, ?_, ?_⟩
      · intro a ha
        show litVal a FALSE = decide (inB lo0 hi0 (wsumP a q))
        rw [litVal_FALSE, ← hconv a]
        have hdf : decide (inB (max lo0 0) (min hi0 ((cs.take NT).sum))
            (psum a ls cs NT)) = false := by
          rw [decide_eq_false_iff_not]
          intro hin
          have h1 := hin.1
          have h2 := hin.2
          omega
        rw [hdf, Bool.false_and]
      · intro a
        refine ⟨a, agreeUpTo_refl _ _, ?_⟩
        show cnfVal a (delta s0 s0) = true
        rw [delta_self]
        rfl
    · rw [if_neg hlohi] at hfin ⊢
      have hdsne : ls.drop NT ≠ [] := by
        intro hc
        have h1 := congrArg List.length hc
        rw [List.length_drop] at h1
        simp only [List.length_nil] at h1
        omega
      have hdok : ∀ l ∈ ls.drop NT, litOk s0.m l :=
        fun l hl => hlsok l (List.drop_subset _ _ hl)
      have hdsdist : (ls.drop NT).Pairwise (fun a b => a.natAbs ≠ b.natAbs) :=
        List.Pairwise.sublist (List.drop_sublist _ _) hlsdist
      have hcrossTD : ∀ t ∈ ls.take NT, ∀ l ∈ ls.drop NT, t.natAbs ≠ l.natAbs := by
        have hpw := hlsdist
        rw [← List.take_append_drop NT ls] at hpw
        exact (List.pairwise_append.mp hpw).2.2
      by_cases hnt : NT = 0
      · rw [if_pos hnt] at hfin ⊢
        have hrfacts : (0 : Int) ≤ max lo0 0 := le_max_right _ _
        have h1 : EmitSpec s0.m (bddVars ls NT) s0
            (CVal.lit (if max lo0 0 = 0 then TRUE else FALSE), s0)
            (fun a => decide (inB (max lo0 0) (min hi0 ((cs.take NT).sum))
              (psum a ls cs NT))) := by
          refine emitSpec_lit s0.m (bddVars ls NT) s0 _ _ ?_ ?_
          · split_ifs
            · exact Or.inl rfl
            · exact Or.inr (Or.inl rfl)
          · intro a
            have hps0 : psum a ls cs NT = 0 := by rw [hnt, psum_zero]
            rw [hps0]
            by_cases hLO : max lo0 0 = 0
            · rw [if_pos hLO, litVal_TRUE]
              symm
              rw [decide_eq_true_iff]
              exact ⟨by omega, by omega⟩
            · rw [if_neg hLO, litVal_FALSE]
              symm
              rw [decide_eq_false_iff_not]
              intro hin
              have h2 := hin.1
              omega
        have hcross : (if max lo0 0 = 0 then TRUE else FALSE) ≠ TRUE →
            (if max lo0 0 = 0 then TRUE else FALSE) ≠ FALSE →
            ∀ l ∈ ls.drop NT,
              (if max lo0 0 = 0 then TRUE else FALSE).natAbs ≠ l.natAbs := by
          intro hT hF
          exfalso
          by_cases hLO : max lo0 0 = 0
          · exact hT (if_pos hLO)
          · exact hF (if_neg hLO)
        have hPC := prune_combine_spec s0.m (bddVars ls NT) s0 s0
          (if max lo0 0 = 0 then TRUE else FALSE) (ls.drop NT)
          (fun a => decide (inB (max lo0 0) (min hi0 ((cs.take NT).sum))
            (psum a ls cs NT)))
          (hvarsN NT) h00 (le_refl s0.m) h1 hdsne hdok hdsdist hcross hfin
        refine ⟨hPC.1, ?_, hPC.2.2⟩
        intro a ha
        have h4 := hPC.2.1 a ha
        rw [h4]
        exact hconv a
      · rw [if_neg hnt] at hfin ⊢
        have hfinBDD : (BDD ls cs NT (max lo0 0) (min hi0 ((cs.take NT).sum))
            none s0).2.m < TRUE := by
          have hm1 := Combine_m_le
            [CVal.lit (BDD ls cs NT (max lo0 0) (min hi0 ((cs.take NT).sum)) none s0).1,
             AllC ((ls.drop NT).map (fun a => -a)) none] none
            (BDD ls cs NT (max lo0 0) (min hi0 ((cs.take NT).sum)) none s0).2
          have hm2 := assign_m_le
            (Combine
              [CVal.lit (BDD ls cs NT (max lo0 0) (min hi0 ((cs.take NT).sum)) none s0).1,
               AllC ((ls.drop NT).map (fun a => -a)) none] none
              (BDD ls cs NT (max lo0 0) (min hi0 ((cs.take NT).sum)) none s0).2).2
            (Combine
              [CVal.lit (BDD ls cs NT (max lo0 0) (min hi0 ((cs.take NT).sum)) none s0).1,
               AllC ((ls.drop NT).map (fun a => -a)) none] none
              (BDD ls cs NT (max lo0 0) (min hi0 ((cs.take NT).sum)) none s0).2).1
          omega
        have h1 := BDD_spec ls cs (max lo0 0) (min hi0 ((cs.take NT).sum)) NT s0 h00
          (by omega) (by omega)
          (fun c hc => hcspos c (List.take_subset _ _ hc))
          (fun l hl => hlsok l (List.take_subset _ _ hl))
          hfinBDD
        have hcross : (BDD ls cs NT (max lo0 0) (min hi0 ((cs.take NT).sum))
              none s0).1 ≠ TRUE →
            (BDD ls cs NT (max lo0 0) (min hi0 ((cs.take NT).sum)) none s0).1 ≠ FALSE →
            ∀ l ∈ ls.drop NT,
              (BDD ls cs NT (max lo0 0) (min hi0 ((cs.take NT).sum))
                none s0).1.natAbs ≠ l.natAbs := by
          intro hT hF l hl
          have hbl : bddLit s0.m
              (BDD ls cs NT (max lo0 0) (min hi0 ((cs.take NT).sum)) none s0).2.m
              (bddVars ls NT)
              (BDD ls cs NT (max lo0 0) (min hi0 ((cs.take NT).sum)) none s0).1 :=
            h1.2.1
          rcases hbl with hbl | hbl | ⟨hz, hTa, hbl⟩
          · exact absurd hbl hT
          · exact absurd hbl hF
          rcases hbl with hbl | hbl
          · rw [bddVars] at hbl
            obtain ⟨t, ht, heq⟩ := List.mem_map.mp hbl
            have hne := hcrossTD t ht l hl
            have heq2 := Nat.cast_inj.mp heq
            rw [← heq2]
            exact hne
          · obtain ⟨hz2, hT2, hle2⟩ := hlsok l (List.drop_subset _ _ hl)
            omega
        have hPC := prune_combine_spec s0.m (bddVars ls NT) s0
          (BDD ls cs NT (max lo0 0) (min hi0 ((cs.take NT).sum)) none s0).2
          (BDD ls cs NT (max lo0 0) (min hi0 ((cs.take NT).sum)) none s0).1
          (ls.drop NT)
          (fun a => decide (inB (max lo0 0) (min hi0 ((cs.take NT).sum))
            (psum a ls cs NT)))
          (hvarsN NT) h00 (le_refl s0.m) h1 hdsne hdok hdsdist hcross hfin
        refine ⟨hPC.1, ?_, hPC.2.2⟩
        intro a ha
        have h4 := hPC.2.1 a ha
        rw [h4]
        exact hconv a
  · -- no pruning
    rw [if_neg hcond] at hfin ⊢
    simp only [Nat.sub_zero] at hfin ⊢
    rw [if_neg (fun h : (0 : Nat) ≠ 0 => h rfl)] at hfin ⊢
    have hbig : ∀ p ∈ q.drop cs.length, hi0 < p.1 := by
      intro p hp
      rw [hcslen, List.drop_length] at hp
      cases hp
    have hconv : ∀ a : Int → Bool,
        (decide (inB (max lo0 0) (min hi0 ((cs.take cs.length).sum))
          (psum a ls cs cs.length))
          && (ls.drop cs.length).all (fun l => !litVal a l))
        = decide (inB lo0 hi0 (wsumP a q)) := by
      intro a
      have hpq : psum a ls cs cs.length = wsumP a (q.take cs.length) := by
        rw [psum_eq_wsumP, hzipq]
      rw [hpq]
      refine prune_reduction q lo0 hi0 (max lo0 0) (min hi0 ((cs.take cs.length).sum))
        ((cs.take cs.length).sum) cs.length a _ hqpos hbig rfl rfl ?_ ?_
      · rw [hcsdef, ← List.map_take]
      · rw [hlsdef, ← List.map_drop, all_map_general, List.all_eq_true]
        constructor
        · intro h p hp
          have h3 : (!litVal a p.2) = true := h p hp
          cases hlv : litVal a p.2
          · rfl
          · rw [hlv] at h3
            cases h3
        · intro h p hp
          have h3 : litVal a p.2 = false := h p hp
          show (!litVal a p.2) = true
          rw [h3]
          rfl
    have hallnil : ∀ a : Int → Bool,
        (ls.drop cs.length).all (fun l => !litVal a l) = true := by
      intro a
      have hdropnil : ls.drop cs.length = [] :=
        List.drop_eq_nil_of_le (by omega)
      rw [hdropnil]
      rfl
    by_cases hlohi : max lo0 0 > min hi0 ((cs.take cs.length).sum)
    · rw [if_pos hlohi] at hfin ⊢
      refine ⟨extends_refl s0, ?_, ?_⟩
      · intro a ha
        show litVal a FALSE = decide (inB lo0 hi0 (wsumP a q))
        rw [litVal_FALSE, ← hconv a]
        have hdf : decide (inB (max lo0 0) (min hi0 ((cs.take cs.length).sum))
            (psum a ls cs cs.length)) = false := by
          rw [decide_eq_false_iff_not]
          intro hin
          have h1 := hin.1
          have h2 := hin.2
          omega
        rw [hdf, Bool.false_and]
      · intro a
        refine ⟨a, agreeUpTo_refl _ _, ?_⟩
        show cnfVal a (delta s0 s0) = true
        rw [delta_self]
        rfl
    · rw [if_neg hlohi] at hfin ⊢
      by_cases hnt : cs.length = 0
      · rw [if_pos hnt] at hfin ⊢
        refine ⟨extends_refl s0, ?_, ?_⟩
        · intro a ha
          show litVal a (if max lo0 0 = 0 then TRUE else FALSE)
            = decide (inB lo0 hi0 (wsumP a q))
          rw [← hconv a, hallnil a, Bool.and_true]
          have hps0 : psum a ls cs cs.length = 0 := by rw [hnt, psum_zero]
          rw [hps0]
          have hrfacts : (0 : Int) ≤ max lo0 0 := le_max_right _ _
          by_cases hLO : max lo0 0 = 0
          · rw [if_pos hLO, litVal_TRUE]
            symm
            rw [decide_eq_true_iff]
            exact ⟨by omega, by omega⟩
          · rw [if_neg hLO, litVal_FALSE]
            symm
            rw [decide_eq_false_iff_not]
            intro hin
            have h2 := hin.1
            omega
        · intro a
          refine ⟨a, agreeUpTo_refl _ _, ?_⟩
          show cnfVal a (delta s0 s0) = true
          rw [delta_self]
          rfl
      · rw [if_neg hnt] at hfin ⊢
        have hfinBDD : (BDD ls cs cs.length (max lo0 0)
            (min hi0 ((cs.take cs.length).sum)) none s0).2.m < TRUE := hfin
        have h1 := BDD_spec ls cs (max lo0 0) (min hi0 ((cs.take cs.length).sum))
          cs.length s0 h00 (by omega) (le_refl _)
          (fun c hc => hcspos c (List.take_subset _ _ hc))
          (fun l hl => hlsok l (List.take_subset _ _ hl))
          hfinBDD
        obtain ⟨hEx1, hbl1, hok1, hsnd1, hext1⟩ := h1
        refine ⟨hEx1, ?_, ?_⟩
        · intro a ha
          have ha2 : cnfVal a (delta s0 (BDD ls cs cs.length (max lo0 0)
              (min hi0 ((cs.take cs.length).sum)) none s0).2) = true := ha
          have hv : litVal a (BDD ls cs cs.length (max lo0 0)
              (min hi0 ((cs.take cs.length).sum)) none s0).1
              = decide (inB (max lo0 0) (min hi0 ((cs.take cs.length).sum))
                (psum a ls cs cs.length)) := hsnd1 a ha2
          show litVal a (BDD ls cs cs.length (max lo0 0)
              (min hi0 ((cs.take cs.length).sum)) none s0).1
            = decide (inB lo0 hi0 (wsumP a q))
          rw [hv, ← hconv a, hallnil a, Bool.and_true]
        · exact hext1

/-- C1: for every list of distinct variable literals and list of
positive coefficients of the same length and any integer bounds
`lo0, hi0`, the value returned by
`LinearBound(lits, coeffs, lo0, hi0, preprocess=True, polarity=None)`,
materialized into a single literal with `assign`, admits exactly the
in-bounds assignments: in every model of all clauses the call emits the
literal is true iff the weighted sum of the true input literals lies in
`[lo0, hi0]`, and every assignment of the original variables extends to
a model of the emitted clauses. -/
theorem LinearBound_sound (lits0 coeffs0 : List Int) (lo0 hi0 : Int) (s0 : CState)
    (h00 : 0 ≤ s0.m)
    (hlen : lits0.length = coeffs0.length)
    (hlit : ∀ l ∈ lits0, litOk s0.m l)
    (hpos : ∀ c ∈ coeffs0, 0 < c)
    (hdist : lits0.Pairwise (fun x y => x.natAbs ≠ y.natAbs))
    (hfin : (LinearBoundA lits0 coeffs0 lo0 hi0 true none s0).2.m < TRUE) :
    (∀ a : Int → Bool,
      cnfVal a (delta s0 (LinearBoundA lits0 coeffs0 lo0 hi0 true none s0).2) = true →
      (litVal a (LinearBoundA lits0 coeffs0 lo0 hi0 true none s0).1 = true ↔
        inB lo0 hi0 (wsum a coeffs0 lits0))) ∧
    (∀ a : Int → Bool, ∃ b : Int → Bool, agreeUpTo s0.m a b ∧
      cnfVal b (delta s0 (LinearBoundA lits0 coeffs0 lo0 hi0 true none s0).2) = true) := by
  have hzip : ∀ p ∈ coeffs0.zip lits0, 0 < p.1 ∧ p.2 ≠ TRUE ∧ p.2 ≠ FALSE := by
    intro p hp
    have h1 := (List.of_mem_zip hp).1
    have h2 := (List.of_mem_zip hp).2
    exact ⟨hpos p.1 h1, litOk_ne_sentinel (hlit p.2 h2)⟩
  have hqperm : (sortLe lexLe (coeffs0.zip lits0)).Perm (coeffs0.zip lits0) :=
    sortLe_perm lexLe _
  have hqpos : ∀ p ∈ sortLe lexLe (coeffs0.zip lits0), 0 < p.1 :=
    fun p hp => (hzip p (hqperm.mem_iff.mp hp)).1
  have hqlit : ∀ p ∈ sortLe lexLe (coeffs0.zip lits0), litOk s0.m p.2 :=
    fun p hp => hlit p.2 (List.of_mem_zip (hqperm.mem_iff.mp hp)).2
  have hqsort : (sortLe lexLe (coeffs0.zip lits0)).Pairwise (fun p r => p.1 ≤ r.1) := by
    refine (sortLe_sorted lexLe lexLe_trans lexLe_total _).imp ?_
    intro a b h
    simp only [lexLe, Bool.or_eq_true, Bool.and_eq_true, decide_eq_true_eq] at h
    omega
  have hdist2 : ((coeffs0.zip lits0).map Prod.snd).Pairwise
      (fun x y => x.natAbs ≠ y.natAbs) := by
    rw [List.map_snd_zip coeffs0 lits0 (by omega)]
    exact hdist
  have hqdist : (sortLe lexLe (coeffs0.zip lits0)).Pairwise
      (fun p r => p.2.natAbs ≠ r.2.natAbs) := by
    have h1 := List.pairwise_map.mp hdist2
    exact (hqperm.pairwise_iff (fun h2 => Ne.symm h2)).mpr h1
  have hpp : LB_Preprocess lits0 coeffs0
      = ((sortLe lexLe (coeffs0.zip lits0)).map (fun p => p.2),
         (sortLe lexLe (coeffs0.zip lits0)).map (fun p => p.1), 0) := by
    simp only [LB_Preprocess]
    rw [lbpLoop_fixed _ hzip]
  have hM := LinearBound_assign_spec (sortLe lexLe (coeffs0.zip lits0)) lits0 coeffs0
    lo0 hi0 s0 h00 hqpos hqlit hqsort hqdist hpp hfin
  have hqw : ∀ a : Int → Bool,
      wsumP a (sortLe lexLe (coeffs0.zip lits0)) = wsum a coeffs0 lits0 :=
    fun a => wsumP_perm a hqperm
  refine ⟨?_, hM.2.2⟩
  intro a ha
  rw [hM.2.1 a ha, hqw a, decide_eq_true_iff]

/-- Concrete instantiation of the `LinearBound` soundness theorem:
two variable literals with coefficients `1` and `2`, bounds `[1, 2]`,
on a fresh driver with two variables. -/
theorem LinearBound_sound_witness :
    (∀ l ∈ [(1 : Int), 2], litOk (2 : Int) l) ∧
    (∀ c ∈ [(1 : Int), 2], 0 < c) ∧
    (LinearBoundA [1, 2] [1, 2] 1 2 true none
      { m := 2, unsat := false, clauses := [] }).2.m < TRUE ∧
    (∀ a : Int → Bool, ∃ b : Int → Bool, agreeUpTo (2 : Int) a b ∧
      cnfVal b (delta { m := 2, unsat := false, clauses := [] }
        (LinearBoundA [1, 2] [1, 2] 1 2 true none
          { m := 2, unsat := false, clauses := [] }).2) = true) :=
  ⟨by decide, by decide, by decide,
   (LinearBound_sound [1, 2] [1, 2] 1 2 { m := 2, unsat := false, clauses := [] }
      (by decide) (by decide) (by decide) (by decide) (by decide) (by decide)).2⟩

end CondaLogic
